import Mathlib

/-!
Verification development for the path-addressed data reconciliation engine of
dynform-react.

The engine under study consists of
* the path-segment parser `parsePathComponent`,
* the in-place path resolver `insertValueByPath`, and
* the structural diff engine `mergeArrays` / `computeArrayDiff` / `computeDiff`.

The diff engine never mutates its arguments (this is itself proved below, over
an explicit heap model), so its value-level behaviour is embedded over a tree
type `JVal` of JavaScript values.  The resolver mutates the caller's object
graph in place and returns an aliasing pointer, so it is embedded over an
explicit heap (`Heap`, `HVal`, `HObj`): objects live at addresses, variables
hold primitives or references, and every read/write goes through the heap.

JavaScript specifics that the source relies on are modelled explicitly:
* `typeof null = 'object'` (so `null` passes the diff engine's object checks),
* `Object.keys` ordering (canonical array-index keys first, ascending, then
  string keys in insertion order),
* `parseInt` (whitespace skip, sign, hexadecimal prefix, longest digit run),
* strict equality `===` on primitives (the diff engine only ever compares with
  `===` when at most one side is object-typed, where reference equality
  coincides with structural comparison on our trees),
* strict-mode TypeErrors: writing a property of a primitive, calling `.push`
  on a non-array, and reading a property of `null`/`undefined` all throw.

Numbers are modelled as `Int`: every numeric literal appearing in the engine
(indices, form scalars in the claims) is integral, and no arithmetic is
performed on data values, so float behaviour (NaN, -0) is never exercised.
-/

namespace DynForm

/-! ## Association-list primitives

JavaScript records (`Record<string, T>`) are modelled as insertion-ordered
association lists with unique keys.  `rset` is JS property assignment: an
existing key is updated in place (keeping its position), a new key is appended.
`lookupKV` is property read. -/

def rset {κ α : Type} [DecidableEq κ] : List (κ × α) → κ → α → List (κ × α)
  | [], k, v => [(k, v)]
  | (k', v') :: rest, k, v =>
    if k' = k then (k, v) :: rest else (k', v') :: rset rest k v

def lookupKV {κ α : Type} [DecidableEq κ] : List (κ × α) → κ → Option α
  | [], _ => none
  | (k', v') :: rest, k => if k' = k then some v' else lookupKV rest k

theorem lookupKV_rset_self {κ α : Type} [DecidableEq κ] (l : List (κ × α)) (k : κ) (v : α) :
    lookupKV (rset l k v) k = some v := by
  induction l with
  | nil => simp [rset, lookupKV]
  | cons p rest ih =>
    obtain ⟨k', v'⟩ := p
    by_cases h : k' = k
    · simp [rset, lookupKV, h]
    · simp [rset, lookupKV, h, ih]

theorem lookupKV_rset_ne {κ α : Type} [DecidableEq κ] (l : List (κ × α)) (k k₂ : κ) (v : α)
    (h : k₂ ≠ k) : lookupKV (rset l k v) k₂ = lookupKV l k₂ := by
  induction l with
  | nil => simp [rset, lookupKV, Ne.symm h]
  | cons p rest ih =>
    obtain ⟨k', v'⟩ := p
    by_cases hk : k' = k
    · subst hk
      simp [rset, lookupKV, Ne.symm h]
    · simp [rset, lookupKV, hk, ih]

theorem rset_self_of_lookup {κ α : Type} [DecidableEq κ] (l : List (κ × α)) (k : κ) (v : α)
    (h : lookupKV l k = some v) : rset l k v = l := by
  induction l with
  | nil => simp [lookupKV] at h
  | cons p rest ih =>
    obtain ⟨k', v'⟩ := p
    by_cases hk : k' = k
    · subst hk
      simp [lookupKV] at h
      simp [rset, h]
    · simp [lookupKV, hk] at h
      simp [rset, hk, ih h]

/-! ## The JavaScript `parseInt` used by `parsePathComponent`

`parseInt(s)` with no radix: skip leading whitespace, read an optional sign,
then either a `0x`/`0X` hexadecimal run or the longest run of decimal digits;
no digits at all gives `NaN` (modelled as `none`). -/

def digitsToNat (ds : List Char) : Nat :=
  ds.foldl (fun a c => a * 10 + (c.toNat - 48)) 0

def hexDigitToNat (c : Char) : Nat :=
  if c.isDigit then c.toNat - 48
  else if 'a' ≤ c ∧ c ≤ 'f' then c.toNat - 87
  else c.toNat - 55

def isHexDigit (c : Char) : Bool :=
  c.isDigit || ('a' ≤ c && c ≤ 'f') || ('A' ≤ c && c ≤ 'F')

def hexToNat (ds : List Char) : Nat :=
  ds.foldl (fun a c => a * 16 + hexDigitToNat c) 0

def jsParseInt (s : String) : Option Int :=
  let cs := s.data.dropWhile Char.isWhitespace
  let signed : Int × List Char :=
    match cs with
    | '-' :: rest => (-1, rest)
    | '+' :: rest => (1, rest)
    | _ => (1, cs)
  match signed.2 with
  | '0' :: 'x' :: rest =>
    let ds := rest.takeWhile isHexDigit
    if ds = [] then none else some (signed.1 * hexToNat ds)
  | '0' :: 'X' :: rest =>
    let ds := rest.takeWhile isHexDigit
    if ds = [] then none else some (signed.1 * hexToNat ds)
  | rest =>
    let ds := rest.takeWhile Char.isDigit
    if ds = [] then none else some (signed.1 * digitsToNat ds)

/-- `String.split` by a single-character separator, structurally over the
character list (the source only splits on `'/'`, `'['` and `']'`).  Matches
JS `String.prototype.split`: `"".split(c)` is `['']`, separators at the ends
produce empty groups. -/
def splitChars (sep : Char) : List Char → List (List Char)
  | [] => [[]]
  | c :: rest =>
    let r := splitChars sep rest
    if c = sep then [] :: r
    else (c :: r.headD []) :: r.tail

def jsSplit (s : String) (sep : Char) : List String :=
  (splitChars sep s.data).map String.mk

/-! ## `parsePathComponent` -/

/-- An individual component in a slash-separated path (source type
`PathComponent`): a plain name, a named array (with optional explicit index),
or a map-key dereference. -/
structure PathComponent where
  name : String
  isArray : Bool := false
  index : Option Int := none
  key : Option String := none
deriving Repr, DecidableEq

/-- Source `parsePathComponent`: split on the first `[`; text before it is the
name; bracket content that parses as an integer gives an array index, other
non-empty content gives a map key, empty content gives the array-append form. -/
def parsePathComponent (component : String) : PathComponent :=
  let parts := jsSplit component '['
  let name := parts.headD ""
  match parts[1]? with
  | none => { name := name }
  | some restIndex =>
    if restIndex = "" then { name := name }
    else
      let rawIndex := (jsSplit restIndex ']').headD ""
      if rawIndex = "" then { name := name, isArray := true }
      else
        match jsParseInt rawIndex with
        | none => { name := name, key := some rawIndex }
        | some i => { name := name, isArray := true, index := some i }

/-! ## JavaScript values as trees

Diff-engine inputs are snapshots (nested plain data).  The engine never
mutates them (proved over the heap model below), so the value-level embedding
uses trees. -/

inductive JVal where
  | undef
  | null
  | bool (b : Bool)
  | num (n : Int)
  | str (s : String)
  | arr (elems : List JVal)
  | obj (fields : List (String × JVal))
deriving Repr

mutual

def jsize : JVal → Nat
  | .arr xs => jsizeList xs + 1
  | .obj fs => jsizeFields fs + 1
  | _ => 1

def jsizeList : List JVal → Nat
  | [] => 0
  | v :: rest => jsize v + jsizeList rest + 1

def jsizeFields : List (String × JVal) → Nat
  | [] => 0
  | (_, v) :: rest => jsize v + jsizeFields rest + 1

end

/-- `typeof v === 'object'`: true for `null`, arrays and plain objects. -/
def jsTypeofObject : JVal → Bool
  | .null => true
  | .arr _ => true
  | .obj _ => true
  | _ => false

/-- `v instanceof Array`. -/
def isJsArr : JVal → Bool
  | .arr _ => true
  | _ => false

/-- The element list of a value already guarded by `instanceof Array` (the
diff engine only extracts elements after that guard, so the default branch is
unreachable at every use). -/
def asArrElems : JVal → List JVal
  | .arr xs => xs
  | _ => []

/-! ## `Object.keys` ordering

JS own-property order: canonical array-index keys first in ascending numeric
order, then string keys in insertion order.  A canonical index is a string
that round-trips through `Nat` and is below `2^32 - 1`. -/

/-- Decimal digit strings, structurally over the characters (`String.toNat?`
does not reduce in the kernel). -/
def strToNat? (s : String) : Option Nat :=
  if s.data ≠ [] ∧ s.data.all Char.isDigit then some (digitsToNat s.data)
  else none

def isCanonicalIndex (s : String) : Bool :=
  match strToNat? s with
  | some n => (Nat.repr n == s) && decide (n < 4294967295)
  | none => false

def keyNatVal (s : String) : Nat := (strToNat? s).getD 0

def jsKeyOrder (l : List String) : List String :=
  List.insertionSort (fun a b => keyNatVal a ≤ keyNatVal b)
      (l.filter (fun s => isCanonicalIndex s))
    ++ l.filter (fun s => !isCanonicalIndex s)

/-- Insert one key into a key set, first occurrence winning. -/
def insertKey (acc : List String) (k : String) : List String :=
  if k ∈ acc then acc else acc ++ [k]

def dedupKeys (l : List String) : List String := l.foldl insertKey []

/-- Errors of the (tree-level) diff engine: a JavaScript `TypeError`
(`Object.keys(null)`), or exhaustion of the structural fuel (never reached
with the budget used by the wrappers; see the fuel lemmas). -/
inductive DErr where
  | typeError
  | fuelOut
deriving Repr, DecidableEq

/-- `Object.keys(v)`: throws on `null`/`undefined`; index strings for arrays
and strings; ordered own keys for plain objects; empty for other primitives. -/
def jsKeys : JVal → Except DErr (List String)
  | .undef => .error .typeError
  | .null => .error .typeError
  | .str s => .ok ((List.range s.length).map Nat.repr)
  | .arr xs => .ok ((List.range xs.length).map Nat.repr)
  | .obj fs => .ok (jsKeyOrder (dedupKeys (fs.map Prod.fst)))
  | .num _ => .ok []
  | .bool _ => .ok []

/-- Property read on an array value: `length`, in-range canonical indices,
everything else `undefined` (tree-level arrays carry no extra properties). -/
def jsGetList (xs : List JVal) (k : String) : JVal :=
  if k = "length" then .num xs.length
  else if isCanonicalIndex k then
    match xs[keyNatVal k]? with
    | some v => v
    | none => .undef
  else (.undef)

/-- Property read `v[k]`.  The diff engine only reads properties of values on
which `Object.keys` already succeeded, so the `null`/`undefined` cases (which
would throw in JS) are unreachable and map to `undefined`. -/
def jsGet : JVal → String → JVal
  | .obj fs, k => (lookupKV fs k).getD .undef
  | .arr xs, k => jsGetList xs k
  | .str s, k =>
    if k = "length" then .num s.length
    else
      match s.data[keyNatVal k]? with
      | some c => if isCanonicalIndex k then .str (String.mk [c]) else .undef
      | none => .undef
  | _, _ => (.undef)

/-- JS `===` as the diff engine uses it.  Every `===` in the engine runs after
the object-type guards have failed, so at most one side is object-typed;
reference equality therefore never arises, and comparing constructors of
primitives is exact.  Object-vs-primitive (and object-vs-object, unreachable)
compare unequal. -/
def jsStrictEq : JVal → JVal → Bool
  | .undef, .undef => true
  | .null, .null => true
  | .bool a, .bool b => a == b
  | .num a, .num b => a == b
  | .str a, .str b => a == b
  | _, _ => false

/-- Source `mergeArrays`: both key lists are inserted into a record (first
occurrence wins) and the result is read back with `Object.keys`, which applies
the canonical ordering. -/
def mergeArrays (arr1 arr2 : List String) : List String :=
  jsKeyOrder (dedupKeys (arr1 ++ arr2))

/-- Source `DiffResults`: a `hasDiff` flag plus a record from path string to
the pair `[oldValue, newValue]`. -/
structure DiffResults where
  hasDiff : Bool
  diffs : List (String × (JVal × JVal))
deriving Repr

/-- `const prefix = curpath ? curpath + '/' : ''`. -/
def prefixStr (curpath : String) : String :=
  if curpath = "" then "" else curpath ++ "/"

/-! ## The diff engine

`goDiff`/`goKeys` are the body of source `computeDiff`; `goArr`/`goIdx` the
body of source `computeArrayDiff`.  The mutual recursion of the source is
bounded here by a fuel counter that decreases at each `computeDiff` entry;
`goDiff_fuel_irrelevant` and the totality lemmas below show the wrappers'
budget is never exhausted, so the fuel is invisible at the wrapper level.

In `goKeys`'s array branch the source merges with
`for (const index in arrdiff.diffs)`: every key of an array diff starts with
a bracket (`goArr` only records under keys of shape `[i]`), so it is not a
canonical index string and `for...in` runs in insertion order, which is the
list order of `arrdiff.diffs`. -/

/-- The index loop of source `computeArrayDiff`, parameterized by the
`computeDiff` of the same fuel level (`dif`), structurally on the index
list. -/
def goIdxWith
    (dif : JVal → JVal → String → DiffResults → Except DErr DiffResults) :
    List Nat → List JVal → List JVal → List (String × (JVal × JVal)) → Nat →
    Except DErr (List (String × (JVal × JVal)) × Nat)
  | [], _, _, ds, errs => .ok (ds, errs)
  | i :: rest, oval, nval, ds, errs =>
    let ov := oval.getD i .undef
    let nv := nval.getD i .undef
    if jsTypeofObject ov && jsTypeofObject nv then
      match dif ov nv "" { hasDiff := false, diffs := [] } with
      | .error e => .error e
      | .ok sub =>
        if sub.hasDiff then
          goIdxWith dif rest oval nval
            (rset ds ("[" ++ Nat.repr i ++ "]") (ov, nv)) (errs + 1)
        else goIdxWith dif rest oval nval ds errs
    else
      if jsStrictEq ov nv then goIdxWith dif rest oval nval ds errs
      else goIdxWith dif rest oval nval
        (rset ds ("[" ++ Nat.repr i ++ "]") (ov, nv)) (errs + 1)

/-- Source `computeArrayDiff`: fresh result record, loop indices `0..max-1`,
`hasDiff = !!errs`. -/
def goArrWith
    (dif : JVal → JVal → String → DiffResults → Except DErr DiffResults)
    (oval nval : List JVal) : Except DErr DiffResults :=
  let mx := if oval.length > nval.length then oval.length else nval.length
  match goIdxWith dif (List.range mx) oval nval [] 0 with
  | .error e => .error e
  | .ok (ds, errs) => .ok { hasDiff := errs != 0, diffs := ds }

/-- The `for (const okey of mergeArrays(...))` loop of source `computeDiff`,
parameterized by the `computeDiff` of the same fuel level. -/
def goKeysWith
    (dif : JVal → JVal → String → DiffResults → Except DErr DiffResults) :
    List String → JVal → JVal → String → DiffResults → Except DErr DiffResults
  | [], _, _, _, curdiff => .ok curdiff
  | okey :: rest, oval, nval, pre, curdiff =>
    let ov := jsGet oval okey
    let nv := jsGet nval okey
    let step : Except DErr DiffResults :=
      if isJsArr ov && isJsArr nv then
        match goArrWith dif (asArrElems ov) (asArrElems nv) with
        | .error e => .error e
        | .ok arrdiff =>
          .ok (if arrdiff.hasDiff then
              { hasDiff := true,
                diffs := arrdiff.diffs.foldl
                  (fun d p => rset d (pre ++ okey ++ p.1) p.2) curdiff.diffs }
            else curdiff)
      else if jsTypeofObject ov && jsTypeofObject nv then
        dif ov nv (pre ++ okey) curdiff
      else if jsStrictEq ov nv then .ok curdiff
      else .ok { hasDiff := true,
                 diffs := rset curdiff.diffs (pre ++ okey) (ov, nv) }
    match step with
    | .error e => .error e
    | .ok curdiff₂ => goKeysWith dif rest oval nval pre curdiff₂

/-- Body of source `computeDiff`, by structural recursion on the fuel: one
entry of `computeDiff` consumes one fuel unit, and the loops at a level call
back into the level below. -/
def difAt : Nat → JVal → JVal → String → DiffResults → Except DErr DiffResults
  | 0, _, _, _, _ => .error .fuelOut
  | fuel + 1, oval, nval, curpath, curdiff =>
    match jsKeys oval with
    | .error e => .error e
    | .ok ks1 =>
      match jsKeys nval with
      | .error e => .error e
      | .ok ks2 =>
        goKeysWith (difAt fuel) (mergeArrays ks1 ks2) oval nval
          (prefixStr curpath) curdiff

def goDiff (fuel : Nat) : JVal → JVal → String → DiffResults →
    Except DErr DiffResults := difAt fuel

def goKeys (fuel : Nat) : List String → JVal → JVal → String → DiffResults →
    Except DErr DiffResults := goKeysWith (difAt fuel)

def goArr (fuel : Nat) : List JVal → List JVal → Except DErr DiffResults :=
  goArrWith (difAt fuel)

def goIdx (fuel : Nat) : List Nat → List JVal → List JVal →
    List (String × (JVal × JVal)) → Nat →
    Except DErr (List (String × (JVal × JVal)) × Nat) :=
  goIdxWith (difAt fuel)

/-- The structural budget: `goDiff` descends strictly in `jsize`, so this fuel
is never exhausted (totality lemmas below). -/
def diffFuel (oval nval : JVal) : Nat := jsize oval + jsize nval + 1

/-- Source `computeDiff` at its entry point (`curpath = ''`, fresh
accumulator). -/
def computeDiff (oval nval : JVal) : Except DErr DiffResults :=
  goDiff (diffFuel oval nval) oval nval "" { hasDiff := false, diffs := [] }

/-- Source `computeArrayDiff`. -/
def computeArrayDiff (oval nval : List JVal) : Except DErr DiffResults :=
  goArr (jsizeList oval + jsizeList nval + 1) oval nval

/-! ## The heap model

`insertValueByPath` mutates the caller's object graph in place and returns an
aliasing pointer, so it is embedded over an explicit heap: objects and arrays
live at addresses, a value (`HVal`) is a primitive or a reference.  JS arrays
also accept non-index properties (e.g. a negative index from `parseInt`
becomes the plain property `"-1"`), kept in a separate `props` list. -/

abbrev Addr := Nat

inductive HVal where
  | undef
  | null
  | bool (b : Bool)
  | num (n : Int)
  | str (s : String)
  | ref (a : Addr)
deriving Repr, DecidableEq

inductive HObj where
  | map (fields : List (String × HVal))
  | arr (elems : List HVal) (props : List (String × HVal))
deriving Repr, DecidableEq

structure Heap where
  objs : List (Addr × HObj)
  next : Addr
deriving Repr, DecidableEq

def Heap.get (h : Heap) (a : Addr) : Option HObj := lookupKV h.objs a

def Heap.set (h : Heap) (a : Addr) (o : HObj) : Heap :=
  { h with objs := rset h.objs a o }

def Heap.alloc (h : Heap) (o : HObj) : Heap × Addr :=
  ({ objs := h.objs ++ [(h.next, o)], next := h.next + 1 }, h.next)

/-- Errors the resolver can surface: the explicit `throw new Error(msg)` of
the source (`invalidPath`), or a strict-mode runtime `TypeError` (writing a
property of a primitive, `.push` on a non-array, reading a property of
`null`/`undefined`; the `RangeError` from assigning a non-numeric array
`length` is collapsed into `typeError` as well). -/
inductive JSErr where
  | invalidPath (msg : String)
  | typeError
deriving Repr, DecidableEq

def jsTruthy : HVal → Bool
  | .undef => false
  | .null => false
  | .bool b => b
  | .num n => n != 0
  | .str s => s != ""
  | .ref _ => true

/-- The `??` test: `null` or `undefined`. -/
def isNullish : HVal → Bool
  | .undef => true
  | .null => true
  | _ => false

/-- Property read on an array object: `length`, canonical in-range indices
(out-of-range and holes read as `undefined`), otherwise plain properties. -/
def arrPropGet (es : List HVal) (ps : List (String × HVal)) (k : String) : HVal :=
  if k = "length" then .num es.length
  else if isCanonicalIndex k then
    match es[keyNatVal k]? with
    | some v => v
    | none => .undef
  else ((lookupKV ps k).getD .undef)

/-- `v[k]` over the heap.  Reading a property of `null`/`undefined` throws;
reading one of another primitive yields `undefined` (strings expose `length`
and their characters).  A dangling reference (never produced by the engine)
also maps to `typeError`. -/
def heapRead (h : Heap) (v : HVal) (k : String) : Except JSErr HVal :=
  match v with
  | .undef => .error .typeError
  | .null => .error .typeError
  | .num _ => .ok .undef
  | .bool _ => .ok .undef
  | .str s =>
    .ok (if k = "length" then .num s.length
      else
        match s.data[keyNatVal k]? with
        | some c => if isCanonicalIndex k then .str (String.mk [c]) else .undef
        | none => .undef)
  | .ref a =>
    match h.get a with
    | some (.map fs) => .ok ((lookupKV fs k).getD .undef)
    | some (.arr es ps) => .ok (arrPropGet es ps k)
    | none => .error .typeError

/-- Writing element `n` of an array: in-range replaces, out-of-range extends
with holes (which read back as `undefined`). -/
def arrElemSet (es : List HVal) (n : Nat) (v : HVal) : List HVal :=
  if n < es.length then es.set n v
  else es ++ List.replicate (n - es.length) HVal.undef ++ [v]

/-- `v[k] = val` over the heap (strict mode: primitives throw). -/
def heapWrite (h : Heap) (v : HVal) (k : String) (val : HVal) : Except JSErr Heap :=
  match v with
  | .ref a =>
    match h.get a with
    | some (.map fs) => .ok (h.set a (.map (rset fs k val)))
    | some (.arr es ps) =>
      if k = "length" then .error .typeError
      else if isCanonicalIndex k then
        .ok (h.set a (.arr (arrElemSet es (keyNatVal k) val) ps))
      else .ok (h.set a (.arr es (rset ps k val)))
    | none => .error .typeError
  | _ => .error .typeError

/-- `v.push(val)`: only array objects have a callable `push`. -/
def heapPush (h : Heap) (v : HVal) (val : HVal) : Except JSErr Heap :=
  match v with
  | .ref a =>
    match h.get a with
    | some (.arr es ps) => .ok (h.set a (.arr (es ++ [val]) ps))
    | _ => .error .typeError
  | _ => .error .typeError

def quoteStr (s : String) : String := "'" ++ s ++ "'"

def unnamedArrayMsg (component path : String) : String :=
  "unnamed array not allowed. failed parsing " ++ quoteStr component
    ++ " in " ++ quoteStr path

/-! ## The resolver

`resolveName` is the source's
`if (name && !ptr[name]) ... else if (name) ... else if (isArray) throw`
block (producing `target`); `resolveTail` is the pointer-update block that
follows it.  Errors abort the whole call; within a single segment no heap
write ever precedes a throw (creation writes only target freshly created
containers), so a step that errors leaves the heap of the step's entry. -/

def resolveName (h : Heap) (ptr : HVal) (c : PathComponent) (component path : String) :
    Except JSErr (Heap × HVal) :=
  if c.name ≠ "" then
    match heapRead h ptr c.name with
    | .error e => .error e
    | .ok nv =>
      if jsTruthy nv then .ok (h, nv)
      else if c.isArray then
        let al := h.alloc (.arr [] [])
        match heapWrite al.1 ptr c.name (.ref al.2) with
        | .error e => .error e
        | .ok h₂ => .ok (h₂, .ref al.2)
      else
        let al := h.alloc (.map [])
        match heapWrite al.1 ptr c.name (.ref al.2) with
        | .error e => .error e
        | .ok h₂ => .ok (h₂, .ref al.2)
  else if c.isArray then .error (.invalidPath (unnamedArrayMsg component path))
  else .ok (h, ptr)

def resolveTail (h : Heap) (target : HVal) (c : PathComponent) :
    Except JSErr (Heap × HVal) :=
  if c.isArray then
    match c.index with
    | some i =>
      -- `target[index] = target[index] ?? {}; ptr = target[index]`
      match heapRead h target (toString i) with
      | .error e => .error e
      | .ok cur =>
        if isNullish cur then
          let al := h.alloc (.map [])
          match heapWrite al.1 target (toString i) (.ref al.2) with
          | .error e => .error e
          | .ok h₂ => .ok (h₂, .ref al.2)
        else
          match heapWrite h target (toString i) cur with
          | .error e => .error e
          | .ok h₂ => .ok (h₂, cur)
    | none =>
      -- `target.push({}); ptr = target[target.length - 1]`
      let al := h.alloc (.map [])
      match heapPush al.1 target (.ref al.2) with
      | .error e => .error e
      | .ok h₂ => .ok (h₂, .ref al.2)
  else
    match c.key with
    | some k =>
      -- `if (!target[key]) { target[key] = {} } ptr = target[key]`
      match heapRead h target k with
      | .error e => .error e
      | .ok cur =>
        if jsTruthy cur then .ok (h, cur)
        else
          let al := h.alloc (.map [])
          match heapWrite al.1 target k (.ref al.2) with
          | .error e => .error e
          | .ok h₂ => .ok (h₂, .ref al.2)
    | none => .ok (h, target)

/-- One iteration of the segment loop of source `insertValueByPath`. -/
def resolveStep (h : Heap) (ptr : HVal) (component path : String) :
    Except JSErr (Heap × HVal) :=
  let c := parsePathComponent component
  match resolveName h ptr c component path with
  | .error e => .error e
  | .ok (h₁, target) => resolveTail h₁ target c

/-- The segment loop: an empty component breaks out; an error propagates,
leaving the mutations of the completed earlier segments in place. -/
def resolveSegs (h : Heap) (ptr : HVal) (segs : List String) (path : String) :
    Heap × Except JSErr HVal :=
  match segs with
  | [] => (h, .ok ptr)
  | component :: rest =>
    if component = "" then (h, .ok ptr)
    else
      match resolveStep h ptr component path with
      | .error e => (h, .error e)
      | .ok (h₁, ptr₁) => resolveSegs h₁ ptr₁ rest path

/-- Source `insertValueByPath` over the heap: walk the slash-split path from
`data`, then run the optional insert callback on the resolved pointer.  The
callback is a caller-supplied heap transformation applied to the final
pointer (modelling `insertFn?.(ptr)`). -/
def insertValueByPath (h : Heap) (data : HVal) (path : String)
    (insertFn : Option (Heap → HVal → Heap)) : Heap × Except JSErr HVal :=
  match resolveSegs h data (jsSplit path '/') path with
  | (h₁, .ok ptr) =>
    match insertFn with
    | some f => (f h₁ ptr, .ok ptr)
    | none => (h₁, .ok ptr)
  | (h₁, .error e) => (h₁, .error e)

/-! ## The diff engine over the heap

For the frame/freshness property (the diff engine never mutates its inputs and
returns a fresh result) the engine is embedded a second time, over the heap,
with JS reference semantics: `===` compares addresses, diff results are heap
objects (`{hasDiff, diffs}` with `diffs` a nested record, each entry a fresh
two-element array `[ov, nv]`).  Heap structures can be cyclic, so this
embedding is fueled, with the fuel decremented at every entry; the frame
theorem is proved for every fuel, so no sufficiency bound is needed. -/

/-- `typeof v === 'object'` over heap values. -/
def jsTypeofObjectH : HVal → Bool
  | .null => true
  | .ref _ => true
  | _ => false

/-- `v instanceof Array` over the heap. -/
def isJsArrH (h : Heap) (v : HVal) : Bool :=
  match v with
  | .ref a =>
    match h.get a with
    | some (.arr _ _) => true
    | _ => false
  | _ => false

/-- `Object.keys` over the heap. -/
def hKeys (h : Heap) (v : HVal) : Except DErr (List String) :=
  match v with
  | .undef => .error .typeError
  | .null => .error .typeError
  | .str s => .ok ((List.range s.length).map Nat.repr)
  | .num _ => .ok []
  | .bool _ => .ok []
  | .ref a =>
    match h.get a with
    | some (.map fs) => .ok (jsKeyOrder (dedupKeys (fs.map Prod.fst)))
    | some (.arr es ps) =>
      .ok (jsKeyOrder (dedupKeys ((List.range es.length).map Nat.repr
        ++ ps.map Prod.fst)))
    | none => .error .typeError

/-- Property read used by the heap diff; only invoked on values on which
`hKeys` succeeded, so the throwing cases are unreachable. -/
def hGet (h : Heap) (v : HVal) (k : String) : HVal :=
  match heapRead h v k with
  | .ok r => r
  | .error _ => (.undef)

/-- JS `===` over heap values: primitive comparison, address equality for
references. -/
def hStrictEq (a b : HVal) : Bool := decide (a = b)

/-- `oval.length > nval.length ? oval.length : nval.length` with JS semantics
when a side has no numeric `length` (`undefined > x` is false; a non-numeric
bound makes the index loop run zero times). -/
def hMaxLen (h : Heap) (oval nval : HVal) : Nat :=
  match heapRead h oval "length", heapRead h nval "length" with
  | .ok (.num a), .ok (.num b) => if a > b then a.toNat else b.toNat
  | _, .ok (.num b) => b.toNat
  | _, _ => 0

/-- The `for (const index in arrdiff.diffs)` merge loop of `computeDiff`'s
array branch: copy each entry reference under `prefix + okey + index`. -/
def hMergeEntries : Heap → Addr → String → List (String × HVal) →
    Heap × Except DErr Unit
  | h, _, _, [] => (h, .ok ())
  | h, d, base, (k, v) :: rest =>
    match heapWrite h (.ref d) (base ++ k) v with
    | .error _ => (h, .error .typeError)
    | .ok h₂ => hMergeEntries h₂ d base rest

/-- The four engine functions of one fuel level of the heap embedding.  The
fuel decreases at every recursive call (heap graphs may be cyclic), so each
level is built purely from the previous one and the recursion is structural
on the fuel. -/
structure HFns where
  dif : Heap → HVal → HVal → String → Addr → Heap × Except DErr Unit
  keysGo : Heap → List String → HVal → HVal → String → Addr →
    Heap × Except DErr Unit
  arr : Heap → HVal → HVal → Heap × Except DErr HVal
  idx : Heap → List Nat → HVal → HVal → Addr → Nat → Heap × Except DErr Nat

def hFnsBot : HFns where
  dif := fun h _ _ _ _ => (h, .error .fuelOut)
  keysGo := fun h _ _ _ _ _ => (h, .error .fuelOut)
  arr := fun h _ _ => (h, .error .fuelOut)
  idx := fun h _ _ _ _ _ => (h, .error .fuelOut)

/-- One fuel level of the heap diff engine, from the previous level `p`.
`dif` is the body of source `computeDiff` (with `c` the address of the
threaded `curdiff` record), `keysGo` its key loop, `arr` source
`computeArrayDiff`, `idx` its index loop. -/
def hFnsStep (p : HFns) : HFns where
  dif := fun h oval nval curpath c =>
    match hKeys h oval with
    | .error e => (h, .error e)
    | .ok ks1 =>
      match hKeys h nval with
      | .error e => (h, .error e)
      | .ok ks2 =>
        p.keysGo h (mergeArrays ks1 ks2) oval nval (prefixStr curpath) c
  keysGo := fun h ks oval nval pre c =>
    match ks with
    | [] => (h, .ok ())
    | okey :: rest =>
      let ov := hGet h oval okey
      let nv := hGet h nval okey
      if isJsArrH h ov && isJsArrH h nv then
        match p.arr h ov nv with
        | (h₁, .error e) => (h₁, .error e)
        | (h₁, .ok mref) =>
          if jsTruthy (hGet h₁ mref "hasDiff") then
            match heapWrite h₁ (.ref c) "hasDiff" (.bool true) with
            | .error _ => (h₁, .error .typeError)
            | .ok h₂ =>
              match hGet h₂ (.ref c) "diffs", hGet h₂ mref "diffs" with
              | .ref d, .ref md =>
                match h₂.get md with
                | some (.map entries) =>
                  match hMergeEntries h₂ d (pre ++ okey) entries with
                  | (h₃, .error e) => (h₃, .error e)
                  | (h₃, .ok _) => p.keysGo h₃ rest oval nval pre c
                | _ => (h₂, .error .typeError)
              | _, _ => (h₂, .error .typeError)
          else p.keysGo h₁ rest oval nval pre c
      else if jsTypeofObjectH ov && jsTypeofObjectH nv then
        match p.dif h ov nv (pre ++ okey) c with
        | (h₁, .error e) => (h₁, .error e)
        | (h₁, .ok _) => p.keysGo h₁ rest oval nval pre c
      else if hStrictEq ov nv then p.keysGo h rest oval nval pre c
      else
        match heapWrite h (.ref c) "hasDiff" (.bool true) with
        | .error _ => (h, .error .typeError)
        | .ok h₁ =>
          match hGet h₁ (.ref c) "diffs" with
          | .ref d =>
            let ap := h₁.alloc (.arr [ov, nv] [])
            match heapWrite ap.1 (.ref d) (pre ++ okey) (.ref ap.2) with
            | .error _ => (ap.1, .error .typeError)
            | .ok h₂ => p.keysGo h₂ rest oval nval pre c
          | _ => (h₁, .error .typeError)
  arr := fun h oval nval =>
    let ad := h.alloc (.map [])
    let am := ad.1.alloc (.map [("hasDiff", .bool false), ("diffs", .ref ad.2)])
    let mx := hMaxLen am.1 oval nval
    match p.idx am.1 (List.range mx) oval nval am.2 0 with
    | (h₁, .error e) => (h₁, .error e)
    | (h₁, .ok errs) =>
      match heapWrite h₁ (.ref am.2) "hasDiff" (.bool (errs != 0)) with
      | .error _ => (h₁, .error .typeError)
      | .ok h₂ => (h₂, .ok (.ref am.2))
  idx := fun h idxs oval nval m errs =>
    match idxs with
    | [] => (h, .ok errs)
    | i :: rest =>
      let ov := hGet h oval (Nat.repr i)
      let nv := hGet h nval (Nat.repr i)
      if jsTypeofObjectH ov && jsTypeofObjectH nv then
        let ad := h.alloc (.map [])
        let ac := ad.1.alloc
          (.map [("hasDiff", .bool false), ("diffs", .ref ad.2)])
        match p.dif ac.1 ov nv "" ac.2 with
        | (h₁, .error e) => (h₁, .error e)
        | (h₁, .ok _) =>
          if jsTruthy (hGet h₁ (.ref ac.2) "hasDiff") then
            match hGet h₁ (.ref m) "diffs" with
            | .ref d =>
              let ap := h₁.alloc (.arr [ov, nv] [])
              match heapWrite ap.1 (.ref d) ("[" ++ Nat.repr i ++ "]")
                  (.ref ap.2) with
              | .error _ => (ap.1, .error .typeError)
              | .ok h₂ => p.idx h₂ rest oval nval m (errs + 1)
            | _ => (h₁, .error .typeError)
          else p.idx h₁ rest oval nval m errs
      else if hStrictEq ov nv then p.idx h rest oval nval m errs
      else
        match hGet h (.ref m) "diffs" with
        | .ref d =>
          let ap := h.alloc (.arr [ov, nv] [])
          match heapWrite ap.1 (.ref d) ("[" ++ Nat.repr i ++ "]")
              (.ref ap.2) with
          | .error _ => (ap.1, .error .typeError)
          | .ok h₂ => p.idx h₂ rest oval nval m (errs + 1)
        | _ => (h, .error .typeError)

def hFns : Nat → HFns
  | 0 => hFnsBot
  | fuel + 1 => hFnsStep (hFns fuel)

def hDiff (fuel : Nat) : Heap → HVal → HVal → String → Addr →
    Heap × Except DErr Unit := (hFns fuel).dif

def hKeysGo (fuel : Nat) : Heap → List String → HVal → HVal → String → Addr →
    Heap × Except DErr Unit := (hFns fuel).keysGo

def hArr (fuel : Nat) : Heap → HVal → HVal → Heap × Except DErr HVal :=
  (hFns fuel).arr

def hIdx (fuel : Nat) : Heap → List Nat → HVal → HVal → Addr → Nat →
    Heap × Except DErr Nat := (hFns fuel).idx

/-- Source `computeDiff` over the heap, called at its entry point: allocate
the fresh `{hasDiff: false, diffs: {}}` accumulator and run the body. -/
def computeDiffH (fuel : Nat) (h : Heap) (oval nval : HVal) :
    Heap × Except DErr HVal :=
  let ad := h.alloc (.map [])
  let ac := ad.1.alloc (.map [("hasDiff", .bool false), ("diffs", .ref ad.2)])
  match hDiff fuel ac.1 oval nval "" ac.2 with
  | (h₁, .ok _) => (h₁, .ok (.ref ac.2))
  | (h₁, .error e) => (h₁, .error e)

/-- Source `computeArrayDiff` over the heap. -/
def computeArrayDiffH (fuel : Nat) (h : Heap) (oval nval : HVal) :
    Heap × Except DErr HVal :=
  hArr fuel h oval nval

/-! ## Size lemmas

The recursion of the diff engine descends into looked-up members, which are
strictly smaller in `jsize`; these lemmas feed the fuel-irrelevance and
totality results. -/

theorem jsize_pos (v : JVal) : 1 ≤ jsize v := by
  cases v <;> simp [jsize]

theorem jsizeFields_lookup {fs : List (String × JVal)} {k : String} {v : JVal}
    (h : lookupKV fs k = some v) : jsize v ≤ jsizeFields fs := by
  induction fs with
  | nil => simp [lookupKV] at h
  | cons p rest ih =>
    obtain ⟨k', v'⟩ := p
    by_cases hk : k' = k
    · simp [lookupKV, hk] at h
      subst h
      simp [jsizeFields]
      omega
    · simp [lookupKV, hk] at h
      have := ih h
      simp [jsizeFields]
      omega

theorem jsizeList_get {xs : List JVal} {i : Nat} {v : JVal}
    (h : xs[i]? = some v) : jsize v < jsizeList xs := by
  induction xs generalizing i with
  | nil => simp at h
  | cons x rest ih =>
    cases i with
    | zero =>
      simp at h
      subst h
      simp [jsizeList]
      omega
    | succ j =>
      simp at h
      have := ih h
      simp [jsizeList]
      omega

theorem jsGet_size {o : JVal} {k : String}
    (h : jsTypeofObject (jsGet o k) = true) : jsize (jsGet o k) < jsize o := by
  cases o with
  | undef => simp [jsGet, jsTypeofObject] at h
  | null => simp [jsGet, jsTypeofObject] at h
  | bool b => simp [jsGet, jsTypeofObject] at h
  | num n => simp [jsGet, jsTypeofObject] at h
  | str s =>
    simp only [jsGet] at h ⊢
    split at h
    · simp [jsTypeofObject] at h
    · split at h
      · split at h
        · simp [jsTypeofObject] at h
        · simp [jsTypeofObject] at h
      · simp [jsTypeofObject] at h
  | obj fs =>
    simp only [jsGet] at h ⊢
    cases hl : lookupKV fs k with
    | none => simp [hl, jsTypeofObject] at h
    | some v =>
      simp only [hl, Option.getD_some]
      have := jsizeFields_lookup hl
      simp [jsize]
      omega
  | arr xs =>
    by_cases hlen : k = "length"
    · simp [jsGet, jsGetList, hlen, jsTypeofObject] at h
    · by_cases hc : isCanonicalIndex k
      · cases hv : xs[keyNatVal k]? with
        | none => simp [jsGet, jsGetList, hlen, hc, hv, jsTypeofObject] at h
        | some v =>
          have := jsizeList_get hv
          simp [jsGet, jsGetList, hlen, hc, hv, jsize]
          omega
      · simp [jsGet, jsGetList, hlen, hc, jsTypeofObject] at h

theorem getD_size {xs : List JVal} {i : Nat}
    (h : jsTypeofObject (xs.getD i .undef) = true) :
    jsize (xs.getD i .undef) < jsizeList xs := by
  rw [List.getD_eq_getElem?_getD] at h ⊢
  cases hv : xs[i]? with
  | none => simp [hv, jsTypeofObject] at h
  | some v =>
    simp only [hv, Option.getD_some] at h ⊢
    exact jsizeList_get hv

/-! ## Loop-body characterizations

`keyStep`/`idxStep` name the body of one iteration of the two loops; the
`_cons` lemmas rewrite the recursive definitions into one step followed by the
remaining loop, which is the shape every later induction uses. -/

def keyStep (fuel : Nat) (ov nv : JVal) (pre okey : String) (c : DiffResults) :
    Except DErr DiffResults :=
  if isJsArr ov && isJsArr nv then
    match goArr fuel (asArrElems ov) (asArrElems nv) with
    | .error e => .error e
    | .ok arrdiff =>
      .ok (if arrdiff.hasDiff then
          { hasDiff := true,
            diffs := arrdiff.diffs.foldl
              (fun d p => rset d (pre ++ okey ++ p.1) p.2) c.diffs }
        else c)
  else if jsTypeofObject ov && jsTypeofObject nv then
    goDiff fuel ov nv (pre ++ okey) c
  else if jsStrictEq ov nv then .ok c
  else .ok { hasDiff := true, diffs := rset c.diffs (pre ++ okey) (ov, nv) }

theorem goKeys_nil (fuel : Nat) (o n : JVal) (pre : String) (c : DiffResults) :
    goKeys fuel [] o n pre c = .ok c := rfl

theorem goKeys_cons (fuel : Nat) (okey : String) (rest : List String)
    (o n : JVal) (pre : String) (c : DiffResults) :
    goKeys fuel (okey :: rest) o n pre c =
      match keyStep fuel (jsGet o okey) (jsGet n okey) pre okey c with
      | .error e => .error e
      | .ok c₂ => goKeys fuel rest o n pre c₂ := by
  rw [goKeys, goKeysWith]
  rfl

def idxStep (fuel : Nat) (ov nv : JVal) (key : String)
    (ds : List (String × (JVal × JVal))) (errs : Nat) :
    Except DErr (List (String × (JVal × JVal)) × Nat) :=
  if jsTypeofObject ov && jsTypeofObject nv then
    match goDiff fuel ov nv "" { hasDiff := false, diffs := [] } with
    | .error e => .error e
    | .ok sub =>
      .ok (if sub.hasDiff then (rset ds key (ov, nv), errs + 1) else (ds, errs))
  else .ok (if jsStrictEq ov nv then (ds, errs)
    else (rset ds key (ov, nv), errs + 1))

theorem goIdx_nil (fuel : Nat) (xs ys : List JVal)
    (ds : List (String × (JVal × JVal))) (errs : Nat) :
    goIdx fuel [] xs ys ds errs = .ok (ds, errs) := rfl

theorem goIdx_cons (fuel : Nat) (i : Nat) (rest : List Nat) (xs ys : List JVal)
    (ds : List (String × (JVal × JVal))) (errs : Nat) :
    goIdx fuel (i :: rest) xs ys ds errs =
      match idxStep fuel (xs.getD i .undef) (ys.getD i .undef)
          ("[" ++ Nat.repr i ++ "]") ds errs with
      | .error e => .error e
      | .ok p => goIdx fuel rest xs ys p.1 p.2 := by
  rw [goIdx, goIdxWith]
  simp only [idxStep, goDiff, goIdx]
  by_cases h1 : (jsTypeofObject (xs.getD i .undef)
      && jsTypeofObject (ys.getD i .undef)) = true
  · simp only [h1, if_true]
    cases difAt fuel (xs.getD i .undef) (ys.getD i .undef) ""
        { hasDiff := false, diffs := [] } with
    | error e => rfl
    | ok sub =>
      by_cases h2 : sub.hasDiff = true <;> simp [h2]
  · simp only [h1]
    simp only [Bool.false_eq_true, if_false]
    split <;> rename_i h2 <;> simp [h2]

theorem goArr_unfold (fuel : Nat) (xs ys : List JVal) :
    goArr fuel xs ys =
      match goIdx fuel
          (List.range (if xs.length > ys.length then xs.length else ys.length))
          xs ys [] 0 with
      | .error e => .error e
      | .ok p => .ok { hasDiff := p.2 != 0, diffs := p.1 } := by
  rw [goArr, goArrWith]
  simp only [goIdx]
  cases goIdxWith (difAt fuel)
      (List.range (if xs.length > ys.length then xs.length else ys.length))
      xs ys [] 0 with
  | error e => rfl
  | ok p =>
    obtain ⟨ds, errs⟩ := p
    rfl

theorem goDiff_succ (fuel : Nat) (o n : JVal) (p : String) (c : DiffResults) :
    goDiff (fuel + 1) o n p c =
      match jsKeys o with
      | .error e => .error e
      | .ok ks1 =>
        match jsKeys n with
        | .error e => .error e
        | .ok ks2 => goKeys fuel (mergeArrays ks1 ks2) o n (prefixStr p) c := by
  show difAt (fuel + 1) o n p c = _
  rw [difAt]
  rfl

/-! ## Fuel irrelevance

Any two sufficient budgets agree: the recursion descends strictly in `jsize`,
so the wrappers' structural budget is canonical and never exhausted. -/

theorem isJsArr_exists {v : JVal} (h : isJsArr v = true) : ∃ xs, v = .arr xs := by
  cases v <;> simp [isJsArr] at h ⊢

def IrrD (f₁ : Nat) : Prop :=
  ∀ f₂ o n p c, jsize o + jsize n < f₁ → jsize o + jsize n < f₂ →
    goDiff f₁ o n p c = goDiff f₂ o n p c

def IrrK (f₁ : Nat) : Prop :=
  ∀ f₂ ks o n pre c, jsize o + jsize n ≤ f₁ → jsize o + jsize n ≤ f₂ →
    goKeys f₁ ks o n pre c = goKeys f₂ ks o n pre c

def IrrA (f₁ : Nat) : Prop :=
  ∀ f₂ xs ys, jsizeList xs + jsizeList ys < f₁ → jsizeList xs + jsizeList ys < f₂ →
    goArr f₁ xs ys = goArr f₂ xs ys

def IrrI (f₁ : Nat) : Prop :=
  ∀ f₂ idxs xs ys ds errs,
    jsizeList xs + jsizeList ys < f₁ → jsizeList xs + jsizeList ys < f₂ →
    goIdx f₁ idxs xs ys ds errs = goIdx f₂ idxs xs ys ds errs

theorem goFuelIrr : ∀ f₁, IrrD f₁ ∧ IrrI f₁ ∧ IrrA f₁ ∧ IrrK f₁ := by
  intro f₁
  induction f₁ using Nat.strong_induction_on with
  | _ f₁ IH =>
    have hD : IrrD f₁ := by
      intro f₂ o n p c h₁ h₂
      have p1 : 1 ≤ jsize o := jsize_pos o
      have p2 : 1 ≤ jsize n := jsize_pos n
      obtain ⟨a, rfl⟩ : ∃ a, f₁ = a + 1 := ⟨f₁ - 1, by omega⟩
      obtain ⟨b, rfl⟩ : ∃ b, f₂ = b + 1 := ⟨f₂ - 1, by omega⟩
      rw [goDiff_succ, goDiff_succ]
      cases jsKeys o with
      | error e => rfl
      | ok ks1 =>
        cases jsKeys n with
        | error e => rfl
        | ok ks2 =>
          exact (IH a (by omega)).2.2.2 b (mergeArrays ks1 ks2) o n
            (prefixStr p) c (by omega) (by omega)
    have hI : IrrI f₁ := by
      intro f₂ idxs xs ys ds errs h₁ h₂
      induction idxs generalizing ds errs with
      | nil => rw [goIdx_nil, goIdx_nil]
      | cons i rest ihl =>
        rw [goIdx_cons, goIdx_cons]
        have hstep : idxStep f₁ (xs.getD i .undef) (ys.getD i .undef)
            ("[" ++ Nat.repr i ++ "]") ds errs
            = idxStep f₂ (xs.getD i .undef) (ys.getD i .undef)
              ("[" ++ Nat.repr i ++ "]") ds errs := by
          unfold idxStep
          by_cases hg : (jsTypeofObject (xs.getD i .undef)
              && jsTypeofObject (ys.getD i .undef)) = true
          · rw [if_pos hg, if_pos hg]
            rw [Bool.and_eq_true] at hg
            have so := getD_size hg.1
            have sn := getD_size hg.2
            rw [hD f₂ (xs.getD i .undef) (ys.getD i .undef) ""
              { hasDiff := false, diffs := [] } (by omega) (by omega)]
          · rw [if_neg hg, if_neg hg]
        rw [hstep]
        cases idxStep f₂ (xs.getD i .undef) (ys.getD i .undef)
            ("[" ++ Nat.repr i ++ "]") ds errs with
        | error e => rfl
        | ok p => exact ihl p.1 p.2
    have hA : IrrA f₁ := by
      intro f₂ xs ys h₁ h₂
      rw [goArr_unfold, goArr_unfold]
      rw [hI f₂ (List.range (if xs.length > ys.length then xs.length else ys.length))
        xs ys [] 0 h₁ h₂]
    have hK : IrrK f₁ := by
      intro f₂ ks o n pre c h₁ h₂
      induction ks generalizing c with
      | nil => rw [goKeys_nil, goKeys_nil]
      | cons okey rest ihl =>
        rw [goKeys_cons, goKeys_cons]
        have hstep : keyStep f₁ (jsGet o okey) (jsGet n okey) pre okey c
            = keyStep f₂ (jsGet o okey) (jsGet n okey) pre okey c := by
          unfold keyStep
          by_cases hg : (isJsArr (jsGet o okey) && isJsArr (jsGet n okey)) = true
          · rw [if_pos hg, if_pos hg]
            rw [Bool.and_eq_true] at hg
            obtain ⟨xs, hxs⟩ := isJsArr_exists hg.1
            obtain ⟨ys, hys⟩ := isJsArr_exists hg.2
            have so : jsize (jsGet o okey) < jsize o :=
              jsGet_size (by rw [hxs]; rfl)
            have sn : jsize (jsGet n okey) < jsize n :=
              jsGet_size (by rw [hys]; rfl)
            rw [hxs] at so
            rw [hys] at sn
            simp only [jsize] at so sn
            rw [hxs, hys]
            simp only [asArrElems]
            rw [hA f₂ xs ys (by omega) (by omega)]
          · rw [if_neg hg, if_neg hg]
            by_cases ht : (jsTypeofObject (jsGet o okey)
                && jsTypeofObject (jsGet n okey)) = true
            · rw [if_pos ht, if_pos ht]
              rw [Bool.and_eq_true] at ht
              have so := jsGet_size ht.1
              have sn := jsGet_size ht.2
              exact hD f₂ (jsGet o okey) (jsGet n okey) (pre ++ okey) c
                (by omega) (by omega)
            · rw [if_neg ht, if_neg ht]
        rw [hstep]
        cases keyStep f₂ (jsGet o okey) (jsGet n okey) pre okey c with
        | error e => rfl
        | ok c₂ => exact ihl c₂
    exact ⟨hD, hI, hA, hK⟩

theorem goDiff_eq_computeDiff {fuel : Nat} (o n : JVal)
    (h : jsize o + jsize n < fuel) :
    goDiff fuel o n "" { hasDiff := false, diffs := [] } = computeDiff o n :=
  (goFuelIrr fuel).1 (diffFuel o n) o n "" { hasDiff := false, diffs := [] } h
    (by simp [diffFuel])

theorem goArr_eq_computeArrayDiff {fuel : Nat} (xs ys : List JVal)
    (h : jsizeList xs + jsizeList ys < fuel) :
    goArr fuel xs ys = computeArrayDiff xs ys :=
  (goFuelIrr fuel).2.2.1 (jsizeList xs + jsizeList ys + 1) xs ys h (by omega)

/-! ## Totality away from `null`

`typeof null === 'object'`, so the engine recurses into `null` and hits
`Object.keys(null)`, which throws.  On snapshots free of `null` the engine
always succeeds; together with the fuel bound this settles the safety claim
(and its correction). -/

mutual

def noNull : JVal → Bool
  | .null => false
  | .arr xs => noNullList xs
  | .obj fs => noNullFields fs
  | _ => true

def noNullList : List JVal → Bool
  | [] => true
  | v :: rest => noNull v && noNullList rest

def noNullFields : List (String × JVal) → Bool
  | [] => true
  | (_, v) :: rest => noNull v && noNullFields rest

end

def isContainer : JVal → Bool
  | .arr _ => true
  | .obj _ => true
  | _ => false

theorem noNullFields_lookup {fs : List (String × JVal)} {k : String} {v : JVal}
    (hf : noNullFields fs = true) (h : lookupKV fs k = some v) :
    noNull v = true := by
  induction fs with
  | nil => simp [lookupKV] at h
  | cons p rest ih =>
    obtain ⟨k', v'⟩ := p
    simp only [noNullFields, Bool.and_eq_true] at hf
    by_cases hk : k' = k
    · simp [lookupKV, hk] at h
      subst h
      exact hf.1
    · simp [lookupKV, hk] at h
      exact ih hf.2 h

theorem noNullList_get {xs : List JVal} {i : Nat} {v : JVal}
    (hf : noNullList xs = true) (h : xs[i]? = some v) : noNull v = true := by
  induction xs generalizing i with
  | nil => simp at h
  | cons x rest ih =>
    simp only [noNullList, Bool.and_eq_true] at hf
    cases i with
    | zero =>
      simp at h
      subst h
      exact hf.1
    | succ j =>
      simp at h
      exact ih hf.2 h

theorem noNull_jsGet {o : JVal} {k : String} (h : noNull o = true) :
    noNull (jsGet o k) = true := by
  cases o with
  | undef => simp [jsGet, noNull]
  | null => simp [noNull] at h
  | bool b => simp [jsGet, noNull]
  | num n => simp [jsGet, noNull]
  | str s =>
    simp only [jsGet]
    split
    · simp [noNull]
    · split
      · split <;> simp [noNull]
      · simp [noNull]
  | obj fs =>
    simp only [jsGet]
    cases hl : lookupKV fs k with
    | none => simp [noNull]
    | some v =>
      simp only [Option.getD_some]
      exact noNullFields_lookup (by simpa [noNull] using h) hl
  | arr xs =>
    simp only [jsGet, jsGetList]
    split
    · simp [noNull]
    · split
      · cases hv : xs[keyNatVal k]? with
        | none => simp [noNull]
        | some v =>
          simp only
          exact noNullList_get (by simpa [noNull] using h) hv
      · simp [noNull]

theorem noNull_getD {xs : List JVal} {i : Nat} (h : noNullList xs = true) :
    noNull (xs.getD i .undef) = true := by
  rw [List.getD_eq_getElem?_getD]
  cases hv : xs[i]? with
  | none => simp [noNull]
  | some v =>
    simp only [Option.getD_some]
    exact noNullList_get h hv

theorem container_of_typeof_noNull {v : JVal} (ht : jsTypeofObject v = true)
    (hn : noNull v = true) : isContainer v = true := by
  cases v <;> simp_all [jsTypeofObject, noNull, isContainer]

theorem jsKeys_ok_of_container {v : JVal} (h : isContainer v = true) :
    ∃ ks, jsKeys v = .ok ks := by
  cases v <;> simp [isContainer, jsKeys] at h ⊢

def TotD (f : Nat) : Prop :=
  ∀ o n p c, jsize o + jsize n < f → isContainer o = true → isContainer n = true →
    noNull o = true → noNull n = true → ∃ r, goDiff f o n p c = .ok r

def TotK (f : Nat) : Prop :=
  ∀ ks o n pre c, jsize o + jsize n ≤ f → noNull o = true → noNull n = true →
    ∃ r, goKeys f ks o n pre c = .ok r

def TotA (f : Nat) : Prop :=
  ∀ xs ys, jsizeList xs + jsizeList ys < f → noNullList xs = true →
    noNullList ys = true → ∃ r, goArr f xs ys = .ok r

def TotI (f : Nat) : Prop :=
  ∀ idxs xs ys ds errs, jsizeList xs + jsizeList ys ≤ f → noNullList xs = true →
    noNullList ys = true → ∃ r, goIdx f idxs xs ys ds errs = .ok r

theorem goTotal : ∀ f, TotD f ∧ TotI f ∧ TotA f ∧ TotK f := by
  intro f
  induction f using Nat.strong_induction_on with
  | _ f IH =>
    have hD : TotD f := by
      intro o n p c hb hco hcn hno hnn
      have p1 : 1 ≤ jsize o := jsize_pos o
      obtain ⟨a, rfl⟩ : ∃ a, f = a + 1 := ⟨f - 1, by omega⟩
      rw [goDiff_succ]
      obtain ⟨ks1, hk1⟩ := jsKeys_ok_of_container hco
      obtain ⟨ks2, hk2⟩ := jsKeys_ok_of_container hcn
      rw [hk1, hk2]
      exact (IH a (by omega)).2.2.2 (mergeArrays ks1 ks2) o n (prefixStr p) c
        (by omega) hno hnn
    have hI : TotI f := by
      intro idxs xs ys ds errs hb hnx hny
      induction idxs generalizing ds errs with
      | nil => exact ⟨(ds, errs), goIdx_nil f xs ys ds errs⟩
      | cons i rest ihl =>
        rw [goIdx_cons]
        by_cases hg : (jsTypeofObject (xs.getD i .undef)
            && jsTypeofObject (ys.getD i .undef)) = true
        · rw [Bool.and_eq_true] at hg
          have so := getD_size hg.1
          have sn := getD_size hg.2
          have no := noNull_getD (i := i) hnx
          have nn := noNull_getD (i := i) hny
          obtain ⟨sub, hsub⟩ := hD (xs.getD i .undef) (ys.getD i .undef) ""
            { hasDiff := false, diffs := [] } (by omega)
            (container_of_typeof_noNull hg.1 no)
            (container_of_typeof_noNull hg.2 nn) no nn
          unfold idxStep
          rw [if_pos (by rw [Bool.and_eq_true]; exact hg), hsub]
          by_cases hd : sub.hasDiff = true
          · simp only [hd, if_true]
            exact ihl _ _
          · simp only [hd]
            simp only [Bool.false_eq_true, if_false]
            exact ihl _ _
        · unfold idxStep
          rw [if_neg hg]
          by_cases he : jsStrictEq (xs.getD i .undef) (ys.getD i .undef) = true
          · simp only [he, if_true]
            exact ihl _ _
          · simp only [he]
            simp only [Bool.false_eq_true, if_false]
            exact ihl _ _
    have hA : TotA f := by
      intro xs ys hb hnx hny
      rw [goArr_unfold]
      obtain ⟨p, hp⟩ := hI
        (List.range (if xs.length > ys.length then xs.length else ys.length))
        xs ys [] 0 (by omega) hnx hny
      rw [hp]
      exact ⟨_, rfl⟩
    have hK : TotK f := by
      intro ks o n pre c hb hno hnn
      induction ks generalizing c with
      | nil => exact ⟨c, goKeys_nil f o n pre c⟩
      | cons okey rest ihl =>
        rw [goKeys_cons]
        have hstep : ∃ c₂, keyStep f (jsGet o okey) (jsGet n okey) pre okey c
            = .ok c₂ := by
          unfold keyStep
          by_cases hg : (isJsArr (jsGet o okey) && isJsArr (jsGet n okey)) = true
          · rw [if_pos hg]
            rw [Bool.and_eq_true] at hg
            obtain ⟨xs, hxs⟩ := isJsArr_exists hg.1
            obtain ⟨ys, hys⟩ := isJsArr_exists hg.2
            have so : jsize (jsGet o okey) < jsize o :=
              jsGet_size (by rw [hxs]; rfl)
            have sn : jsize (jsGet n okey) < jsize n :=
              jsGet_size (by rw [hys]; rfl)
            rw [hxs] at so
            rw [hys] at sn
            simp only [jsize] at so sn
            have nx : noNullList xs = true := by
              have := noNull_jsGet (o := o) (k := okey) hno
              rw [hxs] at this
              simpa [noNull] using this
            have ny : noNullList ys = true := by
              have := noNull_jsGet (o := n) (k := okey) hnn
              rw [hys] at this
              simpa [noNull] using this
            obtain ⟨ad, had⟩ := hA (asArrElems (jsGet o okey))
              (asArrElems (jsGet n okey))
              (by rw [hxs, hys]; simp only [asArrElems]; omega)
              (by rw [hxs]; simpa [asArrElems] using nx)
              (by rw [hys]; simpa [asArrElems] using ny)
            rw [had]
            exact ⟨_, rfl⟩
          · rw [if_neg hg]
            by_cases ht : (jsTypeofObject (jsGet o okey)
                && jsTypeofObject (jsGet n okey)) = true
            · rw [if_pos ht]
              rw [Bool.and_eq_true] at ht
              have so := jsGet_size ht.1
              have sn := jsGet_size ht.2
              have no := noNull_jsGet (o := o) (k := okey) hno
              have nn := noNull_jsGet (o := n) (k := okey) hnn
              exact hD (jsGet o okey) (jsGet n okey) (pre ++ okey) c (by omega)
                (container_of_typeof_noNull ht.1 no)
                (container_of_typeof_noNull ht.2 nn) no nn
            · rw [if_neg ht]
              by_cases he : jsStrictEq (jsGet o okey) (jsGet n okey) = true
              · simp only [he, if_true]
                exact ⟨c, rfl⟩
              · simp only [he]
                simp only [Bool.false_eq_true, if_false]
                exact ⟨_, rfl⟩
        obtain ⟨c₂, hc₂⟩ := hstep
        rw [hc₂]
        exact ihl c₂
    exact ⟨hD, hI, hA, hK⟩

theorem computeDiff_total {fs gs : List (String × JVal)}
    (ho : noNullFields fs = true) (hn : noNullFields gs = true) :
    ∃ r, computeDiff (.obj fs) (.obj gs) = .ok r :=
  (goTotal (diffFuel (.obj fs) (.obj gs))).1 (.obj fs) (.obj gs) ""
    { hasDiff := false, diffs := [] } (by simp [diffFuel]) rfl rfl
    (by simpa [noNull] using ho) (by simpa [noNull] using hn)

theorem computeArrayDiff_total {xs ys : List JVal}
    (hx : noNullList xs = true) (hy : noNullList ys = true) :
    ∃ r, computeArrayDiff xs ys = .ok r :=
  (goTotal (jsizeList xs + jsizeList ys + 1)).2.2.1 xs ys (by omega) hx hy

/-! ## Key-set membership and uniqueness -/

theorem lookupKV_eq_none_iff {κ α : Type} [DecidableEq κ]
    {l : List (κ × α)} {k : κ} : lookupKV l k = none ↔ k ∉ l.map Prod.fst := by
  induction l with
  | nil => simp [lookupKV]
  | cons p rest ih =>
    obtain ⟨k', v'⟩ := p
    by_cases hk : k' = k
    · subst hk
      simp [lookupKV]
    · simp [lookupKV, hk, ih, Ne.symm hk]

theorem mem_insertKey {acc : List String} {a k : String} :
    k ∈ insertKey acc a ↔ k ∈ acc ∨ k = a := by
  unfold insertKey
  by_cases h : a ∈ acc
  · simp only [h, if_true]
    constructor
    · exact fun hm => Or.inl hm
    · rintro (hm | rfl)
      · exact hm
      · exact h
  · simp [h]

theorem nodup_insertKey {acc : List String} {a : String} (h : acc.Nodup) :
    (insertKey acc a).Nodup := by
  unfold insertKey
  by_cases hm : a ∈ acc
  · simpa [hm]
  · simp [hm, List.nodup_append, h]

theorem mem_foldl_insertKey {l acc : List String} {k : String} :
    k ∈ l.foldl insertKey acc ↔ k ∈ acc ∨ k ∈ l := by
  induction l generalizing acc with
  | nil => simp
  | cons a rest ih =>
    simp only [List.foldl_cons, ih, mem_insertKey, List.mem_cons]
    tauto

theorem nodup_foldl_insertKey {l acc : List String} (h : acc.Nodup) :
    (l.foldl insertKey acc).Nodup := by
  induction l generalizing acc with
  | nil => simpa
  | cons a rest ih => exact ih (nodup_insertKey h)

theorem mem_dedupKeys {l : List String} {k : String} :
    k ∈ dedupKeys l ↔ k ∈ l := by
  unfold dedupKeys
  simp [mem_foldl_insertKey]

theorem nodup_dedupKeys (l : List String) : (dedupKeys l).Nodup :=
  nodup_foldl_insertKey List.nodup_nil

theorem mem_jsKeyOrder {l : List String} {k : String} :
    k ∈ jsKeyOrder l ↔ k ∈ l := by
  unfold jsKeyOrder
  rw [List.mem_append]
  rw [(List.perm_insertionSort (fun a b => keyNatVal a ≤ keyNatVal b)
    (l.filter (fun s => isCanonicalIndex s))).mem_iff]
  simp only [List.mem_filter]
  by_cases h : isCanonicalIndex k <;> simp [h]

theorem nodup_jsKeyOrder {l : List String} (h : l.Nodup) :
    (jsKeyOrder l).Nodup := by
  unfold jsKeyOrder
  refine List.Nodup.append ?_ (h.filter _) ?_
  · exact ((List.perm_insertionSort _ _).nodup_iff).mpr (h.filter _)
  · intro k hk1 hk2
    rw [(List.perm_insertionSort (fun a b => keyNatVal a ≤ keyNatVal b)
      (l.filter (fun s => isCanonicalIndex s))).mem_iff] at hk1
    simp only [List.mem_filter] at hk1 hk2
    rw [hk1.2] at hk2
    simp at hk2

theorem mem_mergeArrays {l1 l2 : List String} {k : String} :
    k ∈ mergeArrays l1 l2 ↔ k ∈ l1 ∨ k ∈ l2 := by
  unfold mergeArrays
  rw [mem_jsKeyOrder, mem_dedupKeys, List.mem_append]

theorem nodup_mergeArrays (l1 l2 : List String) : (mergeArrays l1 l2).Nodup :=
  nodup_jsKeyOrder (nodup_dedupKeys _)

theorem jsKeys_obj_mem {fs : List (String × JVal)} {ks : List String}
    (h : jsKeys (.obj fs) = .ok ks) {k : String} :
    k ∈ ks ↔ k ∈ fs.map Prod.fst := by
  simp only [jsKeys, Except.ok.injEq] at h
  subst h
  rw [mem_jsKeyOrder, mem_dedupKeys]

/-! ## Untouched keys

Processing a key `okey` under prefix `pre` writes only at `pre ++ okey` itself
or at `pre ++ okey ++ s` with `s` starting with `[` (array-index suffixes) or
`/` (structural recursion).  Keys not of this shape keep their accumulator
binding; this is what makes the per-key diff entries of the claims stable
against the rest of the loop. -/

def TouchedBy (pre k key : String) : Prop :=
  key = pre ++ k ∨
    ∃ s, key = pre ++ k ++ s ∧ (s.data.head? = some '[' ∨ s.data.head? = some '/')

theorem bracket_head (t : String) : ("[" ++ t).data.head? = some '[' := by
  rw [String.data_append]
  rfl

theorem goIdx_untouched {fuel : Nat} {idxs : List Nat} {xs ys : List JVal}
    {ds ds' : List (String × (JVal × JVal))} {errs errs' : Nat}
    (h : goIdx fuel idxs xs ys ds errs = .ok (ds', errs')) (key : String)
    (hk : key.data.head? ≠ some '[') : lookupKV ds' key = lookupKV ds key := by
  induction idxs generalizing ds errs with
  | nil =>
    rw [goIdx_nil] at h
    simp at h
    rw [h.1]
  | cons i rest ih =>
    rw [goIdx_cons] at h
    cases hs : idxStep fuel (xs.getD i .undef) (ys.getD i .undef)
        ("[" ++ Nat.repr i ++ "]") ds errs with
    | error e => rw [hs] at h; exact absurd h (by simp)
    | ok p =>
      rw [hs] at h
      simp only at h
      have hkey : key ≠ "[" ++ Nat.repr i ++ "]" := by
        intro heq
        rw [heq] at hk
        exact hk (bracket_head (Nat.repr i ++ "]"))
      have hone : lookupKV p.1 key = lookupKV ds key := by
        unfold idxStep at hs
        split at hs
        · cases hgo : goDiff fuel (xs.getD i .undef) (ys.getD i .undef) ""
              { hasDiff := false, diffs := [] } with
          | error e => rw [hgo] at hs; exact absurd hs (by simp)
          | ok sub =>
            rw [hgo] at hs
            simp only [Except.ok.injEq] at hs
            split at hs
            · rw [← hs]
              exact lookupKV_rset_ne ds _ key _ hkey
            · rw [← hs]
        · simp only [Except.ok.injEq] at hs
          split at hs
          · rw [← hs]
          · rw [← hs]
            exact lookupKV_rset_ne ds _ key _ hkey
      rw [ih h, hone]

theorem goArr_keys_bracket {fuel : Nat} {xs ys : List JVal} {r : DiffResults}
    (h : goArr fuel xs ys = .ok r) {key : String} (hm : key ∈ r.diffs.map Prod.fst) :
    key.data.head? = some '[' := by
  rw [goArr_unfold] at h
  cases hi : goIdx fuel
      (List.range (if xs.length > ys.length then xs.length else ys.length))
      xs ys [] 0 with
  | error e => rw [hi] at h; exact absurd h (by simp)
  | ok p =>
    obtain ⟨ds₂, errs₂⟩ := p
    rw [hi] at h
    simp only [Except.ok.injEq] at h
    by_contra hne
    have := goIdx_untouched hi key hne
    simp only [lookupKV] at this
    rw [← h] at hm
    simp only at hm
    rw [lookupKV_eq_none_iff] at this
    exact this hm

theorem stringAppend_eq_empty {p q : String} (h : p ++ q = "") :
    p = "" ∧ q = "" := by
  have hd := congrArg String.data h
  rw [String.data_append] at hd
  have := List.append_eq_nil.mp hd
  constructor
  · apply String.ext
    exact this.1
  · apply String.ext
    exact this.2

theorem slash_head (t : String) : ("/" ++ t).data.head? = some '/' := by
  rw [String.data_append]
  rfl

theorem foldl_rset_preserved {β : Type} {entries d : List (String × β)}
    {base key : String} (h : ∀ p ∈ entries, key ≠ base ++ p.1) :
    lookupKV (entries.foldl (fun dd p => rset dd (base ++ p.1) p.2) d) key
      = lookupKV d key := by
  induction entries generalizing d with
  | nil => rfl
  | cons e rest ih =>
    simp only [List.foldl_cons]
    rw [ih (fun p hp => h p (List.mem_cons_of_mem e hp))]
    exact lookupKV_rset_ne d _ key _ (h e (List.mem_cons_self e rest))

def UntD (f : Nat) : Prop :=
  ∀ o n p c r, p ≠ "" → goDiff f o n p c = .ok r →
    ∀ key, (∀ t, key ≠ p ++ "/" ++ t) →
      lookupKV r.diffs key = lookupKV c.diffs key

def UntK (f : Nat) : Prop :=
  ∀ ks o n pre, ∀ c r, (pre = "" → "" ∉ ks) → goKeys f ks o n pre c = .ok r →
    ∀ key, (∀ k ∈ ks, ¬ TouchedBy pre k key) →
      lookupKV r.diffs key = lookupKV c.diffs key

theorem goUnt : ∀ f, UntD f ∧ UntK f := by
  intro f
  induction f using Nat.strong_induction_on with
  | _ f IH =>
    have hD : UntD f := by
      intro o n p c r hp h key hkey
      cases f with
      | zero => simp [goDiff, difAt] at h
      | succ a =>
        rw [goDiff_succ] at h
        cases h1 : jsKeys o with
        | error e => rw [h1] at h; exact absurd h (by simp)
        | ok ks1 =>
          cases h2 : jsKeys n with
          | error e => rw [h1, h2] at h; exact absurd h (by simp)
          | ok ks2 =>
            rw [h1, h2] at h
            simp only [prefixStr, if_neg hp] at h
            refine (IH a (Nat.lt_succ_self a)).2 (mergeArrays ks1 ks2) o n
              (p ++ "/") c r ?_ h key ?_
            · intro hcon
              have := stringAppend_eq_empty hcon
              simp at this
            · intro k hk htouch
              rcases htouch with heq | ⟨s, hs, hhead⟩
              · exact hkey k heq
              · refine hkey (k ++ s) ?_
                rw [hs, String.append_assoc (p ++ "/") k s]
    have hK : UntK f := by
      intro ks o n pre
      induction ks with
      | nil =>
        intro c r hpre h key hkey
        rw [goKeys_nil] at h
        simp at h
        rw [h]
      | cons okey rest ihl =>
        intro c r hpre h key hkey
        rw [goKeys_cons] at h
        cases hs : keyStep f (jsGet o okey) (jsGet n okey) pre okey c with
        | error e => rw [hs] at h; exact absurd h (by simp)
        | ok c₂ =>
          rw [hs] at h
          simp only at h
          have hnt : ¬ TouchedBy pre okey key :=
            hkey okey (List.mem_cons_self _ _)
          have hstep : lookupKV c₂.diffs key = lookupKV c.diffs key := by
            unfold keyStep at hs
            split at hs
            · cases ha : goArr f (asArrElems (jsGet o okey))
                  (asArrElems (jsGet n okey)) with
              | error e => rw [ha] at hs; exact absurd hs (by simp)
              | ok arrdiff =>
                rw [ha] at hs
                simp only [Except.ok.injEq] at hs
                split at hs
                · rw [← hs]
                  refine foldl_rset_preserved ?_
                  intro q hq heq
                  refine hnt (Or.inr ⟨q.1, ?_, Or.inl ?_⟩)
                  · rw [heq, String.append_assoc pre okey q.1]
                  · exact goArr_keys_bracket ha (List.mem_map_of_mem Prod.fst hq)
                · rw [← hs]
            · split at hs
              · have hne : pre ++ okey ≠ "" := by
                  intro hcon
                  obtain ⟨hp0, hk0⟩ := stringAppend_eq_empty hcon
                  exact (hpre hp0) (by rw [← hk0]; exact List.mem_cons_self _ _)
                refine hD _ _ _ _ _ hne hs key ?_
                intro t heq
                refine hnt (Or.inr ⟨"/" ++ t, ?_, Or.inr (slash_head t)⟩)
                rw [heq]
                simp [String.append_assoc]
              · split at hs
                · simp only [Except.ok.injEq] at hs
                  rw [← hs]
                · simp only [Except.ok.injEq] at hs
                  rw [← hs]
                  exact lookupKV_rset_ne _ _ _ _ (fun heq => hnt (Or.inl heq))
          have hrest : lookupKV r.diffs key = lookupKV c₂.diffs key := by
            refine ihl c₂ r ?_ h key ?_
            · intro hp0
              intro hmem
              exact (hpre hp0) (List.mem_cons_of_mem okey hmem)
            · intro k hk
              exact hkey k (List.mem_cons_of_mem okey hk)
          rw [hrest, hstep]
    exact ⟨hD, hK⟩

/-! ## Per-key direct entries of `computeDiff`

For a union key whose processing takes the direct value-pair branch, the
final result holds exactly the `[oldValue, newValue]` entry at that key —
provided the key cannot collide with composite path strings, i.e. contains
neither `[` nor `/` and no empty-string keys occur at the top level. -/

theorem stringEmpty_append (k : String) : "" ++ k = k := by
  apply String.ext
  rw [String.data_append]
  rfl

theorem not_touched_empty {k₂ key : String} (hne : key ≠ k₂)
    (hbr : '[' ∉ key.data) (hsl : '/' ∉ key.data) : ¬ TouchedBy "" k₂ key := by
  intro ht
  rcases ht with heq | ⟨s, hs, hhead⟩
  · rw [stringEmpty_append] at heq
    exact hne heq
  · rw [stringEmpty_append] at hs
    have hd := congrArg String.data hs
    rw [String.data_append] at hd
    cases hcs : s.data with
    | nil => rw [hcs] at hhead; simp at hhead
    | cons ch tl =>
      rw [hcs] at hhead hd
      have hch : ch ∈ key.data := by
        rw [hd]
        exact List.mem_append_right _ (List.mem_cons_self ch tl)
      rcases hhead with h1 | h1 <;> simp only [List.head?_cons,
          Option.some.injEq] at h1 <;> subst h1
      · exact hbr hch
      · exact hsl hch

theorem goKeys_append {f : Nat} {l₁ l₂ : List String} {o n : JVal}
    {pre : String} {c r : DiffResults}
    (h : goKeys f (l₁ ++ l₂) o n pre c = .ok r) :
    ∃ c₁, goKeys f l₁ o n pre c = .ok c₁ ∧ goKeys f l₂ o n pre c₁ = .ok r := by
  induction l₁ generalizing c with
  | nil => exact ⟨c, goKeys_nil f o n pre c, by simpa using h⟩
  | cons okey rest ih =>
    rw [List.cons_append, goKeys_cons] at h
    cases hs : keyStep f (jsGet o okey) (jsGet n okey) pre okey c with
    | error e => rw [hs] at h; exact absurd h (by simp)
    | ok c₂ =>
      rw [hs] at h
      simp only at h
      obtain ⟨c₁, h1, h2⟩ := ih h
      refine ⟨c₁, ?_, h2⟩
      rw [goKeys_cons, hs]
      exact h1

theorem keyStep_direct {f : Nat} {ov nv : JVal} {pre okey : String}
    {c : DiffResults}
    (hta : ¬ (isJsArr ov && isJsArr nv) = true)
    (hto : ¬ (jsTypeofObject ov && jsTypeofObject nv) = true)
    (hne : ¬ jsStrictEq ov nv = true) :
    keyStep f ov nv pre okey c
      = .ok { hasDiff := true, diffs := rset c.diffs (pre ++ okey) (ov, nv) } := by
  unfold keyStep
  rw [if_neg hta, if_neg hto, if_neg hne]

theorem keyStep_skip {f : Nat} {ov nv : JVal} {pre okey : String}
    {c : DiffResults}
    (hta : ¬ (isJsArr ov && isJsArr nv) = true)
    (hto : ¬ (jsTypeofObject ov && jsTypeofObject nv) = true)
    (heq : jsStrictEq ov nv = true) :
    keyStep f ov nv pre okey c = .ok c := by
  unfold keyStep
  rw [if_neg hta, if_neg hto, if_pos heq]

theorem computeDiff_direct_entry {fs gs : List (String × JVal)} {r : DiffResults}
    (h : computeDiff (.obj fs) (.obj gs) = .ok r) {k : String}
    (hmem : k ∈ fs.map Prod.fst ∨ k ∈ gs.map Prod.fst)
    (hnm : "" ∉ fs.map Prod.fst) (hnn : "" ∉ gs.map Prod.fst)
    (hbr : '[' ∉ k.data) (hsl : '/' ∉ k.data)
    (hta : ¬ (isJsArr (jsGet (.obj fs) k) && isJsArr (jsGet (.obj gs) k)) = true)
    (hto : ¬ (jsTypeofObject (jsGet (.obj fs) k)
        && jsTypeofObject (jsGet (.obj gs) k)) = true) :
    lookupKV r.diffs k =
      if jsStrictEq (jsGet (.obj fs) k) (jsGet (.obj gs) k) then none
      else some (jsGet (.obj fs) k, jsGet (.obj gs) k) := by
  unfold computeDiff diffFuel at h
  rw [goDiff_succ] at h
  have hk1 : jsKeys (JVal.obj fs)
      = .ok (jsKeyOrder (dedupKeys (fs.map Prod.fst))) := rfl
  have hk2 : jsKeys (JVal.obj gs)
      = .ok (jsKeyOrder (dedupKeys (gs.map Prod.fst))) := rfl
  rw [hk1, hk2] at h
  simp only [prefixStr, if_pos rfl] at h
  set merged := mergeArrays (jsKeyOrder (dedupKeys (fs.map Prod.fst)))
    (jsKeyOrder (dedupKeys (gs.map Prod.fst))) with hmerged
  have hkm : k ∈ merged := by
    rw [hmerged, mem_mergeArrays, mem_jsKeyOrder, mem_jsKeyOrder,
      mem_dedupKeys, mem_dedupKeys]
    exact hmem
  have hnone : "" ∉ merged := by
    rw [hmerged, mem_mergeArrays, mem_jsKeyOrder, mem_jsKeyOrder,
      mem_dedupKeys, mem_dedupKeys]
    rintro (hc | hc)
    · exact hnm hc
    · exact hnn hc
  have hnd : merged.Nodup := nodup_mergeArrays _ _
  obtain ⟨l₁, l₂, hsplit⟩ := List.append_of_mem hkm
  rw [hsplit] at h hnd hnone
  simp only [List.nodup_append, List.nodup_cons] at hnd
  have hk_notin₁ : k ∉ l₁ := fun hc =>
    hnd.2.2 hc (List.mem_cons_self k l₂)
  have hk_notin₂ : k ∉ l₂ := hnd.2.1.1
  have hempty₁ : ("" : String) ∉ l₁ := fun hc =>
    hnone (List.mem_append_left _ hc)
  have hempty₂ : ("" : String) ∉ l₂ := fun hc =>
    hnone (List.mem_append_right _ (List.mem_cons_of_mem k hc))
  obtain ⟨c₁, hc₁, hc₂⟩ := goKeys_append h
  rw [goKeys_cons] at hc₂
  by_cases heq : jsStrictEq (jsGet (.obj fs) k) (jsGet (.obj gs) k) = true
  · rw [keyStep_skip hta hto heq] at hc₂
    simp only at hc₂
    rw [if_pos heq]
    have hl₁ : lookupKV c₁.diffs k = none := by
      have := (goUnt _).2 l₁ (.obj fs) (.obj gs) "" _ c₁
        (fun _ => hempty₁) hc₁ k
        (fun k₂ hk₂ => not_touched_empty
          (fun hc => hk_notin₁ (hc ▸ hk₂)) hbr hsl)
      rw [this]
      rfl
    have hl₂ := (goUnt _).2 l₂ (.obj fs) (.obj gs) "" c₁ r
      (fun _ => hempty₂) hc₂ k
      (fun k₂ hk₂ => not_touched_empty
        (fun hc => hk_notin₂ (hc ▸ hk₂)) hbr hsl)
    rw [hl₂, hl₁]
  · rw [keyStep_direct hta hto heq] at hc₂
    simp only at hc₂
    rw [if_neg heq]
    have hl₂ := (goUnt _).2 l₂ (.obj fs) (.obj gs) ""
      { hasDiff := true,
        diffs := rset c₁.diffs ("" ++ k) (jsGet (.obj fs) k, jsGet (.obj gs) k) }
      r (fun _ => hempty₂) hc₂ k
      (fun k₂ hk₂ => not_touched_empty
        (fun hc => hk_notin₂ (hc ▸ hk₂)) hbr hsl)
    rw [hl₂]
    simp only
    rw [stringEmpty_append]
    exact lookupKV_rset_self c₁.diffs k _

/-! ## Injectivity of the decimal printer

JS converts array indices to keys with decimal printing (`Nat.repr` in the
embedding); its injectivity keeps the `[i]` entries of the array-diff loop
separate. -/

theorem digitsToNat_from (a : Nat) (xs : List Char) :
    xs.foldl (fun acc c => acc * 10 + (c.toNat - 48)) a
      = a * 10 ^ xs.length + digitsToNat xs := by
  induction xs generalizing a with
  | nil => simp [digitsToNat]
  | cons c rest ih =>
    simp only [List.foldl_cons, digitsToNat, List.length_cons]
    rw [ih (a * 10 + (c.toNat - 48)), ih (0 * 10 + (c.toNat - 48))]
    ring

theorem digitChar_toNat {d : Nat} (h : d < 10) :
    (Nat.digitChar d).toNat - 48 = d := by
  interval_cases d <;> rfl

theorem digitsToNat_cons (c : Char) (l : List Char) :
    digitsToNat (c :: l) = (c.toNat - 48) * 10 ^ l.length + digitsToNat l := by
  simp only [digitsToNat, List.foldl_cons]
  rw [digitsToNat_from]
  simp only [Nat.zero_mul, Nat.zero_add]
  rfl

theorem toDigitsCore_val :
    ∀ (f n : Nat) (l : List Char), n < 10 ^ f →
      digitsToNat (Nat.toDigitsCore 10 f n l)
        = n * 10 ^ l.length + digitsToNat l := by
  intro f
  induction f with
  | zero =>
    intro n l hn
    simp only [pow_zero, Nat.lt_one_iff] at hn
    subst hn
    rw [Nat.toDigitsCore]
    rw [Nat.zero_mul, Nat.zero_add]
  | succ f ih =>
    intro n l hn
    rw [Nat.toDigitsCore]
    by_cases hz : n / 10 = 0
    · rw [if_pos hz]
      have hsmall : n < 10 := by omega
      rw [digitsToNat_cons]
      rw [digitChar_toNat (Nat.mod_lt _ (by norm_num))]
      rw [Nat.mod_eq_of_lt hsmall]
    · rw [if_neg hz]
      have hdiv : n / 10 < 10 ^ f := by
        rw [Nat.div_lt_iff_lt_mul (by norm_num)]
        calc n < 10 ^ (f + 1) := hn
        _ = 10 ^ f * 10 := by ring
      rw [ih (n / 10) (Nat.digitChar (n % 10) :: l) hdiv]
      rw [digitsToNat_cons]
      rw [digitChar_toNat (Nat.mod_lt _ (by norm_num))]
      have hmod := Nat.div_add_mod n 10
      simp only [List.length_cons]
      set P := 10 ^ l.length with hP
      calc n / 10 * 10 ^ (l.length + 1) + ((n % 10) * P + digitsToNat l)
          = (n / 10 * 10 + n % 10) * P + digitsToNat l := by
            rw [pow_succ, hP]
            ring
        _ = n * P + digitsToNat l := by rw [Nat.mul_comm (n / 10) 10, hmod]

theorem digitsToNat_repr (n : Nat) : digitsToNat (Nat.repr n).data = n := by
  have hbound : n < 10 ^ (n + 1) := by
    calc n < 2 ^ n := Nat.lt_two_pow n
    _ ≤ 10 ^ n := Nat.pow_le_pow_left (by norm_num) n
    _ ≤ 10 ^ (n + 1) := Nat.pow_le_pow_right (by norm_num) (Nat.le_succ n)
  show digitsToNat (Nat.toDigits 10 n).asString.data = n
  simp only [List.asString, Nat.toDigits]
  have := toDigitsCore_val (n + 1) n [] hbound
  simpa [digitsToNat] using this

theorem natRepr_inj {a b : Nat} (h : Nat.repr a = Nat.repr b) : a = b := by
  have ha := digitsToNat_repr a
  rw [h, digitsToNat_repr b] at ha
  exact ha.symm

theorem idxKey_inj {i j : Nat}
    (h : "[" ++ Nat.repr i ++ "]" = "[" ++ Nat.repr j ++ "]") : i = j := by
  apply natRepr_inj
  have hd := congrArg String.data h
  simp only [String.data_append] at hd
  have hd2 := List.tail_eq_of_cons_eq hd
  apply String.ext
  exact List.append_cancel_right hd2

/-! ## The array-diff loop, index by index -/

theorem goIdx_append {f : Nat} {l₁ l₂ : List Nat} {xs ys : List JVal}
    {ds : List (String × (JVal × JVal))} {errs : Nat}
    {ds' : List (String × (JVal × JVal))} {errs' : Nat}
    (h : goIdx f (l₁ ++ l₂) xs ys ds errs = .ok (ds', errs')) :
    ∃ p, goIdx f l₁ xs ys ds errs = .ok p
      ∧ goIdx f l₂ xs ys p.1 p.2 = .ok (ds', errs') := by
  induction l₁ generalizing ds errs with
  | nil => exact ⟨(ds, errs), goIdx_nil f xs ys ds errs, by simpa using h⟩
  | cons i rest ih =>
    rw [List.cons_append, goIdx_cons] at h
    cases hs : idxStep f (xs.getD i .undef) (ys.getD i .undef)
        ("[" ++ Nat.repr i ++ "]") ds errs with
    | error e => rw [hs] at h; exact absurd h (by simp)
    | ok q =>
      rw [hs] at h
      simp only at h
      obtain ⟨p, h1, h2⟩ := ih h
      refine ⟨p, ?_, h2⟩
      rw [goIdx_cons, hs]
      exact h1

theorem idxStep_lookup_other {f : Nat} {ov nv : JVal} {key : String}
    {ds : List (String × (JVal × JVal))} {errs : Nat}
    {q : List (String × (JVal × JVal)) × Nat}
    (hs : idxStep f ov nv key ds errs = .ok q)
    {k : String} (hk : k ≠ key) : lookupKV q.1 k = lookupKV ds k := by
  obtain ⟨ds₂, errs₂⟩ := q
  simp only
  unfold idxStep at hs
  split at hs
  · cases hgo : goDiff f ov nv "" { hasDiff := false, diffs := [] } with
    | error e => rw [hgo] at hs; exact absurd hs (by simp)
    | ok sub =>
      rw [hgo] at hs
      simp only [Except.ok.injEq] at hs
      split at hs
      · simp only [Prod.mk.injEq] at hs
        rw [← hs.1]
        exact lookupKV_rset_ne ds key k _ hk
      · simp only [Prod.mk.injEq] at hs
        rw [← hs.1]
  · simp only [Except.ok.injEq] at hs
    split at hs
    · simp only [Prod.mk.injEq] at hs
      rw [← hs.1]
    · simp only [Prod.mk.injEq] at hs
      rw [← hs.1]
      exact lookupKV_rset_ne ds key k _ hk

theorem goIdx_preserves_other {f : Nat} {idxs : List Nat} {xs ys : List JVal}
    {ds : List (String × (JVal × JVal))} {errs : Nat}
    {ds' : List (String × (JVal × JVal))} {errs' : Nat}
    (h : goIdx f idxs xs ys ds errs = .ok (ds', errs')) {i : Nat}
    (hni : i ∉ idxs) :
    lookupKV ds' ("[" ++ Nat.repr i ++ "]")
      = lookupKV ds ("[" ++ Nat.repr i ++ "]") := by
  induction idxs generalizing ds errs with
  | nil =>
    rw [goIdx_nil] at h
    simp at h
    rw [h.1]
  | cons j rest ih =>
    rw [goIdx_cons] at h
    cases hs : idxStep f (xs.getD j .undef) (ys.getD j .undef)
        ("[" ++ Nat.repr j ++ "]") ds errs with
    | error e => rw [hs] at h; exact absurd h (by simp)
    | ok q =>
      rw [hs] at h
      simp only at h
      have hne : ("[" ++ Nat.repr i ++ "]") ≠ ("[" ++ Nat.repr j ++ "]") :=
        fun hc => (by simp at hni; exact hni.1 (idxKey_inj hc))
      rw [ih h (by simp at hni; exact hni.2)]
      exact idxStep_lookup_other hs hne

theorem goIdx_written_keys {f : Nat} {idxs : List Nat} {xs ys : List JVal}
    {ds : List (String × (JVal × JVal))} {errs : Nat}
    {ds' : List (String × (JVal × JVal))} {errs' : Nat}
    (h : goIdx f idxs xs ys ds errs = .ok (ds', errs')) {key : String}
    (hch : lookupKV ds' key ≠ lookupKV ds key) :
    ∃ i ∈ idxs, key = "[" ++ Nat.repr i ++ "]" := by
  induction idxs generalizing ds errs with
  | nil =>
    rw [goIdx_nil] at h
    simp at h
    rw [h.1] at hch
    exact absurd rfl hch
  | cons j rest ih =>
    rw [goIdx_cons] at h
    cases hs : idxStep f (xs.getD j .undef) (ys.getD j .undef)
        ("[" ++ Nat.repr j ++ "]") ds errs with
    | error e => rw [hs] at h; exact absurd h (by simp)
    | ok q =>
      rw [hs] at h
      simp only at h
      by_cases hkey : key = "[" ++ Nat.repr j ++ "]"
      · exact ⟨j, List.mem_cons_self j rest, hkey⟩
      · have hone : lookupKV q.1 key = lookupKV ds key :=
          idxStep_lookup_other hs hkey
        have : lookupKV ds' key ≠ lookupKV q.1 key := by
          rw [hone]
          exact hch
        obtain ⟨i, hi, hk⟩ := ih h this
        exact ⟨i, List.mem_cons_of_mem j hi, hk⟩

theorem rset_length_of_none {κ α : Type} [DecidableEq κ]
    {l : List (κ × α)} {k : κ} (v : α) (h : lookupKV l k = none) :
    (rset l k v).length = l.length + 1 := by
  induction l with
  | nil => rfl
  | cons p rest ih =>
    obtain ⟨k', v'⟩ := p
    by_cases hk : k' = k
    · simp [lookupKV, hk] at h
    · simp only [lookupKV, if_neg hk] at h
      simp only [rset, if_neg hk, List.length_cons]
      rw [ih h]

theorem goIdx_count {f : Nat} {idxs : List Nat} {xs ys : List JVal}
    {ds : List (String × (JVal × JVal))} {errs : Nat}
    {ds' : List (String × (JVal × JVal))} {errs' : Nat}
    (h : goIdx f idxs xs ys ds errs = .ok (ds', errs'))
    (hfresh : ∀ i ∈ idxs, lookupKV ds ("[" ++ Nat.repr i ++ "]") = none)
    (hnd : idxs.Nodup) : errs' + ds.length = errs + ds'.length := by
  induction idxs generalizing ds errs with
  | nil =>
    rw [goIdx_nil] at h
    simp at h
    rw [h.1, h.2]
  | cons j rest ih =>
    rw [goIdx_cons] at h
    cases hs : idxStep f (xs.getD j .undef) (ys.getD j .undef)
        ("[" ++ Nat.repr j ++ "]") ds errs with
    | error e => rw [hs] at h; exact absurd h (by simp)
    | ok q =>
      obtain ⟨ds₂, errs₂⟩ := q
      rw [hs] at h
      simp only at h
      simp only [List.nodup_cons] at hnd
      have hjfresh := hfresh j (List.mem_cons_self j rest)
      -- the step either leaves (ds, errs) or appends one fresh entry with
      -- one more error
      have hq : ds₂.length + errs = ds.length + errs₂
          ∧ ∀ i ∈ rest, lookupKV ds₂ ("[" ++ Nat.repr i ++ "]") = none := by
        have hother : ∀ i ∈ rest,
            lookupKV ds₂ ("[" ++ Nat.repr i ++ "]")
              = lookupKV ds ("[" ++ Nat.repr i ++ "]") := by
          intro i hi
          refine idxStep_lookup_other hs ?_
          intro hc
          exact hnd.1 (idxKey_inj hc ▸ hi)
        unfold idxStep at hs
        split at hs
        · cases hgo : goDiff f (xs.getD j .undef) (ys.getD j .undef) ""
              { hasDiff := false, diffs := [] } with
          | error e => rw [hgo] at hs; exact absurd hs (by simp)
          | ok sub =>
            rw [hgo] at hs
            simp only [Except.ok.injEq] at hs
            split at hs
            · simp only [Prod.mk.injEq] at hs
              refine ⟨?_, fun i hi =>
                (hother i hi).trans (hfresh i (List.mem_cons_of_mem j hi))⟩
              rw [← hs.1, ← hs.2]
              rw [rset_length_of_none _ hjfresh]
              omega
            · simp only [Prod.mk.injEq] at hs
              refine ⟨?_, fun i hi =>
                (hother i hi).trans (hfresh i (List.mem_cons_of_mem j hi))⟩
              rw [← hs.1, ← hs.2]
        · simp only [Except.ok.injEq] at hs
          split at hs
          · simp only [Prod.mk.injEq] at hs
            refine ⟨?_, fun i hi =>
              (hother i hi).trans (hfresh i (List.mem_cons_of_mem j hi))⟩
            rw [← hs.1, ← hs.2]
          · simp only [Prod.mk.injEq] at hs
            refine ⟨?_, fun i hi =>
              (hother i hi).trans (hfresh i (List.mem_cons_of_mem j hi))⟩
            rw [← hs.1, ← hs.2]
            rw [rset_length_of_none _ hjfresh]
            omega
      have := ih h hq.2 hnd.2
      omega

theorem idxStep_entry {f : Nat} {ov nv : JVal} {key : String}
    {ds : List (String × (JVal × JVal))} {errs : Nat}
    {q : List (String × (JVal × JVal)) × Nat}
    (hs : idxStep f ov nv key ds errs = .ok q) :
    ((jsTypeofObject ov && jsTypeofObject nv) = true →
      ∃ sub, goDiff f ov nv "" { hasDiff := false, diffs := [] } = .ok sub ∧
        lookupKV q.1 key
          = (if sub.hasDiff then some (ov, nv) else lookupKV ds key))
    ∧ (¬ (jsTypeofObject ov && jsTypeofObject nv) = true →
      lookupKV q.1 key
        = (if jsStrictEq ov nv then lookupKV ds key else some (ov, nv))) := by
  obtain ⟨ds₂, errs₂⟩ := q
  constructor
  · intro hg
    unfold idxStep at hs
    rw [if_pos hg] at hs
    cases hgo : goDiff f ov nv "" { hasDiff := false, diffs := [] } with
    | error e => rw [hgo] at hs; exact absurd hs (by simp)
    | ok sub =>
      rw [hgo] at hs
      simp only [Except.ok.injEq] at hs
      refine ⟨sub, rfl, ?_⟩
      split at hs <;> rename_i h2
      · simp only [Prod.mk.injEq] at hs
        rw [if_pos h2, ← hs.1]
        exact lookupKV_rset_self ds key (ov, nv)
      · simp only [Prod.mk.injEq] at hs
        rw [if_neg h2, ← hs.1]
  · intro hg
    unfold idxStep at hs
    rw [if_neg hg] at hs
    simp only [Except.ok.injEq] at hs
    split at hs <;> rename_i h2
    · simp only [Prod.mk.injEq] at hs
      rw [if_pos h2, ← hs.1]
    · simp only [Prod.mk.injEq] at hs
      rw [if_neg h2, ← hs.1]
      exact lookupKV_rset_self ds key (ov, nv)

theorem computeArrayDiff_entry {xs ys : List JVal} {r : DiffResults}
    (h : computeArrayDiff xs ys = .ok r) {i : Nat}
    (hi : i < (if xs.length > ys.length then xs.length else ys.length)) :
    ((jsTypeofObject (xs.getD i .undef)
        && jsTypeofObject (ys.getD i .undef)) = true →
      ∃ sub, computeDiff (xs.getD i .undef) (ys.getD i .undef) = .ok sub ∧
        lookupKV r.diffs ("[" ++ Nat.repr i ++ "]")
          = (if sub.hasDiff then some (xs.getD i .undef, ys.getD i .undef)
            else none))
    ∧ (¬ (jsTypeofObject (xs.getD i .undef)
        && jsTypeofObject (ys.getD i .undef)) = true →
      lookupKV r.diffs ("[" ++ Nat.repr i ++ "]")
        = (if jsStrictEq (xs.getD i .undef) (ys.getD i .undef) then none
          else some (xs.getD i .undef, ys.getD i .undef))) := by
  unfold computeArrayDiff at h
  rw [goArr_unfold] at h
  set BIG := jsizeList xs + jsizeList ys + 1 with hBIG
  set mx := if xs.length > ys.length then xs.length else ys.length with hmx
  cases hp : goIdx BIG (List.range mx) xs ys [] 0 with
  | error e => rw [hp] at h; exact absurd h (by simp)
  | ok p =>
    rw [hp] at h
    simp only [Except.ok.injEq] at h
    have hdiffs : r.diffs = p.1 := by rw [← h]
    have hmem : i ∈ List.range mx := List.mem_range.mpr hi
    obtain ⟨l₁, l₂, hsplit⟩ := List.append_of_mem hmem
    have hnd : (List.range mx).Nodup := List.nodup_range mx
    rw [hsplit] at hnd
    simp only [List.nodup_append, List.nodup_cons] at hnd
    have hni₁ : i ∉ l₁ := fun hc => hnd.2.2 hc (List.mem_cons_self i l₂)
    have hni₂ : i ∉ l₂ := hnd.2.1.1
    rw [hsplit] at hp
    obtain ⟨p₁, h₁, h₂⟩ := goIdx_append hp
    have hstart : lookupKV p₁.1 ("[" ++ Nat.repr i ++ "]") = none := by
      obtain ⟨ds₁, errs₁⟩ := p₁
      have := goIdx_preserves_other h₁ hni₁
      simpa [lookupKV] using this
    rw [goIdx_cons] at h₂
    cases hs : idxStep BIG (xs.getD i .undef) (ys.getD i .undef)
        ("[" ++ Nat.repr i ++ "]") p₁.1 p₁.2 with
    | error e => rw [hs] at h₂; exact absurd h₂ (by simp)
    | ok q =>
      rw [hs] at h₂
      simp only at h₂
      have hfinal : lookupKV p.1 ("[" ++ Nat.repr i ++ "]")
          = lookupKV q.1 ("[" ++ Nat.repr i ++ "]") := by
        obtain ⟨dsq, errsq⟩ := q
        exact goIdx_preserves_other h₂ hni₂
      have hentry := idxStep_entry hs
      constructor
      · intro hg
        obtain ⟨sub, hsub, hlook⟩ := hentry.1 hg
        rw [Bool.and_eq_true] at hg
        have so := getD_size hg.1
        have sn := getD_size hg.2
        refine ⟨sub, ?_, ?_⟩
        · rw [← goDiff_eq_computeDiff (xs.getD i .undef) (ys.getD i .undef)
            (show jsize (xs.getD i .undef) + jsize (ys.getD i .undef) < BIG
              by omega)]
          exact hsub
        · rw [hdiffs, hfinal, hlook, hstart]
      · intro hg
        have hlook := hentry.2 hg
        rw [hdiffs, hfinal, hlook, hstart]

theorem computeArrayDiff_shape {xs ys : List JVal} {r : DiffResults}
    (h : computeArrayDiff xs ys = .ok r) :
    (r.hasDiff = true ↔ r.diffs ≠ [])
    ∧ ∀ key ∈ r.diffs.map Prod.fst,
        ∃ i, i < (if xs.length > ys.length then xs.length else ys.length)
          ∧ key = "[" ++ Nat.repr i ++ "]" := by
  unfold computeArrayDiff at h
  rw [goArr_unfold] at h
  set BIG := jsizeList xs + jsizeList ys + 1 with hBIG
  set mx := if xs.length > ys.length then xs.length else ys.length with hmx
  cases hp : goIdx BIG (List.range mx) xs ys [] 0 with
  | error e => rw [hp] at h; exact absurd h (by simp)
  | ok p =>
    obtain ⟨ds', errs'⟩ := p
    rw [hp] at h
    simp only [Except.ok.injEq] at h
    have hcount := goIdx_count hp (fun i _ => rfl) (List.nodup_range mx)
    simp only [List.length_nil] at hcount
    constructor
    · rw [← h]
      simp only [bne_iff_ne, ne_eq]
      constructor
      · intro hne hnil
        rw [hnil] at hcount
        simp at hcount
        exact hne (by omega)
      · intro hnil
        intro h0
        refine hnil ?_
        rw [List.length_eq_zero.mp (by omega : ds'.length = 0)]
    · intro key hkey
      rw [← h] at hkey
      simp only at hkey
      have hch : lookupKV ds' key ≠ lookupKV ([] : List (String × (JVal × JVal))) key := by
        simp only [lookupKV]
        intro hc
        exact lookupKV_eq_none_iff.mp hc hkey
      obtain ⟨i, hiRange, hik⟩ := goIdx_written_keys hp hch
      exact ⟨i, List.mem_range.mp hiRange, hik⟩

/-! ## Heap basics

Address lookup over `alloc`/`set`, and the boundedness invariant `heapWFb`
(every allocated address lies below `next`), which keeps fresh allocations
from colliding with live objects. -/

theorem lookupKV_append_some {κ α : Type} [DecidableEq κ]
    {l₁ : List (κ × α)} (l₂ : List (κ × α)) {k : κ} {v : α}
    (h : lookupKV l₁ k = some v) : lookupKV (l₁ ++ l₂) k = some v := by
  induction l₁ with
  | nil => simp [lookupKV] at h
  | cons p rest ih =>
    obtain ⟨k₂, v₂⟩ := p
    by_cases hk : k₂ = k
    · simp [lookupKV, hk] at h ⊢
      exact h
    · simp [lookupKV, hk] at h ⊢
      exact ih h

theorem lookupKV_append_none {κ α : Type} [DecidableEq κ]
    {l₁ : List (κ × α)} (l₂ : List (κ × α)) {k : κ}
    (h : lookupKV l₁ k = none) : lookupKV (l₁ ++ l₂) k = lookupKV l₂ k := by
  induction l₁ with
  | nil => simp
  | cons p rest ih =>
    obtain ⟨k₂, v₂⟩ := p
    by_cases hk : k₂ = k
    · simp [lookupKV, hk] at h
    · simp [lookupKV, hk] at h ⊢
      exact ih h

theorem lookupKV_mem {κ α : Type} [DecidableEq κ] {l : List (κ × α)}
    {k : κ} {v : α} (h : lookupKV l k = some v) : (k, v) ∈ l := by
  induction l with
  | nil => simp [lookupKV] at h
  | cons p rest ih =>
    obtain ⟨k₂, v₂⟩ := p
    by_cases hk : k₂ = k
    · subst hk
      simp [lookupKV] at h
      simp [h]
    · simp [lookupKV, hk] at h
      exact List.mem_cons_of_mem _ (ih h)

theorem mem_rset {κ α : Type} [DecidableEq κ] {l : List (κ × α)} {k : κ}
    {v : α} {x : κ × α} (h : x ∈ rset l k v) : x = (k, v) ∨ x ∈ l := by
  induction l with
  | nil =>
    simp [rset] at h
    simp [h]
  | cons p rest ih =>
    obtain ⟨k₂, v₂⟩ := p
    by_cases hk : k₂ = k
    · simp [rset, hk] at h
      rcases h with h | h
      · left
        simp [h]
      · right
        exact List.mem_cons_of_mem _ h
    · simp [rset, hk] at h
      rcases h with h | h
      · right
        simp [h]
      · rcases ih h with h2 | h2
        · left
          exact h2
        · right
          exact List.mem_cons_of_mem _ h2

theorem Heap.alloc_snd (h : Heap) (o : HObj) : (h.alloc o).2 = h.next := rfl

theorem Heap.alloc_next (h : Heap) (o : HObj) :
    (h.alloc o).1.next = h.next + 1 := rfl

theorem Heap.set_next (h : Heap) (a : Addr) (o : HObj) :
    (h.set a o).next = h.next := rfl

theorem Heap.get_set_self (h : Heap) (a : Addr) (o : HObj) :
    (h.set a o).get a = some o := lookupKV_rset_self h.objs a o

theorem Heap.get_set_ne (h : Heap) {a b : Addr} (o : HObj) (hne : b ≠ a) :
    (h.set a o).get b = h.get b := lookupKV_rset_ne h.objs a b o hne

theorem Heap.get_alloc_ne (h : Heap) (o : HObj) {a : Addr} (hne : a ≠ h.next) :
    (h.alloc o).1.get a = h.get a := by
  show lookupKV (h.objs ++ [(h.next, o)]) a = lookupKV h.objs a
  cases hl : lookupKV h.objs a with
  | some v => rw [lookupKV_append_some _ hl]
  | none =>
    rw [lookupKV_append_none _ hl]
    simp [lookupKV, Ne.symm hne]

theorem Heap.get_alloc_self (h : Heap) (o : HObj)
    (hfresh : h.get h.next = none) : (h.alloc o).1.get h.next = some o := by
  show lookupKV (h.objs ++ [(h.next, o)]) h.next = some o
  rw [lookupKV_append_none _ hfresh]
  simp [lookupKV]

/-- Every live address lies below the allocation counter. -/
def heapWFb (h : Heap) : Bool := h.objs.all (fun p => decide (p.1 < h.next))

theorem wf_get_lt {h : Heap} (hwf : heapWFb h = true) {a : Addr} {o : HObj}
    (ha : h.get a = some o) : a < h.next := by
  have hm := lookupKV_mem ha
  have := List.all_eq_true.mp hwf _ hm
  simpa using this

theorem wf_get_none {h : Heap} (hwf : heapWFb h = true) {a : Addr}
    (ha : h.next ≤ a) : h.get a = none := by
  cases hg : h.get a with
  | none => rfl
  | some o => exact absurd (wf_get_lt hwf hg) (not_lt.mpr ha)

theorem wf_set {h : Heap} (hwf : heapWFb h = true) {a : Addr} (ha : a < h.next)
    (o : HObj) : heapWFb (h.set a o) = true := by
  rw [heapWFb, List.all_eq_true]
  intro x hx
  rcases mem_rset hx with h2 | h2
  · subst h2
    simpa using ha
  · have := List.all_eq_true.mp hwf _ h2
    simpa using this

theorem wf_alloc {h : Heap} (hwf : heapWFb h = true) (o : HObj) :
    heapWFb (h.alloc o).1 = true := by
  rw [heapWFb, List.all_eq_true]
  intro x hx
  show decide (x.1 < (h.alloc o).1.next) = true
  rw [Heap.alloc_next]
  rcases List.mem_append.mp hx with h2 | h2
  · have h3 := List.all_eq_true.mp hwf _ h2
    simp only [decide_eq_true_eq] at h3 ⊢
    exact Nat.lt_succ_of_lt h3
  · simp at h2
    simp [h2]

/-! ## Paths without separators and brackets -/

theorem splitChars_no_sep {sep : Char} {cs : List Char} (h : sep ∉ cs) :
    splitChars sep cs = [cs] := by
  induction cs with
  | nil => rfl
  | cons c rest ih =>
    have hc : c ≠ sep := fun he => h (he ▸ List.mem_cons_self c rest)
    have hr : sep ∉ rest := fun hm => h (List.mem_cons_of_mem _ hm)
    simp [splitChars, hc, ih hr]

theorem jsSplit_no_sep {s : String} {sep : Char} (h : sep ∉ s.data) :
    jsSplit s sep = [s] := by
  rw [jsSplit, splitChars_no_sep h]
  cases s
  rfl

theorem parsePathComponent_plain {s : String} (h : '[' ∉ s.data) :
    parsePathComponent s = { name := s } := by
  unfold parsePathComponent
  rw [jsSplit_no_sep h]
  rfl

/-! ## Resolving one missing plain segment -/

theorem resolveName_missing {h : Heap} {a : Addr} {fs : List (String × HVal)}
    {name : String} (component path : String)
    (ha : h.get a = some (.map fs)) (hane : a ≠ h.next)
    (hn : name ≠ "") (habs : lookupKV fs name = none) :
    resolveName h (.ref a) { name := name } component path
      = .ok (((h.alloc (.map [])).1).set a (.map (rset fs name (.ref h.next))),
          .ref h.next) := by
  have hread : heapRead h (.ref a) name = .ok .undef := by
    simp only [heapRead, ha, habs, Option.getD_none]
  have hga : (h.alloc (.map [])).1.get a = some (.map fs) := by
    rw [Heap.get_alloc_ne _ _ hane]
    exact ha
  unfold resolveName
  simp only [hread]
  rw [if_pos hn]
  simp only [jsTruthy, Bool.false_eq_true, if_false, Heap.alloc_snd]
  simp only [heapWrite, hga]

theorem resolveTail_plain (h : Heap) (target : HVal) (name : String) :
    resolveTail h target { name := name } = .ok (h, target) := rfl

theorem resolveStep_plain_missing {h : Heap} {a : Addr}
    {fs : List (String × HVal)} {name : String} (path : String)
    (hwf : heapWFb h = true) (ha : h.get a = some (.map fs))
    (hn : name ≠ "") (hnb : '[' ∉ name.data)
    (habs : lookupKV fs name = none) :
    resolveStep h (.ref a) name path
      = .ok (((h.alloc (.map [])).1).set a (.map (rset fs name (.ref h.next))),
          .ref h.next) := by
  have halt : a < h.next := wf_get_lt hwf ha
  have hane : a ≠ h.next := Nat.ne_of_lt halt
  simp only [resolveStep]
  rw [parsePathComponent_plain hnb, resolveName_missing _ path ha hane hn habs]
  exact resolveTail_plain _ _ _

/-! ## Which errors the resolver can raise

Every failure of the primitive heap operations is a strict-mode `TypeError`;
the one explicit `throw` of the source (`invalidPath`) fires exactly on a
segment with array semantics and no name. -/

theorem heapRead_error {h : Heap} {v : HVal} {k : String} {e : JSErr}
    (he : heapRead h v k = .error e) : e = .typeError := by
  cases v with
  | undef =>
    simp only [heapRead, Except.error.injEq] at he
    exact he.symm
  | null =>
    simp only [heapRead, Except.error.injEq] at he
    exact he.symm
  | bool b => simp [heapRead] at he
  | num n => simp [heapRead] at he
  | str s => simp [heapRead] at he
  | ref a =>
    simp only [heapRead] at he
    cases hg : h.get a with
    | none =>
      rw [hg] at he
      simp only [Except.error.injEq] at he
      exact he.symm
    | some o =>
      rw [hg] at he
      cases o <;> simp at he

theorem heapWrite_error {h : Heap} {v : HVal} {k : String} {val : HVal}
    {e : JSErr} (he : heapWrite h v k val = .error e) : e = .typeError := by
  cases v with
  | undef =>
    simp only [heapWrite, Except.error.injEq] at he
    exact he.symm
  | null =>
    simp only [heapWrite, Except.error.injEq] at he
    exact he.symm
  | bool b =>
    simp only [heapWrite, Except.error.injEq] at he
    exact he.symm
  | num n =>
    simp only [heapWrite, Except.error.injEq] at he
    exact he.symm
  | str s =>
    simp only [heapWrite, Except.error.injEq] at he
    exact he.symm
  | ref a =>
    cases hg : h.get a with
    | none =>
      simp only [heapWrite, hg, Except.error.injEq] at he
      exact he.symm
    | some o =>
      cases o with
      | map fs => simp [heapWrite, hg] at he
      | arr es ps =>
        simp only [heapWrite, hg] at he
        split at he
        · simp only [Except.error.injEq] at he
          exact he.symm
        · split at he <;> simp at he

theorem heapPush_error {h : Heap} {v : HVal} {val : HVal} {e : JSErr}
    (he : heapPush h v val = .error e) : e = .typeError := by
  cases v with
  | undef =>
    simp only [heapPush, Except.error.injEq] at he
    exact he.symm
  | null =>
    simp only [heapPush, Except.error.injEq] at he
    exact he.symm
  | bool b =>
    simp only [heapPush, Except.error.injEq] at he
    exact he.symm
  | num n =>
    simp only [heapPush, Except.error.injEq] at he
    exact he.symm
  | str s =>
    simp only [heapPush, Except.error.injEq] at he
    exact he.symm
  | ref a =>
    simp only [heapPush] at he
    cases hg : h.get a with
    | none =>
      rw [hg] at he
      simp only [Except.error.injEq] at he
      exact he.symm
    | some o =>
      rw [hg] at he
      cases o with
      | map fs =>
        simp only [Except.error.injEq] at he
        exact he.symm
      | arr es ps => simp at he

theorem resolveName_error {h : Heap} {ptr : HVal} {c : PathComponent}
    {component path : String} {e : JSErr}
    (he : resolveName h ptr c component path = .error e) :
    e = .typeError
      ∨ (c.name = "" ∧ c.isArray = true
        ∧ e = .invalidPath (unnamedArrayMsg component path)) := by
  unfold resolveName at he
  split at he
  · cases hr : heapRead h ptr c.name with
    | error e₂ =>
      simp only [hr, Except.error.injEq] at he
      exact Or.inl (he ▸ heapRead_error hr)
    | ok nv =>
      simp only [hr] at he
      split at he
      · exact absurd he (by simp)
      · split at he
        · cases hw : heapWrite (h.alloc (.arr [] [])).1 ptr c.name
              (.ref (h.alloc (.arr [] [])).2) with
          | error e₂ =>
            simp only [hw, Except.error.injEq] at he
            exact Or.inl (he ▸ heapWrite_error hw)
          | ok h₂ => simp [hw] at he
        · cases hw : heapWrite (h.alloc (.map [])).1 ptr c.name
              (.ref (h.alloc (.map [])).2) with
          | error e₂ =>
            simp only [hw, Except.error.injEq] at he
            exact Or.inl (he ▸ heapWrite_error hw)
          | ok h₂ => simp [hw] at he
  · split at he
    · rename_i hcn hia
      simp only [Except.error.injEq] at he
      exact Or.inr ⟨not_not.mp (by simpa using hcn), hia, he.symm⟩
    · exact absurd he (by simp)

theorem resolveTail_error {h : Heap} {target : HVal} {c : PathComponent}
    {e : JSErr} (he : resolveTail h target c = .error e) : e = .typeError := by
  unfold resolveTail at he
  split at he
  · split at he
    · rename_i i hidx
      cases hr : heapRead h target (toString i) with
      | error e₂ =>
        simp only [hr, Except.error.injEq] at he
        exact he ▸ heapRead_error hr
      | ok cur =>
        simp only [hr] at he
        split at he
        · cases hw : heapWrite (h.alloc (.map [])).1 target (toString i)
              (.ref (h.alloc (.map [])).2) with
          | error e₂ =>
            simp only [hw, Except.error.injEq] at he
            exact he ▸ heapWrite_error hw
          | ok h₂ => simp [hw] at he
        · cases hw : heapWrite h target (toString i) cur with
          | error e₂ =>
            simp only [hw, Except.error.injEq] at he
            exact he ▸ heapWrite_error hw
          | ok h₂ => simp [hw] at he
    · cases hp : heapPush (h.alloc (.map [])).1 target
          (.ref (h.alloc (.map [])).2) with
      | error e₂ =>
        simp only [hp, Except.error.injEq] at he
        exact he ▸ heapPush_error hp
      | ok h₂ => simp [hp] at he
  · split at he
    · rename_i k hkey
      cases hr : heapRead h target k with
      | error e₂ =>
        simp only [hr, Except.error.injEq] at he
        exact he ▸ heapRead_error hr
      | ok cur =>
        simp only [hr] at he
        split at he
        · exact absurd he (by simp)
        · cases hw : heapWrite (h.alloc (.map [])).1 target k
              (.ref (h.alloc (.map [])).2) with
          | error e₂ =>
            simp only [hw, Except.error.injEq] at he
            exact he ▸ heapWrite_error hw
          | ok h₂ => simp [hw] at he
    · exact absurd he (by simp)

theorem resolveStep_error {h : Heap} {ptr : HVal} {component path : String}
    {e : JSErr} (he : resolveStep h ptr component path = .error e) :
    e = .typeError
      ∨ ((parsePathComponent component).name = ""
        ∧ (parsePathComponent component).isArray = true
        ∧ e = .invalidPath (unnamedArrayMsg component path)) := by
  simp only [resolveStep] at he
  cases hn : resolveName h ptr (parsePathComponent component) component path with
  | error e₂ =>
    rw [hn] at he
    simp only [Except.error.injEq] at he
    exact he ▸ resolveName_error hn
  | ok p =>
    obtain ⟨h₁, target⟩ := p
    rw [hn] at he
    exact Or.inl (resolveTail_error he)

theorem resolveSegs_error {segs : List String} :
    ∀ {h : Heap} {ptr : HVal} {path : String} {h₂ : Heap} {e : JSErr},
    resolveSegs h ptr segs path = (h₂, .error e) →
    e = .typeError
      ∨ ∃ seg, seg ∈ segs ∧ (parsePathComponent seg).name = ""
        ∧ (parsePathComponent seg).isArray = true
        ∧ e = .invalidPath (unnamedArrayMsg seg path) := by
  induction segs with
  | nil => intro h ptr path h₂ e he; simp [resolveSegs] at he
  | cons component rest ih =>
    intro h ptr path h₂ e he
    rw [resolveSegs] at he
    split at he
    · simp at he
    · cases hs : resolveStep h ptr component path with
      | error e₂ =>
        rw [hs] at he
        simp only [Prod.mk.injEq, Except.error.injEq] at he
        rcases resolveStep_error hs with h1 | ⟨h1, h2, h3⟩
        · exact Or.inl (he.2 ▸ h1)
        · exact Or.inr ⟨component, List.mem_cons_self _ _, h1, h2, he.2 ▸ h3⟩
      | ok p =>
        obtain ⟨h₁, ptr₁⟩ := p
        rw [hs] at he
        rcases ih he with h1 | ⟨seg, hm, hrest⟩
        · exact Or.inl h1
        · exact Or.inr ⟨seg, List.mem_cons_of_mem _ hm, hrest⟩

theorem jsStrictEq_undef_right {v : JVal} (h : v ≠ .undef) :
    jsStrictEq v .undef = false := by
  cases v <;> first | exact absurd rfl h | rfl

theorem jsStrictEq_undef_left {v : JVal} (h : v ≠ .undef) :
    jsStrictEq .undef v = false := by
  cases v <;> first | exact absurd rfl h | rfl

theorem isJsArr_typeof {v : JVal} (h : isJsArr v = true) :
    jsTypeofObject v = true := by
  cases v <;> simp [isJsArr, jsTypeofObject] at h ⊢

/-! ## Frame reasoning for the heap diff engine

`diffsAddr h c` is the address of the `diffs` record of the accumulator at
`c`.  `FrameOut h h₂ c` says a call that entered with heap `h` and
accumulator `c` and left heap `h₂` only touched `c`, `c`'s diffs record and
fresh addresses; `AccOK` is the sanity invariant of a live accumulator. -/

def diffsAddr (h : Heap) (c : Addr) : Option Addr :=
  match hGet h (.ref c) "diffs" with
  | .ref d => some d
  | _ => none

theorem diffsAddr_congr {h h₂ : Heap} {c : Addr} (hg : h₂.get c = h.get c) :
    diffsAddr h₂ c = diffsAddr h c := by
  simp only [diffsAddr, hGet, heapRead]
  rw [hg]

theorem heapWrite_preserves {h h₂ : Heap} {x : Addr} {k : String} {val : HVal}
    (hw : heapWrite h (.ref x) k val = .ok h₂) :
    h₂.next = h.next ∧ (∀ a, a ≠ x → h₂.get a = h.get a)
    ∧ (heapWFb h = true → heapWFb h₂ = true) := by
  simp only [heapWrite] at hw
  cases hg : h.get x with
  | none => simp [hg] at hw
  | some o =>
    cases o with
    | map fs =>
      simp only [hg, Except.ok.injEq] at hw
      subst hw
      exact ⟨rfl, fun a ha => Heap.get_set_ne _ _ ha,
        fun hwf => wf_set hwf (wf_get_lt hwf hg) _⟩
    | arr es ps =>
      simp only [hg] at hw
      split at hw
      · exact absurd hw (by simp)
      · split at hw <;>
          (simp only [Except.ok.injEq] at hw
           subst hw
           exact ⟨rfl, fun a ha => Heap.get_set_ne _ _ ha,
             fun hwf => wf_set hwf (wf_get_lt hwf hg) _⟩)

theorem diffsAddr_write_ne {h h₂ : Heap} {x c : Addr} {k : String} {val : HVal}
    (hw : heapWrite h (.ref x) k val = .ok h₂) (hk : k ≠ "diffs") :
    diffsAddr h₂ c = diffsAddr h c := by
  by_cases hxc : c = x
  · subst hxc
    simp only [heapWrite] at hw
    cases hg : h.get c with
    | none => simp [hg] at hw
    | some o =>
      cases o with
      | map fs =>
        simp only [hg, Except.ok.injEq] at hw
        subst hw
        have hgc : (h.set c (.map (rset fs k val))).get c
            = some (.map (rset fs k val)) := Heap.get_set_self _ _ _
        simp only [diffsAddr, hGet, heapRead, hgc, hg]
        rw [lookupKV_rset_ne fs k "diffs" val (fun hc => hk hc.symm)]
      | arr es ps =>
        simp only [hg] at hw
        split at hw
        · exact absurd hw (by simp)
        · split at hw
          · simp only [Except.ok.injEq] at hw
            subst hw
            have hgc : (h.set c
                (.arr (arrElemSet es (keyNatVal k) val) ps)).get c
                = some (.arr (arrElemSet es (keyNatVal k) val) ps) :=
              Heap.get_set_self _ _ _
            simp only [diffsAddr, hGet, heapRead, hgc, hg]
            rfl
          · simp only [Except.ok.injEq] at hw
            subst hw
            have hgc : (h.set c (.arr es (rset ps k val))).get c
                = some (.arr es (rset ps k val)) := Heap.get_set_self _ _ _
            simp only [diffsAddr, hGet, heapRead, hgc, hg, arrPropGet]
            rw [lookupKV_rset_ne ps k "diffs" val (fun hc => hk hc.symm)]
  · rw [diffsAddr_congr ((heapWrite_preserves hw).2.1 c hxc)]

/-- Accumulator sanity: the accumulator and its diffs record are live and
distinct. -/
def AccOK (h : Heap) (c : Addr) : Prop :=
  c < h.next ∧ ∀ d, diffsAddr h c = some d → d < h.next ∧ d ≠ c

/-- What a heap-diff call guarantees about its heap effect: well-formedness,
monotone allocation, untouched live addresses other than the accumulator and
its diffs record, and a stable diffs record. -/
def FrameOut (h h₂ : Heap) (c : Addr) : Prop :=
  heapWFb h₂ = true ∧ h.next ≤ h₂.next
  ∧ (∀ a, a < h.next → a ≠ c → diffsAddr h c ≠ some a → h₂.get a = h.get a)
  ∧ diffsAddr h₂ c = diffsAddr h c

theorem frameOut_refl {h : Heap} {c : Addr} (hwf : heapWFb h = true) :
    FrameOut h h c := ⟨hwf, Nat.le_refl _, fun _ _ _ _ => rfl, rfl⟩

theorem frameOut_trans {h h₁ h₂ : Heap} {c : Addr} (f1 : FrameOut h h₁ c)
    (f2 : FrameOut h₁ h₂ c) : FrameOut h h₂ c := by
  obtain ⟨w1, n1, g1, d1⟩ := f1
  obtain ⟨w2, n2, g2, d2⟩ := f2
  refine ⟨w2, Nat.le_trans n1 n2, ?_, d2.trans d1⟩
  intro a ha hc hd
  rw [g2 a (Nat.lt_of_lt_of_le ha n1) hc (by rw [d1]; exact hd),
    g1 a ha hc hd]

theorem frameOut_write_acc {h h₂ : Heap} {c : Addr} {val : HVal}
    (hw : heapWrite h (.ref c) "hasDiff" val = .ok h₂)
    (hwf : heapWFb h = true) : FrameOut h h₂ c := by
  obtain ⟨hn, hg, hwfp⟩ := heapWrite_preserves hw
  exact ⟨hwfp hwf, hn.ge, fun a _ hac _ => hg a hac,
    diffsAddr_write_ne hw (by decide)⟩

theorem frameOut_write_diffs {h h₂ : Heap} {c d : Addr} {k : String}
    {val : HVal} (hw : heapWrite h (.ref d) k val = .ok h₂)
    (hwf : heapWFb h = true) (hd : diffsAddr h c = some d) (hdc : d ≠ c) :
    FrameOut h h₂ c := by
  obtain ⟨hn, hg, hwfp⟩ := heapWrite_preserves hw
  refine ⟨hwfp hwf, hn.ge, ?_, ?_⟩
  · intro a _ _ hda
    exact hg a (fun hc => hda (hc ▸ hd))
  · exact diffsAddr_congr (hg c (fun hc => hdc hc.symm))

theorem frameOut_alloc {h : Heap} {c : Addr} (o : HObj)
    (hwf : heapWFb h = true) (hc : c < h.next) :
    FrameOut h (h.alloc o).1 c := by
  refine ⟨wf_alloc hwf o, by rw [Heap.alloc_next]; exact Nat.le_succ _, ?_, ?_⟩
  · intro a ha _ _
    exact Heap.get_alloc_ne h o (Nat.ne_of_lt ha)
  · exact diffsAddr_congr (Heap.get_alloc_ne h o (Nat.ne_of_lt hc))

theorem frameOut_of_full {h h₂ : Heap} {c : Addr} (hwf₂ : heapWFb h₂ = true)
    (hn : h.next ≤ h₂.next) (hg : ∀ a, a < h.next → h₂.get a = h.get a)
    (hc : c < h.next) : FrameOut h h₂ c :=
  ⟨hwf₂, hn, fun a ha _ _ => hg a ha, diffsAddr_congr (hg c hc)⟩

theorem accOK_mono {h h₂ : Heap} {c : Addr} (hp : AccOK h c)
    (f : FrameOut h h₂ c) : AccOK h₂ c := by
  obtain ⟨hc, hd⟩ := hp
  obtain ⟨_, hn, _, hda⟩ := f
  refine ⟨Nat.lt_of_lt_of_le hc hn, fun d hdd => ?_⟩
  rw [hda] at hdd
  obtain ⟨h1, h2⟩ := hd d hdd
  exact ⟨Nat.lt_of_lt_of_le h1 hn, h2⟩

theorem hMergeEntries_frame {entries : List (String × HVal)} :
    ∀ {h : Heap} {d : Addr} {base : String} {h₂ : Heap}
      {res : Except DErr Unit},
    hMergeEntries h d base entries = (h₂, res) →
    h₂.next = h.next ∧ (∀ a, a ≠ d → h₂.get a = h.get a)
    ∧ (heapWFb h = true → heapWFb h₂ = true) := by
  induction entries with
  | nil =>
    intro h d base h₂ res hm
    rw [hMergeEntries] at hm
    obtain ⟨rfl, -⟩ := Prod.mk.injEq .. ▸ hm
    exact ⟨rfl, fun _ _ => rfl, fun hwf => hwf⟩
  | cons p rest ih =>
    intro h d base h₂ res hm
    obtain ⟨k, v⟩ := p
    rw [hMergeEntries] at hm
    cases hw : heapWrite h (.ref d) (base ++ k) v with
    | error e =>
      rw [hw] at hm
      obtain ⟨rfl, -⟩ := Prod.mk.injEq .. ▸ hm
      exact ⟨rfl, fun _ _ => rfl, fun hwf => hwf⟩
    | ok h₁ =>
      rw [hw] at hm
      obtain ⟨hn, hg, hwfp⟩ := heapWrite_preserves hw
      obtain ⟨hn₂, hg₂, hwfp₂⟩ := ih hm
      exact ⟨hn₂.trans hn, fun a ha => (hg₂ a ha).trans (hg a ha),
        fun hwf => hwfp₂ (hwfp hwf)⟩

theorem frameOut_merge {entries : List (String × HVal)} {h : Heap}
    {d c : Addr} {base : String} {h₂ : Heap} {res : Except DErr Unit}
    (hm : hMergeEntries h d base entries = (h₂, res))
    (hwf : heapWFb h = true) (hd : diffsAddr h c = some d) (hdc : d ≠ c) :
    FrameOut h h₂ c := by
  obtain ⟨hn, hg, hwfp⟩ := hMergeEntries_frame hm
  refine ⟨hwfp hwf, hn.ge, ?_, ?_⟩
  · intro a _ _ hda
    exact hg a (fun hc => hda (hc ▸ hd))
  · exact diffsAddr_congr (hg c (fun hc => hdc hc.symm))

theorem hDiff_zero (h : Heap) (ov nv : HVal) (cp : String) (c : Addr) :
    hDiff 0 h ov nv cp c = (h, .error .fuelOut) := rfl

theorem hKeysGo_zero (h : Heap) (ks : List String) (ov nv : HVal)
    (pre : String) (c : Addr) :
    hKeysGo 0 h ks ov nv pre c = (h, .error .fuelOut) := rfl

theorem hArr_zero (h : Heap) (ov nv : HVal) :
    hArr 0 h ov nv = (h, .error .fuelOut) := rfl

theorem hIdx_zero (h : Heap) (idxs : List Nat) (ov nv : HVal) (m : Addr)
    (errs : Nat) : hIdx 0 h idxs ov nv m errs = (h, .error .fuelOut) := rfl

theorem hDiff_succ_eq (f : Nat) (h : Heap) (ov nv : HVal) (cp : String)
    (c : Addr) :
    hDiff (f + 1) h ov nv cp c
      = match hKeys h ov with
        | .error e => (h, .error e)
        | .ok ks1 =>
          match hKeys h nv with
          | .error e => (h, .error e)
          | .ok ks2 =>
            hKeysGo f h (mergeArrays ks1 ks2) ov nv (prefixStr cp) c := rfl

theorem hKeysGo_succ_nil (f : Nat) (h : Heap) (ov nv : HVal) (pre : String)
    (c : Addr) : hKeysGo (f + 1) h [] ov nv pre c = (h, .ok ()) := rfl

theorem hKeysGo_succ_cons (f : Nat) (h : Heap) (okey : String)
    (rest : List String) (ov nv : HVal) (pre : String) (c : Addr) :
    hKeysGo (f + 1) h (okey :: rest) ov nv pre c
      = (if isJsArrH h (hGet h ov okey) && isJsArrH h (hGet h nv okey) then
          match hArr f h (hGet h ov okey) (hGet h nv okey) with
          | (h₁, .error e) => (h₁, .error e)
          | (h₁, .ok mref) =>
            if jsTruthy (hGet h₁ mref "hasDiff") then
              match heapWrite h₁ (.ref c) "hasDiff" (.bool true) with
              | .error _ => (h₁, .error .typeError)
              | .ok h₂ =>
                match hGet h₂ (.ref c) "diffs", hGet h₂ mref "diffs" with
                | .ref d, .ref md =>
                  match h₂.get md with
                  | some (.map entries) =>
                    match hMergeEntries h₂ d (pre ++ okey) entries with
                    | (h₃, .error e) => (h₃, .error e)
                    | (h₃, .ok _) => hKeysGo f h₃ rest ov nv pre c
                  | _ => (h₂, .error .typeError)
                | _, _ => (h₂, .error .typeError)
            else hKeysGo f h₁ rest ov nv pre c
        else if jsTypeofObjectH (hGet h ov okey)
            && jsTypeofObjectH (hGet h nv okey) then
          match hDiff f h (hGet h ov okey) (hGet h nv okey) (pre ++ okey) c with
          | (h₁, .error e) => (h₁, .error e)
          | (h₁, .ok _) => hKeysGo f h₁ rest ov nv pre c
        else if hStrictEq (hGet h ov okey) (hGet h nv okey) then
          hKeysGo f h rest ov nv pre c
        else
          match heapWrite h (.ref c) "hasDiff" (.bool true) with
          | .error _ => (h, .error .typeError)
          | .ok h₁ =>
            match hGet h₁ (.ref c) "diffs" with
            | .ref d =>
              match heapWrite (h₁.alloc (.arr [hGet h ov okey,
                  hGet h nv okey] [])).1 (.ref d) (pre ++ okey)
                  (.ref (h₁.alloc (.arr [hGet h ov okey,
                    hGet h nv okey] [])).2) with
              | .error _ => ((h₁.alloc (.arr [hGet h ov okey,
                  hGet h nv okey] [])).1, .error .typeError)
              | .ok h₂ => hKeysGo f h₂ rest ov nv pre c
            | _ => (h₁, .error .typeError)) := rfl

theorem hArr_succ_eq (f : Nat) (h : Heap) (ov nv : HVal) :
    hArr (f + 1) h ov nv
      = (match hIdx f ((h.alloc (.map [])).1.alloc
            (.map [("hasDiff", .bool false),
              ("diffs", .ref (h.alloc (.map [])).2)])).1
          (List.range (hMaxLen ((h.alloc (.map [])).1.alloc
            (.map [("hasDiff", .bool false),
              ("diffs", .ref (h.alloc (.map [])).2)])).1 ov nv))
          ov nv ((h.alloc (.map [])).1.alloc
            (.map [("hasDiff", .bool false),
              ("diffs", .ref (h.alloc (.map [])).2)])).2 0 with
        | (h₁, .error e) => (h₁, .error e)
        | (h₁, .ok errs) =>
          match heapWrite h₁ (.ref ((h.alloc (.map [])).1.alloc
              (.map [("hasDiff", .bool false),
                ("diffs", .ref (h.alloc (.map [])).2)])).2) "hasDiff"
              (.bool (errs != 0)) with
          | .error _ => (h₁, .error .typeError)
          | .ok h₂ => (h₂, .ok (.ref ((h.alloc (.map [])).1.alloc
              (.map [("hasDiff", .bool false),
                ("diffs", .ref (h.alloc (.map [])).2)])).2))) := rfl

theorem hIdx_succ_nil (f : Nat) (h : Heap) (ov nv : HVal) (m : Addr)
    (errs : Nat) : hIdx (f + 1) h [] ov nv m errs = (h, .ok errs) := rfl

theorem hIdx_succ_cons (f : Nat) (h : Heap) (i : Nat) (rest : List Nat)
    (ov nv : HVal) (m : Addr) (errs : Nat) :
    hIdx (f + 1) h (i :: rest) ov nv m errs
      = (if jsTypeofObjectH (hGet h ov (Nat.repr i))
            && jsTypeofObjectH (hGet h nv (Nat.repr i)) then
          match hDiff f ((h.alloc (.map [])).1.alloc
              (.map [("hasDiff", .bool false),
                ("diffs", .ref (h.alloc (.map [])).2)])).1
              (hGet h ov (Nat.repr i)) (hGet h nv (Nat.repr i)) ""
              ((h.alloc (.map [])).1.alloc
                (.map [("hasDiff", .bool false),
                  ("diffs", .ref (h.alloc (.map [])).2)])).2 with
          | (h₁, .error e) => (h₁, .error e)
          | (h₁, .ok _) =>
            if jsTruthy (hGet h₁ (.ref ((h.alloc (.map [])).1.alloc
                (.map [("hasDiff", .bool false),
                  ("diffs", .ref (h.alloc (.map [])).2)])).2) "hasDiff") then
              match hGet h₁ (.ref m) "diffs" with
              | .ref d =>
                match heapWrite (h₁.alloc (.arr [hGet h ov (Nat.repr i),
                    hGet h nv (Nat.repr i)] [])).1 (.ref d)
                    ("[" ++ Nat.repr i ++ "]")
                    (.ref (h₁.alloc (.arr [hGet h ov (Nat.repr i),
                      hGet h nv (Nat.repr i)] [])).2) with
                | .error _ => ((h₁.alloc (.arr [hGet h ov (Nat.repr i),
                    hGet h nv (Nat.repr i)] [])).1, .error .typeError)
                | .ok h₂ => hIdx f h₂ rest ov nv m (errs + 1)
              | _ => (h₁, .error .typeError)
            else hIdx f h₁ rest ov nv m errs
        else if hStrictEq (hGet h ov (Nat.repr i))
            (hGet h nv (Nat.repr i)) then
          hIdx f h rest ov nv m errs
        else
          match hGet h (.ref m) "diffs" with
          | .ref d =>
            match heapWrite (h.alloc (.arr [hGet h ov (Nat.repr i),
                hGet h nv (Nat.repr i)] [])).1 (.ref d)
                ("[" ++ Nat.repr i ++ "]")
                (.ref (h.alloc (.arr [hGet h ov (Nat.repr i),
                  hGet h nv (Nat.repr i)] [])).2) with
            | .error _ => ((h.alloc (.arr [hGet h ov (Nat.repr i),
                hGet h nv (Nat.repr i)] [])).1, .error .typeError)
            | .ok h₂ => hIdx f h₂ rest ov nv m (errs + 1)
          | _ => (h, .error .typeError)) := rfl

theorem diffsAddr_of_hGet {h : Heap} {c d : Addr}
    (hg : hGet h (.ref c) "diffs" = .ref d) : diffsAddr h c = some d := by
  unfold diffsAddr
  rw [hg]

/-- Frame property of `hDiff` at fuel `f`. -/
def FrD (f : Nat) : Prop :=
  ∀ h ov nv cp c h₂ e, hDiff f h ov nv cp c = (h₂, e) →
    heapWFb h = true → AccOK h c → FrameOut h h₂ c

/-- Frame property of `hKeysGo` at fuel `f`. -/
def FrK (f : Nat) : Prop :=
  ∀ h ks ov nv pre c h₂ e, hKeysGo f h ks ov nv pre c = (h₂, e) →
    heapWFb h = true → AccOK h c → FrameOut h h₂ c

/-- Frame and freshness property of `hArr` at fuel `f`: live addresses are
untouched and a successful result is a fresh accumulator with a fresh diffs
record. -/
def FrA (f : Nat) : Prop :=
  ∀ h ov nv h₂ e, hArr f h ov nv = (h₂, e) → heapWFb h = true →
    heapWFb h₂ = true ∧ h.next ≤ h₂.next
    ∧ (∀ a, a < h.next → h₂.get a = h.get a)
    ∧ ∀ v, e = .ok v → ∃ m d, v = .ref m ∧ h.next ≤ m ∧ m < h₂.next
        ∧ diffsAddr h₂ m = some d ∧ h.next ≤ d ∧ d < h₂.next ∧ d ≠ m

/-- Frame property of `hIdx` at fuel `f`. -/
def FrI (f : Nat) : Prop :=
  ∀ h idxs ov nv m errs h₂ e, hIdx f h idxs ov nv m errs = (h₂, e) →
    heapWFb h = true → AccOK h m → FrameOut h h₂ m

theorem hFrameAll : ∀ f, FrD f ∧ FrK f ∧ FrA f ∧ FrI f := by
  intro f
  induction f with
  | zero =>
    refine ⟨?_, ?_, ?_, ?_⟩
    · intro h ov nv cp c h₂ e he hwf hacc
      rw [hDiff_zero] at he
      obtain ⟨rfl, -⟩ := Prod.mk.injEq .. ▸ he
      exact frameOut_refl hwf
    · intro h ks ov nv pre c h₂ e he hwf hacc
      rw [hKeysGo_zero] at he
      obtain ⟨rfl, -⟩ := Prod.mk.injEq .. ▸ he
      exact frameOut_refl hwf
    · intro h ov nv h₂ e he hwf
      rw [hArr_zero] at he
      obtain ⟨rfl, he2⟩ := Prod.mk.injEq .. ▸ he
      exact ⟨hwf, Nat.le_refl _, fun _ _ => rfl,
        fun v hv => absurd (he2 ▸ hv) (by simp)⟩
    · intro h idxs ov nv m errs h₂ e he hwf hacc
      rw [hIdx_zero] at he
      obtain ⟨rfl, -⟩ := Prod.mk.injEq .. ▸ he
      exact frameOut_refl hwf
  | succ f ih =>
    obtain ⟨ihD, ihK, ihA, ihI⟩ := ih
    have hKstep : FrK (f + 1) := by
      intro h ks ov nv pre c h₂ e he hwf hacc
      cases ks with
      | nil =>
        rw [hKeysGo_succ_nil] at he
        obtain ⟨rfl, -⟩ := Prod.mk.injEq .. ▸ he
        exact frameOut_refl hwf
      | cons okey rest =>
        rw [hKeysGo_succ_cons] at he
        split at he
        · -- both arrays: array sub-diff plus entry merge
          cases hA : hArr f h (hGet h ov okey) (hGet h nv okey) with
          | mk h₁ res₁ =>
            obtain ⟨wf₁, n₁, g₁, fr₁⟩ := ihA _ _ _ _ _ hA hwf
            have f₁ : FrameOut h h₁ c := frameOut_of_full wf₁ n₁ g₁ hacc.1
            cases res₁ with
            | error e₁ =>
              simp only [hA] at he
              obtain ⟨rfl, -⟩ := Prod.mk.injEq .. ▸ he
              exact f₁
            | ok mref =>
              simp only [hA] at he
              split at he
              · -- sub-diff has differences: flag write plus merge
                cases hw : heapWrite h₁ (.ref c) "hasDiff" (.bool true) with
                | error e₂ =>
                  simp only [hw] at he
                  obtain ⟨rfl, -⟩ := Prod.mk.injEq .. ▸ he
                  exact f₁
                | ok h₂' =>
                  simp only [hw] at he
                  have f₂ : FrameOut h₁ h₂' c := frameOut_write_acc hw wf₁
                  have f₁₂ : FrameOut h h₂' c := frameOut_trans f₁ f₂
                  split at he
                  · rename_i dc md heq1 heq2
                    have hdc : diffsAddr h₂' c = some dc :=
                      diffsAddr_of_hGet heq1
                    have hdch : diffsAddr h c = some dc := by
                      rw [← f₁₂.2.2.2]
                      exact hdc
                    obtain ⟨hdlt, hdnc⟩ := hacc.2 dc hdch
                    split at he
                    · rename_i entries hmd
                      cases hM : hMergeEntries h₂' dc (pre ++ okey)
                          entries with
                      | mk h₃ res₃ =>
                        have f₃ : FrameOut h₂' h₃ c :=
                          frameOut_merge hM f₁₂.1 hdc hdnc
                        have f₁₃ : FrameOut h h₃ c := frameOut_trans f₁₂ f₃
                        cases res₃ with
                        | error e₃ =>
                          simp only [hM] at he
                          obtain ⟨rfl, -⟩ := Prod.mk.injEq .. ▸ he
                          exact f₁₃
                        | ok u =>
                          simp only [hM] at he
                          exact frameOut_trans f₁₃
                            (ihK _ _ _ _ _ _ _ _ he f₁₃.1
                              (accOK_mono hacc f₁₃))
                    · obtain ⟨rfl, -⟩ := Prod.mk.injEq .. ▸ he
                      exact f₁₂
                  · obtain ⟨rfl, -⟩ := Prod.mk.injEq .. ▸ he
                    exact f₁₂
              · -- sub-diff empty: continue
                exact frameOut_trans f₁
                  (ihK _ _ _ _ _ _ _ _ he f₁.1 (accOK_mono hacc f₁))
        · split at he
          · -- both object-typed: structural recursion on the same accumulator
            cases hD : hDiff f h (hGet h ov okey) (hGet h nv okey)
                (pre ++ okey) c with
            | mk h₁ res₁ =>
              have f₁ : FrameOut h h₁ c := ihD _ _ _ _ _ _ _ hD hwf hacc
              cases res₁ with
              | error e₁ =>
                simp only [hD] at he
                obtain ⟨rfl, -⟩ := Prod.mk.injEq .. ▸ he
                exact f₁
              | ok u =>
                simp only [hD] at he
                exact frameOut_trans f₁
                  (ihK _ _ _ _ _ _ _ _ he f₁.1 (accOK_mono hacc f₁))
          · split at he
            · -- strict-equal: skip
              exact ihK _ _ _ _ _ _ _ _ he hwf hacc
            · -- direct entry: flag write, pair alloc, diffs write
              cases hw : heapWrite h (.ref c) "hasDiff" (.bool true) with
              | error e₂ =>
                simp only [hw] at he
                obtain ⟨rfl, -⟩ := Prod.mk.injEq .. ▸ he
                exact frameOut_refl hwf
              | ok h₁ =>
                simp only [hw] at he
                have f₁ : FrameOut h h₁ c := frameOut_write_acc hw hwf
                split at he
                · rename_i d heq
                  have hd₁ : diffsAddr h₁ c = some d := diffsAddr_of_hGet heq
                  have hdh : diffsAddr h c = some d := by
                    rw [← f₁.2.2.2]
                    exact hd₁
                  obtain ⟨hdlt, hdnc⟩ := hacc.2 d hdh
                  have f₂ : FrameOut h₁
                      (h₁.alloc (.arr [hGet h ov okey,
                        hGet h nv okey] [])).1 c :=
                    frameOut_alloc _ f₁.1
                      (Nat.lt_of_lt_of_le hacc.1 f₁.2.1)
                  have f₁₂ := frameOut_trans f₁ f₂
                  cases hw₂ : heapWrite (h₁.alloc (.arr [hGet h ov okey,
                      hGet h nv okey] [])).1 (.ref d) (pre ++ okey)
                      (.ref (h₁.alloc (.arr [hGet h ov okey,
                        hGet h nv okey] [])).2) with
                  | error e₃ =>
                    simp only [hw₂] at he
                    obtain ⟨rfl, -⟩ := Prod.mk.injEq .. ▸ he
                    exact f₁₂
                  | ok h₂' =>
                    simp only [hw₂] at he
                    have f₃ : FrameOut (h₁.alloc (.arr [hGet h ov okey,
                        hGet h nv okey] [])).1 h₂' c :=
                      frameOut_write_diffs hw₂ f₁₂.1
                        (by rw [f₂.2.2.2]; exact hd₁) hdnc
                    have f₁₃ := frameOut_trans f₁₂ f₃
                    exact frameOut_trans f₁₃
                      (ihK _ _ _ _ _ _ _ _ he f₁₃.1 (accOK_mono hacc f₁₃))
                · obtain ⟨rfl, -⟩ := Prod.mk.injEq .. ▸ he
                  exact f₁
    refine ⟨?_, hKstep, ?_, ?_⟩
    · -- FrD
      intro h ov nv cp c h₂ e he hwf hacc
      rw [hDiff_succ_eq] at he
      cases hk1 : hKeys h ov with
      | error e₁ =>
        simp only [hk1] at he
        obtain ⟨rfl, -⟩ := Prod.mk.injEq .. ▸ he
        exact frameOut_refl hwf
      | ok ks1 =>
        simp only [hk1] at he
        cases hk2 : hKeys h nv with
        | error e₂ =>
          simp only [hk2] at he
          obtain ⟨rfl, -⟩ := Prod.mk.injEq .. ▸ he
          exact frameOut_refl hwf
        | ok ks2 =>
          simp only [hk2] at he
          exact ihK _ _ _ _ _ _ _ _ he hwf hacc
    · -- FrA
      intro h ov nv h₂ e he hwf
      rw [hArr_succ_eq] at he
      set hB := ((h.alloc (.map [])).1.alloc
        (.map [("hasDiff", .bool false),
          ("diffs", .ref (h.alloc (.map [])).2)])) with hBdef
      have hfr1 : (h.alloc (.map [])).1.get (h.alloc (.map [])).1.next
          = none := wf_get_none (wf_alloc hwf _) (Nat.le_refl _)
      have hgB : hB.1.get hB.2
          = some (.map [("hasDiff", .bool false),
              ("diffs", .ref (h.alloc (.map [])).2)]) :=
        Heap.get_alloc_self _ _ hfr1
      have hdB : diffsAddr hB.1 hB.2 = some h.next := by
        simp only [diffsAddr, hGet, heapRead, hgB]
        rfl
      have wfB : heapWFb hB.1 = true := wf_alloc (wf_alloc hwf _) _
      have hB2 : hB.2 = h.next + 1 := rfl
      have hBnext : hB.1.next = h.next + 2 := rfl
      have accB : AccOK hB.1 hB.2 := by
        constructor
        · rw [hB2, hBnext]
          exact Nat.lt_succ_self _
        · intro d hd
          rw [hdB] at hd
          obtain rfl := Option.some.injEq .. ▸ hd
          rw [hB2, hBnext]
          exact ⟨Nat.lt_succ_of_lt (Nat.lt_succ_self _),
            Nat.ne_of_lt (Nat.lt_succ_self _)⟩
      have hgets : ∀ a, a < h.next → hB.1.get a = h.get a := by
        intro a ha
        rw [hBdef]
        rw [Heap.get_alloc_ne _ _
            (show a ≠ (h.alloc (.map [])).1.next from
              Nat.ne_of_lt (Nat.lt_succ_of_lt ha))]
        exact Heap.get_alloc_ne _ _ (Nat.ne_of_lt ha)
      cases hI : hIdx f hB.1 (List.range (hMaxLen hB.1 ov nv)) ov nv hB.2 0
          with
      | mk h₁ res₁ =>
        have fI : FrameOut hB.1 h₁ hB.2 := ihI _ _ _ _ _ _ _ _ hI wfB accB
        have hgets₁ : ∀ a, a < h.next → h₁.get a = h.get a := by
          intro a ha
          have h1 : a < hB.1.next := by
            rw [hBnext]
            exact Nat.lt_succ_of_lt (Nat.lt_succ_of_lt ha)
          have h2 : a ≠ hB.2 := by
            rw [hB2]
            exact Nat.ne_of_lt (Nat.lt_succ_of_lt ha)
          have h3 : diffsAddr hB.1 hB.2 ≠ some a := by
            rw [hdB]
            intro hc
            exact Nat.ne_of_lt ha ((Option.some.injEq .. ▸ hc).symm)
          rw [fI.2.2.1 a h1 h2 h3]
          exact hgets a ha
        have hnext₁ : h.next ≤ h₁.next := by
          have := fI.2.1
          rw [hBnext] at this
          exact Nat.le_trans (Nat.le_trans (Nat.le_succ _)
            (Nat.le_succ _)) this
        cases res₁ with
        | error e₁ =>
          simp only [hI] at he
          obtain ⟨rfl, he2⟩ := Prod.mk.injEq .. ▸ he
          exact ⟨fI.1, hnext₁, hgets₁,
            fun v hv => absurd (he2 ▸ hv) (by simp)⟩
        | ok errs =>
          simp only [hI] at he
          cases hw : heapWrite h₁ (.ref hB.2) "hasDiff"
              (.bool (errs != 0)) with
          | error e₂ =>
            simp only [hw] at he
            obtain ⟨rfl, he2⟩ := Prod.mk.injEq .. ▸ he
            exact ⟨fI.1, hnext₁, hgets₁,
              fun v hv => absurd (he2 ▸ hv) (by simp)⟩
          | ok h₂' =>
            simp only [hw] at he
            obtain ⟨rfl, he2⟩ := Prod.mk.injEq .. ▸ he
            obtain ⟨hwn, hwg, hwwf⟩ := heapWrite_preserves hw
            refine ⟨hwwf fI.1, by rw [hwn]; exact hnext₁, ?_, ?_⟩
            · intro a ha
              have h2 : a ≠ hB.2 := by
                rw [hB2]
                exact Nat.ne_of_lt (Nat.lt_succ_of_lt ha)
              rw [hwg a h2]
              exact hgets₁ a ha
            · intro v hv
              rw [← he2] at hv
              obtain rfl : HVal.ref hB.2 = v := Except.ok.injEq .. ▸ hv
              have hmlt : hB.2 < h₂'.next := by
                rw [hwn]
                refine Nat.lt_of_lt_of_le ?_ fI.2.1
                rw [hB2, hBnext]
                exact Nat.lt_succ_self _
              have hdlt : h.next < h₂'.next := by
                rw [hwn]
                refine Nat.lt_of_lt_of_le ?_ fI.2.1
                rw [hBnext]
                exact Nat.lt_succ_of_lt (Nat.lt_succ_self _)
              refine ⟨hB.2, h.next, rfl, by rw [hB2]; exact Nat.le_succ _,
                hmlt, ?_, Nat.le_refl _, hdlt, ?_⟩
              · rw [diffsAddr_write_ne hw (by decide), fI.2.2.2]
                exact hdB
              · rw [hB2]
                exact Nat.ne_of_lt (Nat.lt_succ_self _)
    · -- FrI
      intro h idxs ov nv m errs h₂ e he hwf hacc
      cases idxs with
      | nil =>
        rw [hIdx_succ_nil] at he
        obtain ⟨rfl, -⟩ := Prod.mk.injEq .. ▸ he
        exact frameOut_refl hwf
      | cons i rest =>
        rw [hIdx_succ_cons] at he
        split at he
        · -- both object-typed: fresh accumulator, recursive diff
          set hB := ((h.alloc (.map [])).1.alloc
            (.map [("hasDiff", .bool false),
              ("diffs", .ref (h.alloc (.map [])).2)])) with hBdef
          have hfr1 : (h.alloc (.map [])).1.get (h.alloc (.map [])).1.next
              = none := wf_get_none (wf_alloc hwf _) (Nat.le_refl _)
          have hgB : hB.1.get hB.2
              = some (.map [("hasDiff", .bool false),
                  ("diffs", .ref (h.alloc (.map [])).2)]) :=
            Heap.get_alloc_self _ _ hfr1
          have hdB : diffsAddr hB.1 hB.2 = some h.next := by
            simp only [diffsAddr, hGet, heapRead, hgB]
            rfl
          have wfB : heapWFb hB.1 = true := wf_alloc (wf_alloc hwf _) _
          have hB2 : hB.2 = h.next + 1 := rfl
          have hBnext : hB.1.next = h.next + 2 := rfl
          have accB : AccOK hB.1 hB.2 := by
            constructor
            · rw [hB2, hBnext]
              exact Nat.lt_succ_self _
            · intro d hd
              rw [hdB] at hd
              obtain rfl := Option.some.injEq .. ▸ hd
              rw [hB2, hBnext]
              exact ⟨Nat.lt_succ_of_lt (Nat.lt_succ_self _),
                Nat.ne_of_lt (Nat.lt_succ_self _)⟩
          have hgets : ∀ a, a < h.next → hB.1.get a = h.get a := by
            intro a ha
            rw [hBdef]
            rw [Heap.get_alloc_ne _ _
                (show a ≠ (h.alloc (.map [])).1.next from
                  Nat.ne_of_lt (Nat.lt_succ_of_lt ha))]
            exact Heap.get_alloc_ne _ _ (Nat.ne_of_lt ha)
          cases hD : hDiff f hB.1 (hGet h ov (Nat.repr i))
              (hGet h nv (Nat.repr i)) "" hB.2 with
          | mk h₁ res₁ =>
            have fD : FrameOut hB.1 h₁ hB.2 :=
              ihD _ _ _ _ _ _ _ hD wfB accB
            have fstep : FrameOut h h₁ m := by
              refine ⟨fD.1, ?_, ?_, ?_⟩
              · have := fD.2.1
                rw [hBnext] at this
                exact Nat.le_trans (Nat.le_trans (Nat.le_succ _)
                  (Nat.le_succ _)) this
              · intro a ha ham hda
                have h1 : a < hB.1.next := by
                  rw [hBnext]
                  exact Nat.lt_succ_of_lt (Nat.lt_succ_of_lt ha)
                have h2 : a ≠ hB.2 := by
                  rw [hB2]
                  exact Nat.ne_of_lt (Nat.lt_succ_of_lt ha)
                have h3 : diffsAddr hB.1 hB.2 ≠ some a := by
                  rw [hdB]
                  intro hc
                  exact Nat.ne_of_lt ha ((Option.some.injEq .. ▸ hc).symm)
                rw [fD.2.2.1 a h1 h2 h3]
                exact hgets a ha
              · have hgm : h₁.get m = h.get m := by
                  have h1 : m < hB.1.next := by
                    rw [hBnext]
                    exact Nat.lt_succ_of_lt (Nat.lt_succ_of_lt hacc.1)
                  have h2 : m ≠ hB.2 := by
                    rw [hB2]
                    exact Nat.ne_of_lt (Nat.lt_succ_of_lt hacc.1)
                  have h3 : diffsAddr hB.1 hB.2 ≠ some m := by
                    rw [hdB]
                    intro hc
                    exact Nat.ne_of_lt hacc.1
                      ((Option.some.injEq .. ▸ hc).symm)
                  rw [fD.2.2.1 m h1 h2 h3]
                  exact hgets m hacc.1
                exact diffsAddr_congr hgm
            cases res₁ with
            | error e₁ =>
              simp only [hD] at he
              obtain ⟨rfl, -⟩ := Prod.mk.injEq .. ▸ he
              exact fstep
            | ok u =>
              simp only [hD] at he
              split at he
              · split at he
                · rename_i d heq
                  have hd₁ : diffsAddr h₁ m = some d :=
                    diffsAddr_of_hGet heq
                  have hdh : diffsAddr h m = some d := by
                    rw [← fstep.2.2.2]
                    exact hd₁
                  obtain ⟨hdlt, hdnm⟩ := hacc.2 d hdh
                  have f₂ : FrameOut h₁ (h₁.alloc
                      (.arr [hGet h ov (Nat.repr i),
                        hGet h nv (Nat.repr i)] [])).1 m :=
                    frameOut_alloc _ fstep.1
                      (Nat.lt_of_lt_of_le hacc.1 fstep.2.1)
                  have f₁₂ := frameOut_trans fstep f₂
                  cases hw : heapWrite (h₁.alloc
                      (.arr [hGet h ov (Nat.repr i),
                        hGet h nv (Nat.repr i)] [])).1 (.ref d)
                      ("[" ++ Nat.repr i ++ "]")
                      (.ref (h₁.alloc (.arr [hGet h ov (Nat.repr i),
                        hGet h nv (Nat.repr i)] [])).2) with
                  | error e₃ =>
                    simp only [hw] at he
                    obtain ⟨rfl, -⟩ := Prod.mk.injEq .. ▸ he
                    exact f₁₂
                  | ok h₂' =>
                    simp only [hw] at he
                    have f₃ : FrameOut (h₁.alloc
                        (.arr [hGet h ov (Nat.repr i),
                          hGet h nv (Nat.repr i)] [])).1 h₂' m :=
                      frameOut_write_diffs hw f₁₂.1
                        (by rw [f₂.2.2.2]; exact hd₁) hdnm
                    have f₁₃ := frameOut_trans f₁₂ f₃
                    exact frameOut_trans f₁₃
                      (ihI _ _ _ _ _ _ _ _ he f₁₃.1 (accOK_mono hacc f₁₃))
                · obtain ⟨rfl, -⟩ := Prod.mk.injEq .. ▸ he
                  exact fstep
              · exact frameOut_trans fstep
                  (ihI _ _ _ _ _ _ _ _ he fstep.1 (accOK_mono hacc fstep))
        · split at he
          · -- strict-equal: skip
            exact ihI _ _ _ _ _ _ _ _ he hwf hacc
          · -- direct entry
            split at he
            · rename_i d heq
              have hdh : diffsAddr h m = some d := diffsAddr_of_hGet heq
              obtain ⟨hdlt, hdnm⟩ := hacc.2 d hdh
              have f₁ : FrameOut h (h.alloc
                  (.arr [hGet h ov (Nat.repr i),
                    hGet h nv (Nat.repr i)] [])).1 m :=
                frameOut_alloc _ hwf hacc.1
              cases hw : heapWrite (h.alloc
                  (.arr [hGet h ov (Nat.repr i),
                    hGet h nv (Nat.repr i)] [])).1 (.ref d)
                  ("[" ++ Nat.repr i ++ "]")
                  (.ref (h.alloc (.arr [hGet h ov (Nat.repr i),
                    hGet h nv (Nat.repr i)] [])).2) with
              | error e₃ =>
                simp only [hw] at he
                obtain ⟨rfl, -⟩ := Prod.mk.injEq .. ▸ he
                exact f₁
              | ok h₂' =>
                simp only [hw] at he
                have f₂ : FrameOut (h.alloc
                    (.arr [hGet h ov (Nat.repr i),
                      hGet h nv (Nat.repr i)] [])).1 h₂' m :=
                  frameOut_write_diffs hw f₁.1
                    (by rw [f₁.2.2.2]; exact hdh) hdnm
                have f₁₂ := frameOut_trans f₁ f₂
                exact frameOut_trans f₁₂
                  (ihI _ _ _ _ _ _ _ _ he f₁₂.1 (accOK_mono hacc f₁₂))
            · obtain ⟨rfl, -⟩ := Prod.mk.injEq .. ▸ he
              exact frameOut_refl hwf

/-! ## Monotone heap evolution of the resolver

During a resolver walk every property write either replaces a falsy value
with a truthy reference or rewrites an unchanged value, so truthy map
fields, truthy array elements and truthy array properties are stable.
`HeapMono` captures exactly that; the idempotence of the resolver follows
because the second walk re-reads only values the first walk left truthy. -/

/-- A segment that is not the append form `name[]`. -/
def segAppendFree (s : String) : Bool :=
  !((parsePathComponent s).isArray && ((parsePathComponent s).index).isNone)

def fieldMono (fs fs2 : List (String × HVal)) : Prop :=
  ∀ k v, lookupKV fs k = some v → jsTruthy v = true → lookupKV fs2 k = some v

def elemMono (es es2 : List HVal) : Prop :=
  ∀ (i : Nat) (v : HVal), es[i]? = some v → jsTruthy v = true →
    es2[i]? = some v

def HeapMono (h H : Heap) : Prop :=
  h.next ≤ H.next
  ∧ (∀ a fs, h.get a = some (.map fs) →
      ∃ fs2, H.get a = some (.map fs2) ∧ fieldMono fs fs2)
  ∧ (∀ a es ps, h.get a = some (.arr es ps) →
      ∃ es2 ps2, H.get a = some (.arr es2 ps2) ∧ elemMono es es2
        ∧ fieldMono ps ps2)

theorem fieldMono_refl (fs : List (String × HVal)) : fieldMono fs fs :=
  fun _ _ hv _ => hv

theorem elemMono_refl (es : List HVal) : elemMono es es :=
  fun _ _ hv _ => hv

theorem heapMono_refl (h : Heap) : HeapMono h h :=
  ⟨Nat.le_refl _,
    fun a fs ha => ⟨fs, ha, fieldMono_refl fs⟩,
    fun a es ps ha => ⟨es, ps, ha, elemMono_refl es, fieldMono_refl ps⟩⟩

theorem heapMono_trans {h h₁ h₂ : Heap} (m1 : HeapMono h h₁)
    (m2 : HeapMono h₁ h₂) : HeapMono h h₂ := by
  obtain ⟨n1, f1, a1⟩ := m1
  obtain ⟨n2, f2, a2⟩ := m2
  refine ⟨Nat.le_trans n1 n2, ?_, ?_⟩
  · intro a fs ha
    obtain ⟨fsB, hB, hfB⟩ := f1 a fs ha
    obtain ⟨fsC, hC, hfC⟩ := f2 a fsB hB
    exact ⟨fsC, hC, fun k v hv ht => hfC k v (hfB k v hv ht) ht⟩
  · intro a es ps ha
    obtain ⟨esB, psB, hB, heB, hpB⟩ := a1 a es ps ha
    obtain ⟨esC, psC, hC, heC, hpC⟩ := a2 a esB psB hB
    exact ⟨esC, psC, hC,
      fun i v hv ht => heC i v (heB i v hv ht) ht,
      fun k v hv ht => hpC k v (hpB k v hv ht) ht⟩

theorem heapMono_alloc {h : Heap} (hwf : heapWFb h = true) (o : HObj) :
    HeapMono h (h.alloc o).1 := by
  refine ⟨by rw [Heap.alloc_next]; exact Nat.le_succ _, ?_, ?_⟩
  · intro a fs ha
    rw [← Heap.get_alloc_ne h o (Nat.ne_of_lt (wf_get_lt hwf ha))] at ha
    exact ⟨fs, ha, fieldMono_refl fs⟩
  · intro a es ps ha
    rw [← Heap.get_alloc_ne h o (Nat.ne_of_lt (wf_get_lt hwf ha))] at ha
    exact ⟨es, ps, ha, elemMono_refl es, fieldMono_refl ps⟩

theorem fieldMono_rset_falsy {fs : List (String × HVal)} {k : String}
    {v : HVal} (hold : ∀ v0, lookupKV fs k = some v0 → jsTruthy v0 = false) :
    fieldMono fs (rset fs k v) := by
  intro k2 v2 hv ht
  by_cases hk : k2 = k
  · subst hk
    rw [hold v2 hv] at ht
    exact absurd ht (by simp)
  · rw [lookupKV_rset_ne fs k k2 v hk]
    exact hv

theorem hobj_map_inj {fs fs2 : List (String × HVal)}
    (h : HObj.map fs = HObj.map fs2) : fs = fs2 := by
  injection h

theorem hobj_arr_inj {es es2 : List HVal} {ps ps2 : List (String × HVal)}
    (h : HObj.arr es ps = HObj.arr es2 ps2) : es = es2 ∧ ps = ps2 := by
  injection h with h1 h2
  exact ⟨h1, h2⟩

theorem heapMono_set_map {h : Heap} {a : Addr} {fs : List (String × HVal)}
    {k : String} {v : HVal} (ha : h.get a = some (.map fs))
    (hold : ∀ v0, lookupKV fs k = some v0 → jsTruthy v0 = false) :
    HeapMono h (h.set a (.map (rset fs k v))) := by
  refine ⟨Nat.le_refl _, ?_, ?_⟩
  · intro b fsb hb
    by_cases hab : b = a
    · subst hab
      obtain rfl : fs = fsb := hobj_map_inj (Option.some.inj (ha.symm.trans hb))
      exact ⟨rset fs k v, Heap.get_set_self _ _ _, fieldMono_rset_falsy hold⟩
    · exact ⟨fsb, by rw [Heap.get_set_ne _ _ hab]; exact hb,
        fieldMono_refl fsb⟩
  · intro b esb psb hb
    by_cases hab : b = a
    · subst hab
      rw [hb] at ha
      exact absurd (Option.some.inj ha) (by simp)
    · exact ⟨esb, psb, by rw [Heap.get_set_ne _ _ hab]; exact hb,
        elemMono_refl esb, fieldMono_refl psb⟩

theorem getElem?_some_lt {α : Type} {l : List α} {i : Nat} {v : α}
    (h : l[i]? = some v) : i < l.length := by
  rw [List.getElem?_eq_some] at h
  exact h.1

theorem elemMono_arrElemSet_falsy {es : List HVal} {idx : Nat} {v : HVal}
    (hold : ∀ v0, es[idx]? = some v0 → jsTruthy v0 = false) :
    elemMono es (arrElemSet es idx v) := by
  intro i v2 hv ht
  by_cases hi : i = idx
  · subst hi
    rw [hold v2 hv] at ht
    exact absurd ht (by simp)
  · have hlt : i < es.length := getElem?_some_lt hv
    unfold arrElemSet
    split
    · rw [List.getElem?_set_ne (fun hc => hi hc.symm)]
      exact hv
    · rw [List.getElem?_append_left
        (by rw [List.length_append]; omega : i < (es ++ List.replicate (idx - es.length) HVal.undef).length)]
      rw [List.getElem?_append_left hlt]
      exact hv

theorem arrElemSet_getElem (es : List HVal) (idx : Nat) (v : HVal) :
    (arrElemSet es idx v)[idx]? = some v := by
  unfold arrElemSet
  split
  · rename_i hlt
    exact List.getElem?_set_eq hlt
  · rename_i hge
    rw [List.getElem?_append_right
      (by rw [List.length_append, List.length_replicate]; omega
        : (es ++ List.replicate (idx - es.length) HVal.undef).length ≤ idx)]
    rw [List.length_append, List.length_replicate]
    have h0 : idx - (es.length + (idx - es.length)) = 0 := by omega
    rw [h0]
    rfl

theorem list_set_self {α : Type} {l : List α} {i : Nat} {v : α}
    (h : l[i]? = some v) : l.set i v = l := by
  induction l generalizing i with
  | nil => simp at h
  | cons x rest ih =>
    cases i with
    | zero =>
      simp at h
      simp [List.set, h]
    | succ j =>
      simp at h
      simp [List.set, ih h]

theorem Heap.set_get_self {h : Heap} {a : Addr} {o : HObj}
    (ha : h.get a = some o) : h.set a o = h := by
  obtain ⟨objs, nxt⟩ := h
  simp only [Heap.set]
  rw [rset_self_of_lookup _ _ _ ha]

theorem heapMono_set_arr_elem {h : Heap} {a : Addr} {es : List HVal}
    {ps : List (String × HVal)} {idx : Nat} {v : HVal}
    (ha : h.get a = some (.arr es ps))
    (hold : ∀ v0, es[idx]? = some v0 → jsTruthy v0 = false) :
    HeapMono h (h.set a (.arr (arrElemSet es idx v) ps)) := by
  refine ⟨Nat.le_refl _, ?_, ?_⟩
  · intro b fsb hb
    by_cases hab : b = a
    · subst hab
      rw [hb] at ha
      exact absurd (Option.some.inj ha) (by simp)
    · exact ⟨fsb, by rw [Heap.get_set_ne _ _ hab]; exact hb,
        fieldMono_refl fsb⟩
  · intro b esb psb hb
    by_cases hab : b = a
    · subst hab
      obtain ⟨rfl, rfl⟩ : es = esb ∧ ps = psb :=
        hobj_arr_inj (Option.some.inj (ha.symm.trans hb))
      exact ⟨arrElemSet es idx v, ps, Heap.get_set_self _ _ _,
        elemMono_arrElemSet_falsy hold, fieldMono_refl ps⟩
    · exact ⟨esb, psb, by rw [Heap.get_set_ne _ _ hab]; exact hb,
        elemMono_refl esb, fieldMono_refl psb⟩

theorem heapMono_set_arr_prop {h : Heap} {a : Addr} {es : List HVal}
    {ps : List (String × HVal)} {k : String} {v : HVal}
    (ha : h.get a = some (.arr es ps))
    (hold : ∀ v0, lookupKV ps k = some v0 → jsTruthy v0 = false) :
    HeapMono h (h.set a (.arr es (rset ps k v))) := by
  refine ⟨Nat.le_refl _, ?_, ?_⟩
  · intro b fsb hb
    by_cases hab : b = a
    · subst hab
      rw [hb] at ha
      exact absurd (Option.some.inj ha) (by simp)
    · exact ⟨fsb, by rw [Heap.get_set_ne _ _ hab]; exact hb,
        fieldMono_refl fsb⟩
  · intro b esb psb hb
    by_cases hab : b = a
    · subst hab
      obtain ⟨rfl, rfl⟩ : es = esb ∧ ps = psb :=
        hobj_arr_inj (Option.some.inj (ha.symm.trans hb))
      exact ⟨es, rset ps k v, Heap.get_set_self _ _ _,
        elemMono_refl es, fieldMono_rset_falsy hold⟩
    · exact ⟨esb, psb, by rw [Heap.get_set_ne _ _ hab]; exact hb,
        elemMono_refl esb, fieldMono_refl psb⟩

/-- A property read of a non-reference value neither touches nor depends on
the heap. -/
theorem heapRead_nonref_indep {v : HVal} (hnr : ∀ x, v ≠ HVal.ref x)
    (H h : Heap) (k : String) : heapRead H v k = heapRead h v k := by
  cases v with
  | ref x => exact absurd rfl (hnr x)
  | undef => rfl
  | null => rfl
  | bool b => rfl
  | num n => rfl
  | str s => rfl

theorem heapRead_nonref_result {h : Heap} {v : HVal} {k : String}
    {val : HVal} (hnr : ∀ x, v ≠ HVal.ref x)
    (hr : heapRead h v k = .ok val) : ∀ x, val ≠ HVal.ref x := by
  intro x
  cases v with
  | ref y => exact absurd rfl (hnr y)
  | undef => simp [heapRead] at hr
  | null => simp [heapRead] at hr
  | bool b =>
    simp only [heapRead, Except.ok.injEq] at hr
    rw [← hr]
    simp
  | num n =>
    simp only [heapRead, Except.ok.injEq] at hr
    rw [← hr]
    simp
  | str s =>
    simp only [heapRead, Except.ok.injEq] at hr
    rw [← hr]
    split
    · simp
    · split
      · split <;> simp
      · simp

theorem resolveName_nonref {h : Heap} {v : HVal} {c : PathComponent}
    {component path : String} {hA : Heap} {target : HVal}
    (hnr : ∀ x, v ≠ HVal.ref x)
    (hs : resolveName h v c component path = .ok (hA, target)) :
    hA = h ∧ (∀ x, target ≠ HVal.ref x)
      ∧ ∀ (H : Heap), resolveName H v c component path = .ok (H, target) := by
  unfold resolveName at hs
  split at hs
  · rename_i hcn
    cases hr : heapRead h v c.name with
    | error e =>
      simp only [hr] at hs
      exact absurd hs (by simp)
    | ok nv =>
      simp only [hr] at hs
      split at hs
      · rename_i htr
        obtain ⟨rfl, rfl⟩ : h = hA ∧ nv = target := by
          have := Except.ok.inj hs
          exact ⟨congrArg Prod.fst this, congrArg Prod.snd this⟩
        refine ⟨rfl, heapRead_nonref_result hnr hr, ?_⟩
        intro H
        unfold resolveName
        rw [if_pos hcn, heapRead_nonref_indep hnr H h, hr]
        simp [htr]
      · split at hs
        · cases hw : heapWrite (h.alloc (.arr [] [])).1 v c.name
              (.ref (h.alloc (.arr [] [])).2) with
          | error e =>
            simp only [hw] at hs
            exact absurd hs (by simp)
          | ok h₂ =>
            exfalso
            cases v with
            | ref y => exact absurd rfl (hnr y)
            | undef => simp [heapWrite] at hw
            | null => simp [heapWrite] at hw
            | bool b => simp [heapWrite] at hw
            | num n => simp [heapWrite] at hw
            | str s => simp [heapWrite] at hw
        · cases hw : heapWrite (h.alloc (.map [])).1 v c.name
              (.ref (h.alloc (.map [])).2) with
          | error e =>
            simp only [hw] at hs
            exact absurd hs (by simp)
          | ok h₂ =>
            exfalso
            cases v with
            | ref y => exact absurd rfl (hnr y)
            | undef => simp [heapWrite] at hw
            | null => simp [heapWrite] at hw
            | bool b => simp [heapWrite] at hw
            | num n => simp [heapWrite] at hw
            | str s => simp [heapWrite] at hw
  · rename_i hcn
    split at hs
    · exact absurd hs (by simp)
    · rename_i hia
      obtain ⟨rfl, rfl⟩ : h = hA ∧ v = target := by
        have := Except.ok.inj hs
        exact ⟨congrArg Prod.fst this, congrArg Prod.snd this⟩
      refine ⟨rfl, hnr, ?_⟩
      intro H
      unfold resolveName
      rw [if_neg hcn, if_neg hia]

theorem resolveTail_nonref {h : Heap} {target : HVal} {c : PathComponent}
    {h₁ : Heap} {p : HVal} (hnr : ∀ x, target ≠ HVal.ref x)
    (hs : resolveTail h target c = .ok (h₁, p)) :
    h₁ = h ∧ (∀ x, p ≠ HVal.ref x)
      ∧ ∀ (H : Heap), resolveTail H target c = .ok (H, p) := by
  unfold resolveTail at hs
  split at hs
  · rename_i hia
    split at hs
    · rename_i i hidx
      cases hr : heapRead h target (toString i) with
      | error e =>
        simp only [hr] at hs
        exact absurd hs (by simp)
      | ok cur =>
        simp only [hr] at hs
        split at hs
        · cases hw : heapWrite (h.alloc (.map [])).1 target (toString i)
              (.ref (h.alloc (.map [])).2) with
          | error e =>
            simp only [hw] at hs
            exact absurd hs (by simp)
          | ok h₂ =>
            exfalso
            cases target with
            | ref y => exact absurd rfl (hnr y)
            | undef => simp [heapWrite] at hw
            | null => simp [heapWrite] at hw
            | bool b => simp [heapWrite] at hw
            | num n => simp [heapWrite] at hw
            | str s => simp [heapWrite] at hw
        · cases hw : heapWrite h target (toString i) cur with
          | error e =>
            simp only [hw] at hs
            exact absurd hs (by simp)
          | ok h₂ =>
            exfalso
            cases target with
            | ref y => exact absurd rfl (hnr y)
            | undef => simp [heapWrite] at hw
            | null => simp [heapWrite] at hw
            | bool b => simp [heapWrite] at hw
            | num n => simp [heapWrite] at hw
            | str s => simp [heapWrite] at hw
    · cases hp : heapPush (h.alloc (.map [])).1 target
          (.ref (h.alloc (.map [])).2) with
      | error e =>
        simp only [hp] at hs
        exact absurd hs (by simp)
      | ok h₂ =>
        exfalso
        cases target with
        | ref y => exact absurd rfl (hnr y)
        | undef => simp [heapPush] at hp
        | null => simp [heapPush] at hp
        | bool b => simp [heapPush] at hp
        | num n => simp [heapPush] at hp
        | str s => simp [heapPush] at hp
  · rename_i hia
    split at hs
    · rename_i k hkey
      cases hr : heapRead h target k with
      | error e =>
        simp only [hr] at hs
        exact absurd hs (by simp)
      | ok cur =>
        simp only [hr] at hs
        split at hs
        · rename_i htr
          obtain ⟨rfl, rfl⟩ : h = h₁ ∧ cur = p := by
            have := Except.ok.inj hs
            exact ⟨congrArg Prod.fst this, congrArg Prod.snd this⟩
          refine ⟨rfl, heapRead_nonref_result hnr hr, ?_⟩
          intro H
          unfold resolveTail
          rw [if_neg hia]
          simp only [hkey]
          rw [heapRead_nonref_indep hnr H h, hr]
          simp [htr]
        · cases hw : heapWrite (h.alloc (.map [])).1 target k
              (.ref (h.alloc (.map [])).2) with
          | error e =>
            simp only [hw] at hs
            exact absurd hs (by simp)
          | ok h₂ =>
            exfalso
            cases target with
            | ref y => exact absurd rfl (hnr y)
            | undef => simp [heapWrite] at hw
            | null => simp [heapWrite] at hw
            | bool b => simp [heapWrite] at hw
            | num n => simp [heapWrite] at hw
            | str s => simp [heapWrite] at hw
    · rename_i hkey
      obtain ⟨rfl, rfl⟩ : h = h₁ ∧ target = p := by
        have := Except.ok.inj hs
        exact ⟨congrArg Prod.fst this, congrArg Prod.snd this⟩
      refine ⟨rfl, hnr, ?_⟩
      intro H
      unfold resolveTail
      rw [if_neg hia]
      simp only [hkey]

theorem resolveStep_nonref {h : Heap} {v : HVal} {component path : String}
    {h₁ : Heap} {tgt : HVal} (hnr : ∀ x, v ≠ HVal.ref x)
    (hs : resolveStep h v component path = .ok (h₁, tgt)) :
    h₁ = h ∧ (∀ x, tgt ≠ HVal.ref x)
      ∧ ∀ (H : Heap), resolveStep H v component path = .ok (H, tgt) := by
  simp only [resolveStep] at hs
  cases hn : resolveName h v (parsePathComponent component) component
      path with
  | error e =>
    simp only [hn] at hs
    exact absurd hs (by simp)
  | ok q =>
    obtain ⟨hA, target⟩ := q
    simp only [hn] at hs
    obtain ⟨rfl, htnr, hnre⟩ := resolveName_nonref hnr hn
    obtain ⟨rfl, hpnr, htre⟩ := resolveTail_nonref htnr hs
    refine ⟨rfl, hpnr, ?_⟩
    intro H
    simp only [resolveStep, hnre H, htre H]

theorem resolveSegs_nonref {segs : List String} :
    ∀ {h : Heap} {v : HVal} {path : String} {H : Heap} {q : HVal},
    (∀ x, v ≠ HVal.ref x) → resolveSegs h v segs path = (H, .ok q) →
    H = h ∧ (∀ x, q ≠ HVal.ref x)
      ∧ ∀ (H2 : Heap), resolveSegs H2 v segs path = (H2, .ok q) := by
  induction segs with
  | nil =>
    intro h v path H q hnr hr
    rw [resolveSegs] at hr
    obtain ⟨rfl, hq⟩ := Prod.mk.injEq .. ▸ hr
    obtain rfl : v = q := Except.ok.inj hq
    exact ⟨rfl, hnr, fun H2 => rfl⟩
  | cons component rest ih =>
    intro h v path H q hnr hr
    rw [resolveSegs] at hr
    by_cases hc : component = ""
    · rw [if_pos hc] at hr
      obtain ⟨rfl, hq⟩ := Prod.mk.injEq .. ▸ hr
      obtain rfl : v = q := Except.ok.inj hq
      refine ⟨rfl, hnr, ?_⟩
      intro H2
      rw [resolveSegs, if_pos hc]
    · rw [if_neg hc] at hr
      cases hstep : resolveStep h v component path with
      | error e =>
        rw [hstep] at hr
        obtain ⟨-, hq⟩ := Prod.mk.injEq .. ▸ hr
        exact absurd hq (by simp)
      | ok pr =>
        obtain ⟨h₁, p₁⟩ := pr
        rw [hstep] at hr
        obtain ⟨rfl, hpnr, hre⟩ := resolveStep_nonref hnr hstep
        obtain ⟨rfl, hqnr, hrest⟩ := ih hpnr hr
        refine ⟨rfl, hqnr, ?_⟩
        intro H2
        rw [resolveSegs, if_neg hc, hre H2]
        exact hrest H2

theorem pair_ok_inj {α β E : Type} {x1 x2 : α} {y1 y2 : β}
    (h : (Except.ok (x1, y1) : Except E (α × β)) = .ok (x2, y2)) :
    x1 = x2 ∧ y1 = y2 := by
  obtain ⟨h1, h2⟩ := Prod.mk.injEq .. ▸ Except.ok.inj h
  exact ⟨h1, h2⟩

/-- What `resolveName` from a reference pointer guarantees: the heap is
well-formed and evolved monotonically, and either the target is a primitive
with the heap untouched, or re-running the name resolution in any monotone
extension reads the same target back with no writes (a freshly created
target being an empty container). -/
def NameOut (h : Heap) (a : Addr) (c : PathComponent)
    (component path : String) (hA : Heap) (target : HVal) : Prop :=
  heapWFb hA = true ∧ HeapMono h hA
  ∧ ((hA = h ∧ ∀ x, target ≠ HVal.ref x)
    ∨ ((∀ H, HeapMono hA H →
          resolveName H (.ref a) c component path = .ok (H, target))
      ∧ (hA = h
        ∨ ∃ n, target = .ref n
          ∧ (hA.get n = some (.map []) ∨ hA.get n = some (.arr [] [])))))

theorem resolveName_ref_idem {h : Heap} {a : Addr} {c : PathComponent}
    {component path : String} {hA : Heap} {target : HVal}
    (hwf : heapWFb h = true)
    (hs : resolveName h (.ref a) c component path = .ok (hA, target)) :
    NameOut h a c component path hA target := by
  unfold resolveName at hs
  split at hs
  case isTrue hcn =>
    cases hga : h.get a with
    | none =>
      have hr : heapRead h (.ref a) c.name = .error .typeError := by
        simp [heapRead, hga]
      simp only [hr] at hs
      exact absurd hs (by simp)
    | some o =>
      have halt : a < h.next := wf_get_lt hwf hga
      have hane : a ≠ h.next := Nat.ne_of_lt halt
      cases o with
      | map fs =>
        have hr : heapRead h (.ref a) c.name
            = .ok ((lookupKV fs c.name).getD .undef) := by
          simp [heapRead, hga]
        simp only [hr] at hs
        split at hs
        case isTrue htr =>
          obtain ⟨rfl, rfl⟩ := pair_ok_inj hs
          refine ⟨hwf, heapMono_refl h, ?_⟩
          cases hlk : lookupKV fs c.name with
          | none =>
            rw [hlk] at htr
            exact absurd htr (by simp [jsTruthy])
          | some w =>
            rw [Option.getD_some]
            cases w with
            | ref x =>
              refine Or.inr ⟨?_, Or.inl rfl⟩
              intro H hm
              obtain ⟨fs2, hga2, hfm⟩ := hm.2.1 a fs hga
              have hlk2 : lookupKV fs2 c.name = some (.ref x) :=
                hfm c.name (.ref x) hlk rfl
              have hr2 : heapRead H (.ref a) c.name = .ok (.ref x) := by
                simp [heapRead, hga2, hlk2]
              unfold resolveName
              rw [if_pos hcn, hr2]
              simp [jsTruthy]
            | undef => exact Or.inl ⟨rfl, by simp⟩
            | null => exact Or.inl ⟨rfl, by simp⟩
            | bool b => exact Or.inl ⟨rfl, by simp⟩
            | num n => exact Or.inl ⟨rfl, by simp⟩
            | str s => exact Or.inl ⟨rfl, by simp⟩
        case isFalse htr =>
          have hold : ∀ v0, lookupKV fs c.name = some v0 →
              jsTruthy v0 = false := by
            intro v0 hv0
            rw [hv0] at htr
            simpa using htr
          have hga1 : ∀ (o₂ : HObj), (h.alloc o₂).1.get a
              = some (.map fs) := by
            intro o₂
            rw [Heap.get_alloc_ne _ _ hane]
            exact hga
          have hcommon : ∀ (o₂ : HObj),
              (o₂ = HObj.map [] ∨ o₂ = HObj.arr [] []) →
              (h.alloc o₂).1.set a
                  (.map (rset fs c.name (.ref (h.alloc o₂).2))) = hA →
              HVal.ref (h.alloc o₂).2 = target →
              NameOut h a c component path hA target := by
            intro o₂ ho₂ hAeq htgt
            subst hAeq
            subst htgt
            have hmono : HeapMono h ((h.alloc o₂).1.set a
                (.map (rset fs c.name (.ref (h.alloc o₂).2)))) :=
              heapMono_trans (heapMono_alloc hwf _)
                (heapMono_set_map (hga1 _) hold)
            have hwfA : heapWFb ((h.alloc o₂).1.set a
                (.map (rset fs c.name (.ref (h.alloc o₂).2)))) = true :=
              wf_set (wf_alloc hwf _)
                (by rw [Heap.alloc_next]; exact Nat.lt_succ_of_lt halt) _
            refine ⟨hwfA, hmono, Or.inr ⟨?_, Or.inr
              ⟨(h.alloc o₂).2, rfl, ?_⟩⟩⟩
            · intro H hm
              have hgetA : ((h.alloc o₂).1.set a
                  (.map (rset fs c.name (.ref (h.alloc o₂).2)))).get a
                  = some (.map (rset fs c.name (.ref (h.alloc o₂).2))) :=
                Heap.get_set_self _ _ _
              obtain ⟨fs2, hga2, hfm⟩ := hm.2.1 a _ hgetA
              have hlk2 : lookupKV fs2 c.name
                  = some (.ref (h.alloc o₂).2) :=
                hfm c.name _ (lookupKV_rset_self _ _ _) rfl
              have hr2 : heapRead H (.ref a) c.name
                  = .ok (.ref (h.alloc o₂).2) := by
                simp [heapRead, hga2, hlk2]
              unfold resolveName
              rw [if_pos hcn, hr2]
              simp [jsTruthy]
            · have hself : ((h.alloc o₂).1.set a
                  (.map (rset fs c.name
                    (.ref (h.alloc o₂).2)))).get (h.alloc o₂).2
                  = some o₂ := by
                rw [Heap.get_set_ne _ _
                  (show (h.alloc o₂).2 ≠ a from Ne.symm hane)]
                exact Heap.get_alloc_self _ _
                  (wf_get_none hwf (Nat.le_refl _))
              rcases ho₂ with rfl | rfl
              · exact Or.inl hself
              · exact Or.inr hself
          split at hs
          · have hw : heapWrite (h.alloc (.arr [] [])).1 (.ref a) c.name
                (.ref (h.alloc (.arr [] [])).2)
                = .ok ((h.alloc (.arr [] [])).1.set a
                    (.map (rset fs c.name
                      (.ref (h.alloc (.arr [] [])).2)))) := by
              simp only [heapWrite, hga1]
            simp only [hw] at hs
            obtain ⟨hAeq, htgt⟩ := pair_ok_inj hs
            exact hcommon _ (Or.inr rfl) hAeq htgt
          · have hw : heapWrite (h.alloc (.map [])).1 (.ref a) c.name
                (.ref (h.alloc (.map [])).2)
                = .ok ((h.alloc (.map [])).1.set a
                    (.map (rset fs c.name
                      (.ref (h.alloc (.map [])).2)))) := by
              simp only [heapWrite, hga1]
            simp only [hw] at hs
            obtain ⟨hAeq, htgt⟩ := pair_ok_inj hs
            exact hcommon _ (Or.inl rfl) hAeq htgt
      | arr es ps =>
        have hr : heapRead h (.ref a) c.name
            = .ok (arrPropGet es ps c.name) := by
          simp [heapRead, hga]
        simp only [hr] at hs
        split at hs
        case isTrue htr =>
          obtain ⟨rfl, rfl⟩ := pair_ok_inj hs
          refine ⟨hwf, heapMono_refl h, ?_⟩
          by_cases hlen : c.name = "length"
          · exact Or.inl ⟨rfl, by simp [arrPropGet, hlen]⟩
          · by_cases hci : isCanonicalIndex c.name = true
            · cases hel : es[keyNatVal c.name]? with
              | none =>
                have hvv : arrPropGet es ps c.name = .undef := by
                  simp [arrPropGet, hlen, hci, hel]
                rw [hvv] at htr
                exact absurd htr (by simp [jsTruthy])
              | some w =>
                have hvv : arrPropGet es ps c.name = w := by
                  simp [arrPropGet, hlen, hci, hel]
                rw [hvv] at htr ⊢
                cases w with
                | ref x =>
                  refine Or.inr ⟨?_, Or.inl rfl⟩
                  intro H hm
                  obtain ⟨es2, ps2, hga2, hem, hpm⟩ :=
                    hm.2.2 a es ps hga
                  have hel2 : es2[keyNatVal c.name]? = some (.ref x) :=
                    hem _ (.ref x) hel rfl
                  have hr2 : heapRead H (.ref a) c.name
                      = .ok (.ref x) := by
                    simp [heapRead, hga2, arrPropGet, hlen, hci, hel2]
                  unfold resolveName
                  rw [if_pos hcn, hr2]
                  simp [jsTruthy]
                | undef => exact Or.inl ⟨rfl, by simp⟩
                | null => exact Or.inl ⟨rfl, by simp⟩
                | bool b => exact Or.inl ⟨rfl, by simp⟩
                | num n => exact Or.inl ⟨rfl, by simp⟩
                | str s => exact Or.inl ⟨rfl, by simp⟩
            · have hvv : arrPropGet es ps c.name
                  = (lookupKV ps c.name).getD .undef := by
                simp [arrPropGet, hlen, hci]
              rw [hvv] at htr ⊢
              cases hlk : lookupKV ps c.name with
              | none =>
                rw [hlk] at htr
                exact absurd htr (by simp [jsTruthy])
              | some w =>
                rw [Option.getD_some]
                cases w with
                | ref x =>
                  refine Or.inr ⟨?_, Or.inl rfl⟩
                  intro H hm
                  obtain ⟨es2, ps2, hga2, hem, hpm⟩ :=
                    hm.2.2 a es ps hga
                  have hlk2 : lookupKV ps2 c.name = some (.ref x) :=
                    hpm c.name (.ref x) hlk rfl
                  have hr2 : heapRead H (.ref a) c.name
                      = .ok (.ref x) := by
                    simp [heapRead, hga2, arrPropGet, hlen, hci, hlk2]
                  unfold resolveName
                  rw [if_pos hcn, hr2]
                  simp [jsTruthy]
                | undef => exact Or.inl ⟨rfl, by simp⟩
                | null => exact Or.inl ⟨rfl, by simp⟩
                | bool b => exact Or.inl ⟨rfl, by simp⟩
                | num n => exact Or.inl ⟨rfl, by simp⟩
                | str s => exact Or.inl ⟨rfl, by simp⟩
        case isFalse htr =>
          have hga1 : ∀ (o₂ : HObj), (h.alloc o₂).1.get a
              = some (.arr es ps) := by
            intro o₂
            rw [Heap.get_alloc_ne _ _ hane]
            exact hga
          by_cases hlen : c.name = "length"
          · exfalso
            split at hs
            · have hw : heapWrite (h.alloc (.arr [] [])).1 (.ref a)
                  c.name (.ref (h.alloc (.arr [] [])).2)
                  = .error .typeError := by
                simp [heapWrite, hga1, hlen]
              simp only [hw] at hs
              exact absurd hs (by simp)
            · have hw : heapWrite (h.alloc (.map [])).1 (.ref a) c.name
                  (.ref (h.alloc (.map [])).2) = .error .typeError := by
                simp [heapWrite, hga1, hlen]
              simp only [hw] at hs
              exact absurd hs (by simp)
          · by_cases hci : isCanonicalIndex c.name = true
            · have hold : ∀ v0, es[keyNatVal c.name]? = some v0 →
                  jsTruthy v0 = false := by
                intro v0 hv0
                have hvv : arrPropGet es ps c.name = v0 := by
                  simp [arrPropGet, hlen, hci, hv0]
                rw [hvv] at htr
                simpa using htr
              have hcommon : ∀ (o₂ : HObj),
                  (o₂ = HObj.map [] ∨ o₂ = HObj.arr [] []) →
                  (h.alloc o₂).1.set a (.arr (arrElemSet es
                      (keyNatVal c.name) (.ref (h.alloc o₂).2)) ps) = hA →
                  HVal.ref (h.alloc o₂).2 = target →
                  NameOut h a c component path hA target := by
                intro o₂ ho₂ hAeq htgt
                subst hAeq
                subst htgt
                have hmono : HeapMono h ((h.alloc o₂).1.set a
                    (.arr (arrElemSet es (keyNatVal c.name)
                      (.ref (h.alloc o₂).2)) ps)) :=
                  heapMono_trans (heapMono_alloc hwf _)
                    (heapMono_set_arr_elem (hga1 _) hold)
                have hwfA : heapWFb ((h.alloc o₂).1.set a
                    (.arr (arrElemSet es (keyNatVal c.name)
                      (.ref (h.alloc o₂).2)) ps)) = true :=
                  wf_set (wf_alloc hwf _)
                    (by rw [Heap.alloc_next]
                        exact Nat.lt_succ_of_lt halt) _
                refine ⟨hwfA, hmono, Or.inr ⟨?_, Or.inr
                  ⟨(h.alloc o₂).2, rfl, ?_⟩⟩⟩
                · intro H hm
                  have hgetA : ((h.alloc o₂).1.set a
                      (.arr (arrElemSet es (keyNatVal c.name)
                        (.ref (h.alloc o₂).2)) ps)).get a
                      = some (.arr (arrElemSet es (keyNatVal c.name)
                          (.ref (h.alloc o₂).2)) ps) :=
                    Heap.get_set_self _ _ _
                  obtain ⟨es2, ps2, hga2, hem, hpm⟩ :=
                    hm.2.2 a _ _ hgetA
                  have hel2 : es2[keyNatVal c.name]?
                      = some (.ref (h.alloc o₂).2) :=
                    hem _ _ (arrElemSet_getElem _ _ _) rfl
                  have hr2 : heapRead H (.ref a) c.name
                      = .ok (.ref (h.alloc o₂).2) := by
                    simp [heapRead, hga2, arrPropGet, hlen, hci, hel2]
                  unfold resolveName
                  rw [if_pos hcn, hr2]
                  simp [jsTruthy]
                · have hself : ((h.alloc o₂).1.set a
                      (.arr (arrElemSet es (keyNatVal c.name)
                        (.ref (h.alloc o₂).2)) ps)).get (h.alloc o₂).2
                      = some o₂ := by
                    rw [Heap.get_set_ne _ _
                      (show (h.alloc o₂).2 ≠ a from Ne.symm hane)]
                    exact Heap.get_alloc_self _ _
                      (wf_get_none hwf (Nat.le_refl _))
                  rcases ho₂ with rfl | rfl
                  · exact Or.inl hself
                  · exact Or.inr hself
              split at hs
              · have hw : heapWrite (h.alloc (.arr [] [])).1 (.ref a)
                    c.name (.ref (h.alloc (.arr [] [])).2)
                    = .ok ((h.alloc (.arr [] [])).1.set a
                        (.arr (arrElemSet es (keyNatVal c.name)
                          (.ref (h.alloc (.arr [] [])).2)) ps)) := by
                  simp [heapWrite, hga1, hlen, hci]
                simp only [hw] at hs
                obtain ⟨hAeq, htgt⟩ := pair_ok_inj hs
                exact hcommon _ (Or.inr rfl) hAeq htgt
              · have hw : heapWrite (h.alloc (.map [])).1 (.ref a)
                    c.name (.ref (h.alloc (.map [])).2)
                    = .ok ((h.alloc (.map [])).1.set a
                        (.arr (arrElemSet es (keyNatVal c.name)
                          (.ref (h.alloc (.map [])).2)) ps)) := by
                  simp [heapWrite, hga1, hlen, hci]
                simp only [hw] at hs
                obtain ⟨hAeq, htgt⟩ := pair_ok_inj hs
                exact hcommon _ (Or.inl rfl) hAeq htgt
            · have hold : ∀ v0, lookupKV ps c.name = some v0 →
                  jsTruthy v0 = false := by
                intro v0 hv0
                have hvv : arrPropGet es ps c.name = v0 := by
                  simp [arrPropGet, hlen, hci, hv0]
                rw [hvv] at htr
                simpa using htr
              have hcommon : ∀ (o₂ : HObj),
                  (o₂ = HObj.map [] ∨ o₂ = HObj.arr [] []) →
                  (h.alloc o₂).1.set a (.arr es
                      (rset ps c.name (.ref (h.alloc o₂).2))) = hA →
                  HVal.ref (h.alloc o₂).2 = target →
                  NameOut h a c component path hA target := by
                intro o₂ ho₂ hAeq htgt
                subst hAeq
                subst htgt
                have hmono : HeapMono h ((h.alloc o₂).1.set a
                    (.arr es (rset ps c.name (.ref (h.alloc o₂).2)))) :=
                  heapMono_trans (heapMono_alloc hwf _)
                    (heapMono_set_arr_prop (hga1 _) hold)
                have hwfA : heapWFb ((h.alloc o₂).1.set a
                    (.arr es (rset ps c.name
                      (.ref (h.alloc o₂).2)))) = true :=
                  wf_set (wf_alloc hwf _)
                    (by rw [Heap.alloc_next]
                        exact Nat.lt_succ_of_lt halt) _
                refine ⟨hwfA, hmono, Or.inr ⟨?_, Or.inr
                  ⟨(h.alloc o₂).2, rfl, ?_⟩⟩⟩
                · intro H hm
                  have hgetA : ((h.alloc o₂).1.set a
                      (.arr es (rset ps c.name
                        (.ref (h.alloc o₂).2)))).get a
                      = some (.arr es (rset ps c.name
                          (.ref (h.alloc o₂).2))) :=
                    Heap.get_set_self _ _ _
                  obtain ⟨es2, ps2, hga2, hem, hpm⟩ :=
                    hm.2.2 a _ _ hgetA
                  have hlk2 : lookupKV ps2 c.name
                      = some (.ref (h.alloc o₂).2) :=
                    hpm _ _ (lookupKV_rset_self _ _ _) rfl
                  have hr2 : heapRead H (.ref a) c.name
                      = .ok (.ref (h.alloc o₂).2) := by
                    simp [heapRead, hga2, arrPropGet, hlen, hci, hlk2]
                  unfold resolveName
                  rw [if_pos hcn, hr2]
                  simp [jsTruthy]
                · have hself : ((h.alloc o₂).1.set a
                      (.arr es (rset ps c.name
                        (.ref (h.alloc o₂).2)))).get (h.alloc o₂).2
                      = some o₂ := by
                    rw [Heap.get_set_ne _ _
                      (show (h.alloc o₂).2 ≠ a from Ne.symm hane)]
                    exact Heap.get_alloc_self _ _
                      (wf_get_none hwf (Nat.le_refl _))
                  rcases ho₂ with rfl | rfl
                  · exact Or.inl hself
                  · exact Or.inr hself
              split at hs
              · have hw : heapWrite (h.alloc (.arr [] [])).1 (.ref a)
                    c.name (.ref (h.alloc (.arr [] [])).2)
                    = .ok ((h.alloc (.arr [] [])).1.set a
                        (.arr es (rset ps c.name
                          (.ref (h.alloc (.arr [] [])).2)))) := by
                  simp [heapWrite, hga1, hlen, hci]
                simp only [hw] at hs
                obtain ⟨hAeq, htgt⟩ := pair_ok_inj hs
                exact hcommon _ (Or.inr rfl) hAeq htgt
              · have hw : heapWrite (h.alloc (.map [])).1 (.ref a)
                    c.name (.ref (h.alloc (.map [])).2)
                    = .ok ((h.alloc (.map [])).1.set a
                        (.arr es (rset ps c.name
                          (.ref (h.alloc (.map [])).2)))) := by
                  simp [heapWrite, hga1, hlen, hci]
                simp only [hw] at hs
                obtain ⟨hAeq, htgt⟩ := pair_ok_inj hs
                exact hcommon _ (Or.inl rfl) hAeq htgt
  case isFalse hcn =>
    split at hs
    · exact absurd hs (by simp)
    · rename_i hia
      obtain ⟨hAeq, htgt⟩ := pair_ok_inj hs
      subst hAeq
      subst htgt
      refine ⟨hwf, heapMono_refl h, Or.inr ⟨?_, Or.inl rfl⟩⟩
      intro H hm
      unfold resolveName
      rw [if_neg hcn, if_neg hia]

theorem nullish_not_truthy {v : HVal} (h : isNullish v = true) :
    jsTruthy v = false := by
  cases v <;> first | rfl | simp [isNullish] at h

/-- What `resolveTail` guarantees: a well-formed, monotonically evolved
heap, and either re-running the tail in any monotone extension returns the
same pointer with no writes, or the heap was untouched and the pointer is a
primitive. -/
def TailOut (h : Heap) (target : HVal) (c : PathComponent) (h₁ : Heap)
    (p : HVal) : Prop :=
  heapWFb h₁ = true ∧ HeapMono h h₁
  ∧ ((∀ H, HeapMono h₁ H → resolveTail H target c = .ok (H, p))
    ∨ (h₁ = h ∧ ∀ x, p ≠ HVal.ref x))

theorem resolveTail_ref_idem {h : Heap} {t : Addr} {c : PathComponent}
    {h₁ : Heap} {p : HVal} (hwf : heapWFb h = true)
    (haf : ¬(c.isArray = true ∧ c.index = none))
    (hs : resolveTail h (.ref t) c = .ok (h₁, p)) :
    TailOut h (.ref t) c h₁ p := by
  unfold resolveTail at hs
  split at hs
  case isTrue hia =>
    split at hs
    case h_2 hidx => exact absurd ⟨hia, hidx⟩ haf
    case h_1 i hidx =>
    cases hgt : h.get t with
    | none =>
      have hr : heapRead h (.ref t) (toString i) = .error .typeError := by
        simp [heapRead, hgt]
      simp only [hr] at hs
      exact absurd hs (by simp)
    | some o =>
      have htlt : t < h.next := wf_get_lt hwf hgt
      have htne : t ≠ h.next := Nat.ne_of_lt htlt
      cases o with
      | map fs =>
        have hr : heapRead h (.ref t) (toString i)
            = .ok ((lookupKV fs (toString i)).getD .undef) := by
          simp [heapRead, hgt]
        simp only [hr] at hs
        split at hs
        case isTrue hnl =>
          have hga1 : (h.alloc (.map [])).1.get t = some (.map fs) := by
            rw [Heap.get_alloc_ne _ _ htne]
            exact hgt
          have hw : heapWrite (h.alloc (.map [])).1 (.ref t) (toString i)
              (.ref (h.alloc (.map [])).2)
              = .ok ((h.alloc (.map [])).1.set t
                  (.map (rset fs (toString i)
                    (.ref (h.alloc (.map [])).2)))) := by
            simp only [heapWrite, hga1]
          simp only [hw] at hs
          obtain ⟨hAeq, htgt⟩ := pair_ok_inj hs
          subst hAeq
          subst htgt
          have hold : ∀ v0, lookupKV fs (toString i) = some v0 →
              jsTruthy v0 = false := by
            intro v0 hv0
            rw [hv0] at hnl
            exact nullish_not_truthy hnl
          refine ⟨wf_set (wf_alloc hwf _)
              (by rw [Heap.alloc_next]; exact Nat.lt_succ_of_lt htlt) _,
            heapMono_trans (heapMono_alloc hwf _)
              (heapMono_set_map hga1 hold), Or.inl ?_⟩
          intro H hm
          have hgetA : ((h.alloc (.map [])).1.set t
              (.map (rset fs (toString i)
                (.ref (h.alloc (.map [])).2)))).get t
              = some (.map (rset fs (toString i)
                  (.ref (h.alloc (.map [])).2))) :=
            Heap.get_set_self _ _ _
          obtain ⟨fs2, hgt2, hfm⟩ := hm.2.1 t _ hgetA
          have hlk2 : lookupKV fs2 (toString i)
              = some (.ref (h.alloc (.map [])).2) :=
            hfm _ _ (lookupKV_rset_self _ _ _) rfl
          have hr2 : heapRead H (.ref t) (toString i)
              = .ok (.ref (h.alloc (.map [])).2) := by
            simp [heapRead, hgt2, hlk2]
          have hw2 : heapWrite H (.ref t) (toString i)
              (.ref (h.alloc (.map [])).2)
              = .ok (H.set t (.map (rset fs2 (toString i)
                  (.ref (h.alloc (.map [])).2)))) := by
            simp only [heapWrite, hgt2]
          have hrs : rset fs2 (toString i)
              (.ref (h.alloc (.map [])).2) = fs2 :=
            rset_self_of_lookup _ _ _ hlk2
          unfold resolveTail
          rw [if_pos hia]
          simp only [hidx]
          rw [hr2]
          simp [isNullish, hw2, hrs, Heap.set_get_self hgt2]
        case isFalse hnl =>
          cases hlk : lookupKV fs (toString i) with
          | none =>
            rw [hlk] at hnl
            exact absurd rfl hnl
          | some w =>
            rw [hlk, Option.getD_some] at hnl hs
            have hw : heapWrite h (.ref t) (toString i) w = .ok h := by
              simp only [heapWrite, hgt]
              rw [rset_self_of_lookup _ _ _ hlk, Heap.set_get_self hgt]
            simp only [hw] at hs
            obtain ⟨hAeq, htgt⟩ := pair_ok_inj hs
            subst hAeq
            subst htgt
            cases w with
            | ref x =>
              refine ⟨hwf, heapMono_refl h, Or.inl ?_⟩
              intro H hm
              obtain ⟨fs2, hgt2, hfm⟩ := hm.2.1 t fs hgt
              have hlk2 : lookupKV fs2 (toString i) = some (.ref x) :=
                hfm _ _ hlk rfl
              have hr2 : heapRead H (.ref t) (toString i)
                  = .ok (.ref x) := by
                simp [heapRead, hgt2, hlk2]
              have hw2 : heapWrite H (.ref t) (toString i) (.ref x)
                  = .ok (H.set t (.map (rset fs2 (toString i)
                      (.ref x)))) := by
                simp only [heapWrite, hgt2]
              have hrs : rset fs2 (toString i) (.ref x) = fs2 :=
                rset_self_of_lookup _ _ _ hlk2
              unfold resolveTail
              rw [if_pos hia]
              simp only [hidx]
              rw [hr2]
              simp [isNullish, hw2, hrs, Heap.set_get_self hgt2]
            | undef => exact absurd rfl hnl
            | null => exact absurd rfl hnl
            | bool b => exact ⟨hwf, heapMono_refl h, Or.inr ⟨rfl, by simp⟩⟩
            | num n => exact ⟨hwf, heapMono_refl h, Or.inr ⟨rfl, by simp⟩⟩
            | str s => exact ⟨hwf, heapMono_refl h, Or.inr ⟨rfl, by simp⟩⟩
      | arr es ps =>
        have hr : heapRead h (.ref t) (toString i)
            = .ok (arrPropGet es ps (toString i)) := by
          simp [heapRead, hgt]
        simp only [hr] at hs
        have hga1 : (h.alloc (.map [])).1.get t = some (.arr es ps) := by
          rw [Heap.get_alloc_ne _ _ htne]
          exact hgt
        by_cases hlen : toString i = "length"
        · exfalso
          have hvv : arrPropGet es ps (toString i) = .num es.length := by
            simp [arrPropGet, hlen]
          rw [hvv] at hs
          split at hs
          · have hw : heapWrite (h.alloc (.map [])).1 (.ref t)
                (toString i) (.ref (h.alloc (.map [])).2)
                = .error .typeError := by
              simp [heapWrite, hga1, hlen]
            simp only [hw] at hs
            exact absurd hs (by simp)
          · have hw : heapWrite h (.ref t) (toString i)
                (.num es.length) = .error .typeError := by
              simp [heapWrite, hgt, hlen]
            simp only [hw] at hs
            exact absurd hs (by simp)
        · by_cases hci : isCanonicalIndex (toString i) = true
          · have hvv : arrPropGet es ps (toString i)
                = match es[keyNatVal (toString i)]? with
                  | some v => v
                  | none => .undef := by
              simp [arrPropGet, hlen, hci]
            rw [hvv] at hs
            cases hel : es[keyNatVal (toString i)]? with
            | none =>
              simp only [hel] at hs
              split at hs
              rotate_left
              next hnl => exact absurd rfl hnl
              next hnl =>
              have hw : heapWrite (h.alloc (.map [])).1 (.ref t)
                  (toString i) (.ref (h.alloc (.map [])).2)
                  = .ok ((h.alloc (.map [])).1.set t
                      (.arr (arrElemSet es (keyNatVal (toString i))
                        (.ref (h.alloc (.map [])).2)) ps)) := by
                simp [heapWrite, hga1, hlen, hci]
              simp only [hw] at hs
              obtain ⟨hAeq, htgt⟩ := pair_ok_inj hs
              subst hAeq
              subst htgt
              have hold : ∀ v0, es[keyNatVal (toString i)]? = some v0 →
                  jsTruthy v0 = false := by
                intro v0 hv0
                rw [hel] at hv0
                exact absurd hv0 (by simp)
              refine ⟨wf_set (wf_alloc hwf _)
                  (by rw [Heap.alloc_next]
                      exact Nat.lt_succ_of_lt htlt) _,
                heapMono_trans (heapMono_alloc hwf _)
                  (heapMono_set_arr_elem hga1 hold), Or.inl ?_⟩
              intro H hm
              have hgetA : ((h.alloc (.map [])).1.set t
                  (.arr (arrElemSet es (keyNatVal (toString i))
                    (.ref (h.alloc (.map [])).2)) ps)).get t
                  = some (.arr (arrElemSet es (keyNatVal (toString i))
                      (.ref (h.alloc (.map [])).2)) ps) :=
                Heap.get_set_self _ _ _
              obtain ⟨es2, ps2, hgt2, hem, hpm⟩ := hm.2.2 t _ _ hgetA
              have hel2 : es2[keyNatVal (toString i)]?
                  = some (.ref (h.alloc (.map [])).2) :=
                hem _ _ (arrElemSet_getElem _ _ _) rfl
              have hr2 : heapRead H (.ref t) (toString i)
                  = .ok (.ref (h.alloc (.map [])).2) := by
                simp [heapRead, hgt2, arrPropGet, hlen, hci, hel2]
              have hset2 : arrElemSet es2 (keyNatVal (toString i))
                  (.ref (h.alloc (.map [])).2) = es2 := by
                unfold arrElemSet
                rw [if_pos (getElem?_some_lt hel2), list_set_self hel2]
              have hw2 : heapWrite H (.ref t) (toString i)
                  (.ref (h.alloc (.map [])).2) = .ok H := by
                simp only [heapWrite, hgt2]
                rw [if_neg hlen, if_pos hci, hset2,
                  Heap.set_get_self hgt2]
              unfold resolveTail
              rw [if_pos hia]
              simp only [hidx]
              rw [hr2]
              simp [isNullish, hw2]
            | some w =>
              simp only [hel] at hs
              split at hs
              next hnl =>
                have hw : heapWrite (h.alloc (.map [])).1 (.ref t)
                    (toString i) (.ref (h.alloc (.map [])).2)
                    = .ok ((h.alloc (.map [])).1.set t
                        (.arr (arrElemSet es (keyNatVal (toString i))
                          (.ref (h.alloc (.map [])).2)) ps)) := by
                  simp [heapWrite, hga1, hlen, hci]
                simp only [hw] at hs
                obtain ⟨hAeq, htgt⟩ := pair_ok_inj hs
                subst hAeq
                subst htgt
                have hold : ∀ v0, es[keyNatVal (toString i)]? = some v0 →
                    jsTruthy v0 = false := by
                  intro v0 hv0
                  rw [hel] at hv0
                  obtain rfl : w = v0 := Option.some.inj hv0
                  exact nullish_not_truthy hnl
                refine ⟨wf_set (wf_alloc hwf _)
                    (by rw [Heap.alloc_next]
                        exact Nat.lt_succ_of_lt htlt) _,
                  heapMono_trans (heapMono_alloc hwf _)
                    (heapMono_set_arr_elem hga1 hold), Or.inl ?_⟩
                intro H hm
                have hgetA : ((h.alloc (.map [])).1.set t
                    (.arr (arrElemSet es (keyNatVal (toString i))
                      (.ref (h.alloc (.map [])).2)) ps)).get t
                    = some (.arr (arrElemSet es (keyNatVal (toString i))
                        (.ref (h.alloc (.map [])).2)) ps) :=
                  Heap.get_set_self _ _ _
                obtain ⟨es2, ps2, hgt2, hem, hpm⟩ := hm.2.2 t _ _ hgetA
                have hel2 : es2[keyNatVal (toString i)]?
                    = some (.ref (h.alloc (.map [])).2) :=
                  hem _ _ (arrElemSet_getElem _ _ _) rfl
                have hr2 : heapRead H (.ref t) (toString i)
                    = .ok (.ref (h.alloc (.map [])).2) := by
                  simp [heapRead, hgt2, arrPropGet, hlen, hci, hel2]
                have hset2 : arrElemSet es2 (keyNatVal (toString i))
                    (.ref (h.alloc (.map [])).2) = es2 := by
                  unfold arrElemSet
                  rw [if_pos (getElem?_some_lt hel2), list_set_self hel2]
                have hw2 : heapWrite H (.ref t) (toString i)
                    (.ref (h.alloc (.map [])).2) = .ok H := by
                  simp only [heapWrite, hgt2]
                  rw [if_neg hlen, if_pos hci, hset2,
                    Heap.set_get_self hgt2]
                unfold resolveTail
                rw [if_pos hia]
                simp only [hidx]
                rw [hr2]
                simp [isNullish, hw2]
              next hnl =>
                have hset : arrElemSet es (keyNatVal (toString i)) w
                    = es := by
                  unfold arrElemSet
                  rw [if_pos (getElem?_some_lt hel), list_set_self hel]
                have hw : heapWrite h (.ref t) (toString i) w = .ok h := by
                  simp only [heapWrite, hgt]
                  rw [if_neg hlen, if_pos hci, hset,
                    Heap.set_get_self hgt]
                simp only [hw] at hs
                obtain ⟨hAeq, htgt⟩ := pair_ok_inj hs
                subst hAeq
                subst htgt
                cases w with
                | ref x =>
                  refine ⟨hwf, heapMono_refl h, Or.inl ?_⟩
                  intro H hm
                  obtain ⟨es2, ps2, hgt2, hem, hpm⟩ :=
                    hm.2.2 t es ps hgt
                  have hel2 : es2[keyNatVal (toString i)]?
                      = some (.ref x) := hem _ _ hel rfl
                  have hr2 : heapRead H (.ref t) (toString i)
                      = .ok (.ref x) := by
                    simp [heapRead, hgt2, arrPropGet, hlen, hci, hel2]
                  have hset2 : arrElemSet es2 (keyNatVal (toString i))
                      (.ref x) = es2 := by
                    unfold arrElemSet
                    rw [if_pos (getElem?_some_lt hel2),
                      list_set_self hel2]
                  have hw2 : heapWrite H (.ref t) (toString i)
                      (.ref x) = .ok H := by
                    simp only [heapWrite, hgt2]
                    rw [if_neg hlen, if_pos hci, hset2,
                      Heap.set_get_self hgt2]
                  unfold resolveTail
                  rw [if_pos hia]
                  simp only [hidx]
                  rw [hr2]
                  simp [isNullish, hw2]
                | undef => exact absurd rfl hnl
                | null => exact absurd rfl hnl
                | bool b =>
                  exact ⟨hwf, heapMono_refl h, Or.inr ⟨rfl, by simp⟩⟩
                | num n =>
                  exact ⟨hwf, heapMono_refl h, Or.inr ⟨rfl, by simp⟩⟩
                | str s =>
                  exact ⟨hwf, heapMono_refl h, Or.inr ⟨rfl, by simp⟩⟩
          · have hvv : arrPropGet es ps (toString i)
                = (lookupKV ps (toString i)).getD .undef := by
              simp [arrPropGet, hlen, hci]
            rw [hvv] at hs
            split at hs
            next hnl =>
              have hw : heapWrite (h.alloc (.map [])).1 (.ref t)
                  (toString i) (.ref (h.alloc (.map [])).2)
                  = .ok ((h.alloc (.map [])).1.set t
                      (.arr es (rset ps (toString i)
                        (.ref (h.alloc (.map [])).2)))) := by
                simp [heapWrite, hga1, hlen, hci]
              simp only [hw] at hs
              obtain ⟨hAeq, htgt⟩ := pair_ok_inj hs
              subst hAeq
              subst htgt
              have hold : ∀ v0, lookupKV ps (toString i) = some v0 →
                  jsTruthy v0 = false := by
                intro v0 hv0
                rw [hv0] at hnl
                exact nullish_not_truthy hnl
              refine ⟨wf_set (wf_alloc hwf _)
                  (by rw [Heap.alloc_next]
                      exact Nat.lt_succ_of_lt htlt) _,
                heapMono_trans (heapMono_alloc hwf _)
                  (heapMono_set_arr_prop hga1 hold), Or.inl ?_⟩
              intro H hm
              have hgetA : ((h.alloc (.map [])).1.set t
                  (.arr es (rset ps (toString i)
                    (.ref (h.alloc (.map [])).2)))).get t
                  = some (.arr es (rset ps (toString i)
                      (.ref (h.alloc (.map [])).2))) :=
                Heap.get_set_self _ _ _
              obtain ⟨es2, ps2, hgt2, hem, hpm⟩ := hm.2.2 t _ _ hgetA
              have hlk2 : lookupKV ps2 (toString i)
                  = some (.ref (h.alloc (.map [])).2) :=
                hpm _ _ (lookupKV_rset_self _ _ _) rfl
              have hr2 : heapRead H (.ref t) (toString i)
                  = .ok (.ref (h.alloc (.map [])).2) := by
                simp [heapRead, hgt2, arrPropGet, hlen, hci, hlk2]
              have hw2 : heapWrite H (.ref t) (toString i)
                  (.ref (h.alloc (.map [])).2) = .ok H := by
                simp only [heapWrite, hgt2]
                rw [if_neg hlen, if_neg hci,
                  rset_self_of_lookup _ _ _ hlk2, Heap.set_get_self hgt2]
              unfold resolveTail
              rw [if_pos hia]
              simp only [hidx]
              rw [hr2]
              simp [isNullish, hw2]
            next hnl =>
              cases hlk : lookupKV ps (toString i) with
              | none =>
                rw [hlk] at hnl
                exact absurd rfl hnl
              | some w =>
                rw [hlk, Option.getD_some] at hnl hs
                have hw : heapWrite h (.ref t) (toString i) w = .ok h := by
                  simp only [heapWrite, hgt]
                  rw [if_neg hlen, if_neg hci,
                    rset_self_of_lookup _ _ _ hlk, Heap.set_get_self hgt]
                simp only [hw] at hs
                obtain ⟨hAeq, htgt⟩ := pair_ok_inj hs
                subst hAeq
                subst htgt
                cases w with
                | ref x =>
                  refine ⟨hwf, heapMono_refl h, Or.inl ?_⟩
                  intro H hm
                  obtain ⟨es2, ps2, hgt2, hem, hpm⟩ :=
                    hm.2.2 t es ps hgt
                  have hlk2 : lookupKV ps2 (toString i)
                      = some (.ref x) := hpm _ _ hlk rfl
                  have hr2 : heapRead H (.ref t) (toString i)
                      = .ok (.ref x) := by
                    simp [heapRead, hgt2, arrPropGet, hlen, hci, hlk2]
                  have hw2 : heapWrite H (.ref t) (toString i)
                      (.ref x) = .ok H := by
                    simp only [heapWrite, hgt2]
                    rw [if_neg hlen, if_neg hci,
                      rset_self_of_lookup _ _ _ hlk2,
                      Heap.set_get_self hgt2]
                  unfold resolveTail
                  rw [if_pos hia]
                  simp only [hidx]
                  rw [hr2]
                  simp [isNullish, hw2]
                | undef => exact absurd rfl hnl
                | null => exact absurd rfl hnl
                | bool b =>
                  exact ⟨hwf, heapMono_refl h, Or.inr ⟨rfl, by simp⟩⟩
                | num n =>
                  exact ⟨hwf, heapMono_refl h, Or.inr ⟨rfl, by simp⟩⟩
                | str s =>
                  exact ⟨hwf, heapMono_refl h, Or.inr ⟨rfl, by simp⟩⟩
  case isFalse hia =>
    split at hs
    case h_2 hkey =>
      obtain ⟨hAeq, htgt⟩ := pair_ok_inj hs
      subst hAeq
      subst htgt
      refine ⟨hwf, heapMono_refl h, Or.inl ?_⟩
      intro H hm
      unfold resolveTail
      rw [if_neg hia]
      simp only [hkey]
    case h_1 k hkey =>
    cases hgt : h.get t with
    | none =>
      have hr : heapRead h (.ref t) k = .error .typeError := by
        simp [heapRead, hgt]
      simp only [hr] at hs
      exact absurd hs (by simp)
    | some o =>
      have htlt : t < h.next := wf_get_lt hwf hgt
      have htne : t ≠ h.next := Nat.ne_of_lt htlt
      cases o with
      | map fs =>
        have hr : heapRead h (.ref t) k
            = .ok ((lookupKV fs k).getD .undef) := by
          simp [heapRead, hgt]
        simp only [hr] at hs
        split at hs
        case isTrue htr =>
          obtain ⟨hAeq, htgt⟩ := pair_ok_inj hs
          subst hAeq
          subst htgt
          cases hlk : lookupKV fs k with
          | none =>
            rw [hlk] at htr
            exact absurd htr (by decide)
          | some w =>
            rw [hlk] at htr
            rw [Option.getD_some] at htr ⊢
            cases w with
            | ref x =>
              refine ⟨hwf, heapMono_refl h, Or.inl ?_⟩
              intro H hm
              obtain ⟨fs2, hgt2, hfm⟩ := hm.2.1 t fs hgt
              have hlk2 : lookupKV fs2 k = some (.ref x) :=
                hfm _ _ hlk rfl
              have hr2 : heapRead H (.ref t) k = .ok (.ref x) := by
                simp [heapRead, hgt2, hlk2]
              unfold resolveTail
              rw [if_neg hia]
              simp only [hkey]
              rw [hr2]
              simp [jsTruthy]
            | undef => exact absurd htr (by decide)
            | null => exact absurd htr (by decide)
            | bool b =>
              exact ⟨hwf, heapMono_refl h, Or.inr ⟨rfl, by simp⟩⟩
            | num n =>
              exact ⟨hwf, heapMono_refl h, Or.inr ⟨rfl, by simp⟩⟩
            | str s =>
              exact ⟨hwf, heapMono_refl h, Or.inr ⟨rfl, by simp⟩⟩
        case isFalse htr =>
          have hga1 : (h.alloc (.map [])).1.get t = some (.map fs) := by
            rw [Heap.get_alloc_ne _ _ htne]
            exact hgt
          have hw : heapWrite (h.alloc (.map [])).1 (.ref t) k
              (.ref (h.alloc (.map [])).2)
              = .ok ((h.alloc (.map [])).1.set t
                  (.map (rset fs k (.ref (h.alloc (.map [])).2)))) := by
            simp only [heapWrite, hga1]
          simp only [hw] at hs
          obtain ⟨hAeq, htgt⟩ := pair_ok_inj hs
          subst hAeq
          subst htgt
          have hold : ∀ v0, lookupKV fs k = some v0 →
              jsTruthy v0 = false := by
            intro v0 hv0
            rw [hv0, Option.getD_some] at htr
            cases h2 : jsTruthy v0
            · rfl
            · exact absurd h2 htr
          refine ⟨wf_set (wf_alloc hwf _)
              (by rw [Heap.alloc_next]; exact Nat.lt_succ_of_lt htlt) _,
            heapMono_trans (heapMono_alloc hwf _)
              (heapMono_set_map hga1 hold), Or.inl ?_⟩
          intro H hm
          have hgetA : ((h.alloc (.map [])).1.set t
              (.map (rset fs k (.ref (h.alloc (.map [])).2)))).get t
              = some (.map (rset fs k (.ref (h.alloc (.map [])).2))) :=
            Heap.get_set_self _ _ _
          obtain ⟨fs2, hgt2, hfm⟩ := hm.2.1 t _ hgetA
          have hlk2 : lookupKV fs2 k
              = some (.ref (h.alloc (.map [])).2) :=
            hfm _ _ (lookupKV_rset_self _ _ _) rfl
          have hr2 : heapRead H (.ref t) k
              = .ok (.ref (h.alloc (.map [])).2) := by
            simp [heapRead, hgt2, hlk2]
          unfold resolveTail
          rw [if_neg hia]
          simp only [hkey]
          rw [hr2]
          simp [jsTruthy]
      | arr es ps =>
        have hr : heapRead h (.ref t) k = .ok (arrPropGet es ps k) := by
          simp [heapRead, hgt]
        simp only [hr] at hs
        have hga1 : (h.alloc (.map [])).1.get t = some (.arr es ps) := by
          rw [Heap.get_alloc_ne _ _ htne]
          exact hgt
        by_cases hlen : k = "length"
        · have hvv : arrPropGet es ps k = .num es.length := by
            simp [arrPropGet, hlen]
          rw [hvv] at hs
          split at hs
          next htr =>
            obtain ⟨hAeq, htgt⟩ := pair_ok_inj hs
            subst hAeq
            subst htgt
            exact ⟨hwf, heapMono_refl h, Or.inr ⟨rfl, by simp⟩⟩
          next htr =>
            have hw : heapWrite (h.alloc (.map [])).1 (.ref t) k
                (.ref (h.alloc (.map [])).2) = .error .typeError := by
              simp [heapWrite, hga1, hlen]
            simp only [hw] at hs
            exact absurd hs (by simp)
        · by_cases hci : isCanonicalIndex k = true
          · have hvv : arrPropGet es ps k
                = match es[keyNatVal k]? with
                  | some v => v
                  | none => .undef := by
              simp [arrPropGet, hlen, hci]
            rw [hvv] at hs
            cases hel : es[keyNatVal k]? with
            | none =>
              simp only [hel] at hs
              split at hs
              next htr => exact absurd htr (by decide)
              next htr =>
              have hw : heapWrite (h.alloc (.map [])).1 (.ref t) k
                  (.ref (h.alloc (.map [])).2)
                  = .ok ((h.alloc (.map [])).1.set t
                      (.arr (arrElemSet es (keyNatVal k)
                        (.ref (h.alloc (.map [])).2)) ps)) := by
                simp [heapWrite, hga1, hlen, hci]
              simp only [hw] at hs
              obtain ⟨hAeq, htgt⟩ := pair_ok_inj hs
              subst hAeq
              subst htgt
              have hold : ∀ v0, es[keyNatVal k]? = some v0 →
                  jsTruthy v0 = false := by
                intro v0 hv0
                rw [hel] at hv0
                exact absurd hv0 (by simp)
              refine ⟨wf_set (wf_alloc hwf _)
                  (by rw [Heap.alloc_next]
                      exact Nat.lt_succ_of_lt htlt) _,
                heapMono_trans (heapMono_alloc hwf _)
                  (heapMono_set_arr_elem hga1 hold), Or.inl ?_⟩
              intro H hm
              have hgetA : ((h.alloc (.map [])).1.set t
                  (.arr (arrElemSet es (keyNatVal k)
                    (.ref (h.alloc (.map [])).2)) ps)).get t
                  = some (.arr (arrElemSet es (keyNatVal k)
                      (.ref (h.alloc (.map [])).2)) ps) :=
                Heap.get_set_self _ _ _
              obtain ⟨es2, ps2, hgt2, hem, hpm⟩ := hm.2.2 t _ _ hgetA
              have hel2 : es2[keyNatVal k]?
                  = some (.ref (h.alloc (.map [])).2) :=
                hem _ _ (arrElemSet_getElem _ _ _) rfl
              have hr2 : heapRead H (.ref t) k
                  = .ok (.ref (h.alloc (.map [])).2) := by
                simp [heapRead, hgt2, arrPropGet, hlen, hci, hel2]
              unfold resolveTail
              rw [if_neg hia]
              simp only [hkey]
              rw [hr2]
              simp [jsTruthy]
            | some w =>
              simp only [hel] at hs
              split at hs
              next htr =>
                obtain ⟨hAeq, htgt⟩ := pair_ok_inj hs
                subst hAeq
                subst htgt
                cases w with
                | ref x =>
                  refine ⟨hwf, heapMono_refl h, Or.inl ?_⟩
                  intro H hm
                  obtain ⟨es2, ps2, hgt2, hem, hpm⟩ :=
                    hm.2.2 t es ps hgt
                  have hel2 : es2[keyNatVal k]? = some (.ref x) :=
                    hem _ _ hel rfl
                  have hr2 : heapRead H (.ref t) k = .ok (.ref x) := by
                    simp [heapRead, hgt2, arrPropGet, hlen, hci, hel2]
                  unfold resolveTail
                  rw [if_neg hia]
                  simp only [hkey]
                  rw [hr2]
                  simp [jsTruthy]
                | undef => exact absurd htr (by decide)
                | null => exact absurd htr (by decide)
                | bool b =>
                  exact ⟨hwf, heapMono_refl h, Or.inr ⟨rfl, by simp⟩⟩
                | num n =>
                  exact ⟨hwf, heapMono_refl h, Or.inr ⟨rfl, by simp⟩⟩
                | str s =>
                  exact ⟨hwf, heapMono_refl h, Or.inr ⟨rfl, by simp⟩⟩
              next htr =>
                have hw : heapWrite (h.alloc (.map [])).1 (.ref t) k
                    (.ref (h.alloc (.map [])).2)
                    = .ok ((h.alloc (.map [])).1.set t
                        (.arr (arrElemSet es (keyNatVal k)
                          (.ref (h.alloc (.map [])).2)) ps)) := by
                  simp [heapWrite, hga1, hlen, hci]
                simp only [hw] at hs
                obtain ⟨hAeq, htgt⟩ := pair_ok_inj hs
                subst hAeq
                subst htgt
                have hold : ∀ v0, es[keyNatVal k]? = some v0 →
                    jsTruthy v0 = false := by
                  intro v0 hv0
                  rw [hel] at hv0
                  obtain rfl : w = v0 := Option.some.inj hv0
                  cases h2 : jsTruthy w
                  · rfl
                  · exact absurd h2 htr
                refine ⟨wf_set (wf_alloc hwf _)
                    (by rw [Heap.alloc_next]
                        exact Nat.lt_succ_of_lt htlt) _,
                  heapMono_trans (heapMono_alloc hwf _)
                    (heapMono_set_arr_elem hga1 hold), Or.inl ?_⟩
                intro H hm
                have hgetA : ((h.alloc (.map [])).1.set t
                    (.arr (arrElemSet es (keyNatVal k)
                      (.ref (h.alloc (.map [])).2)) ps)).get t
                    = some (.arr (arrElemSet es (keyNatVal k)
                        (.ref (h.alloc (.map [])).2)) ps) :=
                  Heap.get_set_self _ _ _
                obtain ⟨es2, ps2, hgt2, hem, hpm⟩ := hm.2.2 t _ _ hgetA
                have hel2 : es2[keyNatVal k]?
                    = some (.ref (h.alloc (.map [])).2) :=
                  hem _ _ (arrElemSet_getElem _ _ _) rfl
                have hr2 : heapRead H (.ref t) k
                    = .ok (.ref (h.alloc (.map [])).2) := by
                  simp [heapRead, hgt2, arrPropGet, hlen, hci, hel2]
                unfold resolveTail
                rw [if_neg hia]
                simp only [hkey]
                rw [hr2]
                simp [jsTruthy]
          · have hvv : arrPropGet es ps k
                = (lookupKV ps k).getD .undef := by
              simp [arrPropGet, hlen, hci]
            rw [hvv] at hs
            split at hs
            next htr =>
              obtain ⟨hAeq, htgt⟩ := pair_ok_inj hs
              subst hAeq
              subst htgt
              cases hlk : lookupKV ps k with
              | none =>
                rw [hlk] at htr
                exact absurd htr (by decide)
              | some w =>
                rw [hlk] at htr
                rw [Option.getD_some] at htr ⊢
                cases w with
                | ref x =>
                  refine ⟨hwf, heapMono_refl h, Or.inl ?_⟩
                  intro H hm
                  obtain ⟨es2, ps2, hgt2, hem, hpm⟩ :=
                    hm.2.2 t es ps hgt
                  have hlk2 : lookupKV ps2 k = some (.ref x) :=
                    hpm _ _ hlk rfl
                  have hr2 : heapRead H (.ref t) k = .ok (.ref x) := by
                    simp [heapRead, hgt2, arrPropGet, hlen, hci, hlk2]
                  unfold resolveTail
                  rw [if_neg hia]
                  simp only [hkey]
                  rw [hr2]
                  simp [jsTruthy]
                | undef => exact absurd htr (by decide)
                | null => exact absurd htr (by decide)
                | bool b =>
                  exact ⟨hwf, heapMono_refl h, Or.inr ⟨rfl, by simp⟩⟩
                | num n =>
                  exact ⟨hwf, heapMono_refl h, Or.inr ⟨rfl, by simp⟩⟩
                | str s =>
                  exact ⟨hwf, heapMono_refl h, Or.inr ⟨rfl, by simp⟩⟩
            next htr =>
              have hw : heapWrite (h.alloc (.map [])).1 (.ref t) k
                  (.ref (h.alloc (.map [])).2)
                  = .ok ((h.alloc (.map [])).1.set t
                      (.arr es (rset ps k
                        (.ref (h.alloc (.map [])).2)))) := by
                simp [heapWrite, hga1, hlen, hci]
              simp only [hw] at hs
              obtain ⟨hAeq, htgt⟩ := pair_ok_inj hs
              subst hAeq
              subst htgt
              have hold : ∀ v0, lookupKV ps k = some v0 →
                  jsTruthy v0 = false := by
                intro v0 hv0
                rw [hv0, Option.getD_some] at htr
                cases h2 : jsTruthy v0
                · rfl
                · exact absurd h2 htr
              refine ⟨wf_set (wf_alloc hwf _)
                  (by rw [Heap.alloc_next]
                      exact Nat.lt_succ_of_lt htlt) _,
                heapMono_trans (heapMono_alloc hwf _)
                  (heapMono_set_arr_prop hga1 hold), Or.inl ?_⟩
              intro H hm
              have hgetA : ((h.alloc (.map [])).1.set t
                  (.arr es (rset ps k
                    (.ref (h.alloc (.map [])).2)))).get t
                  = some (.arr es (rset ps k
                      (.ref (h.alloc (.map [])).2))) :=
                Heap.get_set_self _ _ _
              obtain ⟨es2, ps2, hgt2, hem, hpm⟩ := hm.2.2 t _ _ hgetA
              have hlk2 : lookupKV ps2 k
                  = some (.ref (h.alloc (.map [])).2) :=
                hpm _ _ (lookupKV_rset_self _ _ _) rfl
              have hr2 : heapRead H (.ref t) k
                  = .ok (.ref (h.alloc (.map [])).2) := by
                simp [heapRead, hgt2, arrPropGet, hlen, hci, hlk2]
              unfold resolveTail
              rw [if_neg hia]
              simp only [hkey]
              rw [hr2]
              simp [jsTruthy]

/-- What one segment loop iteration guarantees on success: either the step
replays as a no-op in every monotone extension of its output heap, or it
never touched the heap and its output pointer is a primitive. -/
def StepOut (h : Heap) (ptr : HVal) (component path : String) (h₁ : Heap)
    (p : HVal) : Prop :=
  heapWFb h₁ = true ∧ HeapMono h h₁
  ∧ ((∀ H, HeapMono h₁ H →
        resolveStep H ptr component path = .ok (H, p))
    ∨ (h₁ = h ∧ ∀ x, p ≠ HVal.ref x))

theorem resolveStep_idem {h : Heap} {ptr : HVal} {component path : String}
    {h₁ : Heap} {p : HVal} (hwf : heapWFb h = true)
    (haf : segAppendFree component = true)
    (hs : resolveStep h ptr component path = .ok (h₁, p)) :
    StepOut h ptr component path h₁ p := by
  have haf' : ¬((parsePathComponent component).isArray = true
      ∧ (parsePathComponent component).index = none) := by
    intro hc
    unfold segAppendFree at haf
    rw [hc.1, hc.2] at haf
    simp at haf
  cases ptr with
  | undef =>
    obtain ⟨rfl, hpnr, -⟩ := resolveStep_nonref (fun x => by simp) hs
    exact ⟨hwf, heapMono_refl _, Or.inr ⟨rfl, hpnr⟩⟩
  | null =>
    obtain ⟨rfl, hpnr, -⟩ := resolveStep_nonref (fun x => by simp) hs
    exact ⟨hwf, heapMono_refl _, Or.inr ⟨rfl, hpnr⟩⟩
  | bool b =>
    obtain ⟨rfl, hpnr, -⟩ := resolveStep_nonref (fun x => by simp) hs
    exact ⟨hwf, heapMono_refl _, Or.inr ⟨rfl, hpnr⟩⟩
  | num n =>
    obtain ⟨rfl, hpnr, -⟩ := resolveStep_nonref (fun x => by simp) hs
    exact ⟨hwf, heapMono_refl _, Or.inr ⟨rfl, hpnr⟩⟩
  | str s =>
    obtain ⟨rfl, hpnr, -⟩ := resolveStep_nonref (fun x => by simp) hs
    exact ⟨hwf, heapMono_refl _, Or.inr ⟨rfl, hpnr⟩⟩
  | ref a =>
    simp only [resolveStep] at hs
    cases hn : resolveName h (.ref a) (parsePathComponent component)
        component path with
    | error e =>
      simp only [hn] at hs
      exact absurd hs (by simp)
    | ok q =>
      obtain ⟨hA, target⟩ := q
      simp only [hn] at hs
      obtain ⟨hwfA, hmA, hno⟩ := resolveName_ref_idem hwf hn
      rcases hno with ⟨rfl, htnr⟩ | ⟨hrep, hfresh⟩
      · obtain ⟨rfl, hpnr, -⟩ := resolveTail_nonref htnr hs
        exact ⟨hwf, heapMono_refl _, Or.inr ⟨rfl, hpnr⟩⟩
      · cases target with
        | undef =>
          obtain ⟨rfl, hpnr, -⟩ :=
            resolveTail_nonref (fun x => by simp) hs
          rcases hfresh with rfl | ⟨n, hne, -⟩
          · exact ⟨hwf, heapMono_refl _, Or.inr ⟨rfl, hpnr⟩⟩
          · exact absurd hne (by simp)
        | null =>
          obtain ⟨rfl, hpnr, -⟩ :=
            resolveTail_nonref (fun x => by simp) hs
          rcases hfresh with rfl | ⟨n, hne, -⟩
          · exact ⟨hwf, heapMono_refl _, Or.inr ⟨rfl, hpnr⟩⟩
          · exact absurd hne (by simp)
        | bool b =>
          obtain ⟨rfl, hpnr, -⟩ :=
            resolveTail_nonref (fun x => by simp) hs
          rcases hfresh with rfl | ⟨n, hne, -⟩
          · exact ⟨hwf, heapMono_refl _, Or.inr ⟨rfl, hpnr⟩⟩
          · exact absurd hne (by simp)
        | num nn =>
          obtain ⟨rfl, hpnr, -⟩ :=
            resolveTail_nonref (fun x => by simp) hs
          rcases hfresh with rfl | ⟨n, hne, -⟩
          · exact ⟨hwf, heapMono_refl _, Or.inr ⟨rfl, hpnr⟩⟩
          · exact absurd hne (by simp)
        | str s =>
          obtain ⟨rfl, hpnr, -⟩ :=
            resolveTail_nonref (fun x => by simp) hs
          rcases hfresh with rfl | ⟨n, hne, -⟩
          · exact ⟨hwf, heapMono_refl _, Or.inr ⟨rfl, hpnr⟩⟩
          · exact absurd hne (by simp)
        | ref tadr =>
          obtain ⟨hwf1, hm1, htout⟩ := resolveTail_ref_idem hwfA haf' hs
          refine ⟨hwf1, heapMono_trans hmA hm1, ?_⟩
          rcases htout with hrepT | ⟨rfl, hpnr⟩
          · refine Or.inl ?_
            intro H hm
            simp only [resolveStep]
            rw [hrep H (heapMono_trans hm1 hm)]
            exact hrepT H hm
          · rcases hfresh with rfl | ⟨n, hne, hget⟩
            · exact Or.inr ⟨rfl, hpnr⟩
            · exfalso
              obtain rfl : n = tadr := (HVal.ref.inj hne).symm
              have hnlt : n < h₁.next := by
                rcases hget with hg | hg
                · exact wf_get_lt hwfA hg
                · exact wf_get_lt hwfA hg
              have hnne : n ≠ h₁.next := Nat.ne_of_lt hnlt
              unfold resolveTail at hs
              split at hs
              case isTrue hia =>
                split at hs
                case h_2 hidx => exact haf' ⟨hia, hidx⟩
                case h_1 i hidx =>
                rcases hget with hget | hget
                · have hr : heapRead h₁ (.ref n) (toString i)
                      = .ok .undef := by
                    simp [heapRead, hget, lookupKV]
                  simp only [hr] at hs
                  rw [if_pos (show isNullish HVal.undef = true
                    from rfl)] at hs
                  have hga1 : (h₁.alloc (.map [])).1.get n
                      = some (.map []) := by
                    rw [Heap.get_alloc_ne _ _ hnne]
                    exact hget
                  have hw : heapWrite (h₁.alloc (.map [])).1 (.ref n)
                      (toString i) (.ref (h₁.alloc (.map [])).2)
                      = .ok ((h₁.alloc (.map [])).1.set n
                          (.map (rset [] (toString i)
                            (.ref (h₁.alloc (.map [])).2)))) := by
                    simp only [heapWrite, hga1]
                  simp only [hw] at hs
                  obtain ⟨-, hy⟩ := pair_ok_inj hs
                  exact hpnr _ hy.symm
                · by_cases hL : toString i = "length"
                  · have hr : heapRead h₁ (.ref n) (toString i)
                        = .ok (.num 0) := by
                      simp [heapRead, hget, arrPropGet, hL, lookupKV]
                    simp only [hr] at hs
                    rw [if_neg (show ¬isNullish (HVal.num 0) = true
                      by decide)] at hs
                    have hw : heapWrite h₁ (.ref n) (toString i)
                        (.num 0) = .error .typeError := by
                      simp [heapWrite, hget, hL]
                    simp only [hw] at hs
                    exact absurd hs (by simp)
                  · have hr : heapRead h₁ (.ref n) (toString i)
                        = .ok .undef := by
                      simp [heapRead, hget, arrPropGet, hL, lookupKV]
                    simp only [hr] at hs
                    rw [if_pos (show isNullish HVal.undef = true
                      from rfl)] at hs
                    have hga1 : (h₁.alloc (.map [])).1.get n
                        = some (.arr [] []) := by
                      rw [Heap.get_alloc_ne _ _ hnne]
                      exact hget
                    by_cases hC : isCanonicalIndex (toString i) = true
                    · have hw : heapWrite (h₁.alloc (.map [])).1
                          (.ref n) (toString i)
                          (.ref (h₁.alloc (.map [])).2)
                          = .ok ((h₁.alloc (.map [])).1.set n
                              (.arr (arrElemSet []
                                (keyNatVal (toString i))
                                (.ref (h₁.alloc (.map [])).2)) [])) := by
                        simp [heapWrite, hga1, hL, hC]
                      simp only [hw] at hs
                      obtain ⟨-, hy⟩ := pair_ok_inj hs
                      exact hpnr _ hy.symm
                    · have hw : heapWrite (h₁.alloc (.map [])).1
                          (.ref n) (toString i)
                          (.ref (h₁.alloc (.map [])).2)
                          = .ok ((h₁.alloc (.map [])).1.set n
                              (.arr [] (rset [] (toString i)
                                (.ref (h₁.alloc (.map [])).2)))) := by
                        simp [heapWrite, hga1, hL, hC]
                      simp only [hw] at hs
                      obtain ⟨-, hy⟩ := pair_ok_inj hs
                      exact hpnr _ hy.symm
              case isFalse hia =>
                split at hs
                case h_2 hkey =>
                  obtain ⟨-, hy⟩ := pair_ok_inj hs
                  exact hpnr _ hy.symm
                case h_1 k hkey =>
                rcases hget with hget | hget
                · have hr : heapRead h₁ (.ref n) k = .ok .undef := by
                    simp [heapRead, hget, lookupKV]
                  simp only [hr] at hs
                  rw [if_neg (show ¬jsTruthy HVal.undef = true
                    by decide)] at hs
                  have hga1 : (h₁.alloc (.map [])).1.get n
                      = some (.map []) := by
                    rw [Heap.get_alloc_ne _ _ hnne]
                    exact hget
                  have hw : heapWrite (h₁.alloc (.map [])).1 (.ref n)
                      k (.ref (h₁.alloc (.map [])).2)
                      = .ok ((h₁.alloc (.map [])).1.set n
                          (.map (rset [] k
                            (.ref (h₁.alloc (.map [])).2)))) := by
                    simp only [heapWrite, hga1]
                  simp only [hw] at hs
                  obtain ⟨-, hy⟩ := pair_ok_inj hs
                  exact hpnr _ hy.symm
                · by_cases hL : k = "length"
                  · have hr : heapRead h₁ (.ref n) k
                        = .ok (.num 0) := by
                      simp [heapRead, hget, arrPropGet, hL, lookupKV]
                    simp only [hr] at hs
                    rw [if_neg (show ¬jsTruthy (HVal.num 0) = true
                      by decide)] at hs
                    have hga1 : (h₁.alloc (.map [])).1.get n
                        = some (.arr [] []) := by
                      rw [Heap.get_alloc_ne _ _ hnne]
                      exact hget
                    have hw : heapWrite (h₁.alloc (.map [])).1
                        (.ref n) k (.ref (h₁.alloc (.map [])).2)
                        = .error .typeError := by
                      simp [heapWrite, hga1, hL]
                    simp only [hw] at hs
                    exact absurd hs (by simp)
                  · have hr : heapRead h₁ (.ref n) k = .ok .undef := by
                      simp [heapRead, hget, arrPropGet, hL, lookupKV]
                    simp only [hr] at hs
                    rw [if_neg (show ¬jsTruthy HVal.undef = true
                      by decide)] at hs
                    have hga1 : (h₁.alloc (.map [])).1.get n
                        = some (.arr [] []) := by
                      rw [Heap.get_alloc_ne _ _ hnne]
                      exact hget
                    by_cases hC : isCanonicalIndex k = true
                    · have hw : heapWrite (h₁.alloc (.map [])).1
                          (.ref n) k (.ref (h₁.alloc (.map [])).2)
                          = .ok ((h₁.alloc (.map [])).1.set n
                              (.arr (arrElemSet [] (keyNatVal k)
                                (.ref (h₁.alloc (.map [])).2)) [])) := by
                        simp [heapWrite, hga1, hL, hC]
                      simp only [hw] at hs
                      obtain ⟨-, hy⟩ := pair_ok_inj hs
                      exact hpnr _ hy.symm
                    · have hw : heapWrite (h₁.alloc (.map [])).1
                          (.ref n) k (.ref (h₁.alloc (.map [])).2)
                          = .ok ((h₁.alloc (.map [])).1.set n
                              (.arr [] (rset [] k
                                (.ref (h₁.alloc (.map [])).2)))) := by
                        simp [heapWrite, hga1, hL, hC]
                      simp only [hw] at hs
                      obtain ⟨-, hy⟩ := pair_ok_inj hs
                      exact hpnr _ hy.symm

theorem resolveSegs_idem {segs : List String} :
    ∀ {h : Heap} {ptr : HVal} {path : String} {H : Heap} {q : HVal},
    (∀ s ∈ segs, segAppendFree s = true) → heapWFb h = true →
    resolveSegs h ptr segs path = (H, .ok q) →
    heapWFb H = true ∧ HeapMono h H
      ∧ resolveSegs H ptr segs path = (H, .ok q) := by
  induction segs with
  | nil =>
    intro h ptr path H q hafs hwf hr
    rw [resolveSegs] at hr
    obtain ⟨rfl, hq⟩ := Prod.mk.injEq .. ▸ hr
    obtain rfl : ptr = q := Except.ok.inj hq
    exact ⟨hwf, heapMono_refl h, rfl⟩
  | cons component rest ih =>
    intro h ptr path H q hafs hwf hr
    rw [resolveSegs] at hr
    by_cases hc : component = ""
    · rw [if_pos hc] at hr
      obtain ⟨rfl, hq⟩ := Prod.mk.injEq .. ▸ hr
      obtain rfl : ptr = q := Except.ok.inj hq
      exact ⟨hwf, heapMono_refl h, by rw [resolveSegs, if_pos hc]⟩
    · rw [if_neg hc] at hr
      cases hstep : resolveStep h ptr component path with
      | error e =>
        rw [hstep] at hr
        obtain ⟨-, hq⟩ := Prod.mk.injEq .. ▸ hr
        exact absurd hq (by simp)
      | ok pr =>
        obtain ⟨h₁, p₁⟩ := pr
        rw [hstep] at hr
        have hafc : segAppendFree component = true :=
          hafs _ (List.mem_cons_self _ _)
        have hafr : ∀ s ∈ rest, segAppendFree s = true :=
          fun s hsm => hafs _ (List.mem_cons_of_mem _ hsm)
        obtain ⟨hwf1, hm1, hso⟩ := resolveStep_idem hwf hafc hstep
        rcases hso with hrepS | ⟨rfl, hpnr⟩
        · obtain ⟨hwfF, hmF, hrF⟩ := ih hafr hwf1 hr
          refine ⟨hwfF, heapMono_trans hm1 hmF, ?_⟩
          rw [resolveSegs, if_neg hc, hrepS H hmF]
          exact hrF
        · obtain ⟨rfl, hqnr, hre⟩ := resolveSegs_nonref hpnr hr
          refine ⟨hwf, heapMono_refl _, ?_⟩
          rw [resolveSegs, if_neg hc, hstep]
          exact hre _

theorem resolveSegs_ref_replay {segs : List String} :
    ∀ {h : Heap} {ptr : HVal} {path : String} {H : Heap} {a : Addr},
    (∀ s ∈ segs, segAppendFree s = true) → heapWFb h = true →
    resolveSegs h ptr segs path = (H, .ok (.ref a)) →
    heapWFb H = true ∧ HeapMono h H
      ∧ ∀ H2, HeapMono H H2 →
          resolveSegs H2 ptr segs path = (H2, .ok (.ref a)) := by
  induction segs with
  | nil =>
    intro h ptr path H a hafs hwf hr
    rw [resolveSegs] at hr
    obtain ⟨rfl, hq⟩ := Prod.mk.injEq .. ▸ hr
    obtain rfl : ptr = .ref a := Except.ok.inj hq
    exact ⟨hwf, heapMono_refl h, fun H2 _ => rfl⟩
  | cons component rest ih =>
    intro h ptr path H a hafs hwf hr
    rw [resolveSegs] at hr
    by_cases hc : component = ""
    · rw [if_pos hc] at hr
      obtain ⟨rfl, hq⟩ := Prod.mk.injEq .. ▸ hr
      obtain rfl : ptr = .ref a := Except.ok.inj hq
      exact ⟨hwf, heapMono_refl h,
        fun H2 _ => by rw [resolveSegs, if_pos hc]⟩
    · rw [if_neg hc] at hr
      cases hstep : resolveStep h ptr component path with
      | error e =>
        rw [hstep] at hr
        obtain ⟨-, hq⟩ := Prod.mk.injEq .. ▸ hr
        exact absurd hq (by simp)
      | ok pr =>
        obtain ⟨h₁, p₁⟩ := pr
        rw [hstep] at hr
        have hafc : segAppendFree component = true :=
          hafs _ (List.mem_cons_self _ _)
        have hafr : ∀ s ∈ rest, segAppendFree s = true :=
          fun s hsm => hafs _ (List.mem_cons_of_mem _ hsm)
        obtain ⟨hwf1, hm1, hso⟩ := resolveStep_idem hwf hafc hstep
        rcases hso with hrepS | ⟨rfl, hpnr⟩
        · obtain ⟨hwfF, hmF, hrF⟩ := ih hafr hwf1 hr
          refine ⟨hwfF, heapMono_trans hm1 hmF, ?_⟩
          intro H2 hm2
          rw [resolveSegs, if_neg hc,
            hrepS H2 (heapMono_trans hmF hm2)]
          exact hrF H2 hm2
        · obtain ⟨-, hqnr, -⟩ := resolveSegs_nonref hpnr hr
          exact absurd rfl (hqnr a)

def c7H0 : Heap := { objs := [(0, .map [])], next := 1 }

def c2H0 : Heap := { objs := [(0, .map [])], next := 1 }

def c2H1 : Heap := (insertValueByPath c2H0 (.ref 0) "name" none).1

def c2H2 : Heap := c2H1.set 1 (.map (rset [] "key" (.num 1)))

def c7H1 : Heap := (insertValueByPath c7H0 (.ref 0) "a/b" none).1

def c7cexH : Heap := { objs := [(0, .map [("a", .str "x")])], next := 1 }

theorem resolveSegs_stop_empty {l₁ l₂ : List String} :
    ∀ {h : Heap} {ptr : HVal} {path : String},
    resolveSegs h ptr (l₁ ++ "" :: l₂) path = resolveSegs h ptr l₁ path := by
  induction l₁ with
  | nil =>
    intro h ptr path
    simp [resolveSegs]
  | cons c rest ih =>
    intro h ptr path
    rw [List.cons_append]
    simp only [resolveSegs]
    by_cases hc : c = ""
    · simp [hc]
    · rw [if_neg hc, if_neg hc]
      cases hs : resolveStep h ptr c path with
      | error e => rfl
      | ok p =>
        obtain ⟨h₁, p₁⟩ := p
        exact ih

/-! ## The claims -/

/-- C2: node creation and aliasing — corrected.  Per segment the resolver
creates each missing node exactly as claimed: a missing (or falsy) name
under a map parent becomes a fresh empty sequence when the segment carries
array semantics and a fresh empty map otherwise, linked under the name and
returned as the target (conjunct 1); an explicit index slot of a sequence
is filled with a fresh empty map only when the slot is absent or nullish,
an occupied slot being returned unchanged (conjunct 2); an absent (or
falsy) bracketed-key slot is created as a fresh empty map (conjunct 3).
Path-long aliasing holds success-conditioned: when a callback-free run
resolves an append-free path to a node of the structure, the callback
variant applies the callback to exactly that node and returns the same
pointer, and a callback mutation writing a free field of that map node is
visible when reading the root at the same path afterwards (conjunct 4).
The original claim's unconditional "for every root map and every path of
well-formed segments" is refuted by the counterexample: a truthy primitive
met along the walk makes the next creation write throw a strict-mode
TypeError instead of creating the node. -/
theorem C2_creates_and_aliases :
    (∀ (h : Heap) (p : Addr) (fs : List (String × HVal))
        (c : PathComponent) (component path : String),
      heapWFb h = true → h.get p = some (.map fs) → c.name ≠ "" →
      (∀ v0, lookupKV fs c.name = some v0 → jsTruthy v0 = false) →
      resolveName h (.ref p) c component path
        = .ok (((h.alloc
              (if c.isArray then .arr [] [] else .map [])).1).set p
            (.map (rset fs c.name (.ref h.next))), .ref h.next))
    ∧ (∀ (h : Heap) (t : Addr) (es : List HVal)
        (ps : List (String × HVal)) (c : PathComponent) (i : Int),
      heapWFb h = true → h.get t = some (.arr es ps) →
      c.isArray = true → c.index = some i →
      isCanonicalIndex (toString i) = true →
      (isNullish ((es[keyNatVal (toString i)]?).getD HVal.undef) = true →
        resolveTail h (.ref t) c
          = .ok (((h.alloc (.map [])).1).set t
              (.arr (arrElemSet es (keyNatVal (toString i))
                (.ref h.next)) ps), .ref h.next))
      ∧ ∀ w, es[keyNatVal (toString i)]? = some w →
          isNullish w = false →
          resolveTail h (.ref t) c = .ok (h, w))
    ∧ (∀ (h : Heap) (t : Addr) (fs : List (String × HVal))
        (c : PathComponent) (k : String),
      heapWFb h = true → h.get t = some (.map fs) →
      c.isArray = false → c.key = some k →
      (∀ v0, lookupKV fs k = some v0 → jsTruthy v0 = false) →
      resolveTail h (.ref t) c
        = .ok (((h.alloc (.map [])).1).set t
            (.map (rset fs k (.ref h.next))), .ref h.next))
    ∧ ∀ (h H : Heap) (data : HVal) (a : Addr) (path : String),
      heapWFb h = true →
      (∀ s ∈ jsSplit path '/', segAppendFree s = true) →
      insertValueByPath h data path none = (H, .ok (.ref a)) →
      (∀ f, insertValueByPath h data path (some f)
          = (f H (.ref a), .ok (.ref a)))
      ∧ ∀ (k : String) (v : HVal) (fs : List (String × HVal)),
          H.get a = some (.map fs) →
          (∀ v0, lookupKV fs k = some v0 → jsTruthy v0 = false) →
          insertValueByPath (H.set a (.map (rset fs k v))) data path none
              = (H.set a (.map (rset fs k v)), .ok (.ref a))
            ∧ heapRead (H.set a (.map (rset fs k v))) (.ref a) k
              = .ok v := by
  refine ⟨?_, ?_, ?_, ?_⟩
  · intro h p fs c component path hwf hgp hcn hold
    have hplt : p < h.next := wf_get_lt hwf hgp
    have hpne : p ≠ h.next := Nat.ne_of_lt hplt
    have hcur : heapRead h (.ref p) c.name
        = .ok ((lookupKV fs c.name).getD HVal.undef) := by
      simp [heapRead, hgp]
    have hfalsy : jsTruthy ((lookupKV fs c.name).getD HVal.undef)
        = false := by
      cases hlk : lookupKV fs c.name with
      | none => rfl
      | some w =>
        rw [Option.getD_some]
        exact hold w hlk
    by_cases hia : c.isArray = true
    · have hga1 : (h.alloc (.arr [] [])).1.get p = some (.map fs) := by
        rw [Heap.get_alloc_ne _ _ hpne]
        exact hgp
      have hw : heapWrite (h.alloc (.arr [] [])).1 (.ref p) c.name
          (.ref h.next)
          = .ok ((h.alloc (.arr [] [])).1.set p
              (.map (rset fs c.name (.ref h.next)))) := by
        simp only [heapWrite, hga1]
      unfold resolveName
      rw [if_pos hcn, hcur]
      simp [hfalsy, hia, hw, Heap.alloc_snd]
    · have hga1 : (h.alloc (.map [])).1.get p = some (.map fs) := by
        rw [Heap.get_alloc_ne _ _ hpne]
        exact hgp
      have hw : heapWrite (h.alloc (.map [])).1 (.ref p) c.name
          (.ref h.next)
          = .ok ((h.alloc (.map [])).1.set p
              (.map (rset fs c.name (.ref h.next)))) := by
        simp only [heapWrite, hga1]
      unfold resolveName
      rw [if_pos hcn, hcur]
      simp [hfalsy, hia, hw, Heap.alloc_snd]
  · intro h t es ps c i hwf hget hia hidx hci
    have htlt : t < h.next := wf_get_lt hwf hget
    have htne : t ≠ h.next := Nat.ne_of_lt htlt
    have hLne : toString i ≠ "length" := by
      intro hL
      rw [hL] at hci
      exact absurd hci (by decide)
    have hcur : heapRead h (.ref t) (toString i)
        = .ok ((es[keyNatVal (toString i)]?).getD HVal.undef) := by
      cases hel : es[keyNatVal (toString i)]? with
      | none => simp [heapRead, hget, arrPropGet, hLne, hci, hel]
      | some w => simp [heapRead, hget, arrPropGet, hLne, hci, hel]
    constructor
    · intro hnl
      have hga1 : (h.alloc (.map [])).1.get t = some (.arr es ps) := by
        rw [Heap.get_alloc_ne _ _ htne]
        exact hget
      have hw : heapWrite (h.alloc (.map [])).1 (.ref t) (toString i)
          (.ref h.next)
          = .ok ((h.alloc (.map [])).1.set t
              (.arr (arrElemSet es (keyNatVal (toString i))
                (.ref h.next)) ps)) := by
        simp [heapWrite, hga1, hLne, hci]
      unfold resolveTail
      rw [if_pos hia]
      simp only [hidx]
      rw [hcur]
      simp [hnl, hw, Heap.alloc_snd]
    · intro w hel hnn
      have hcur2 : heapRead h (.ref t) (toString i) = .ok w := by
        simp [heapRead, hget, arrPropGet, hLne, hci, hel]
      have hset : arrElemSet es (keyNatVal (toString i)) w = es := by
        unfold arrElemSet
        rw [if_pos (getElem?_some_lt hel), list_set_self hel]
      have hw2 : heapWrite h (.ref t) (toString i) w = .ok h := by
        simp only [heapWrite, hget]
        rw [if_neg hLne, if_pos hci, hset, Heap.set_get_self hget]
      unfold resolveTail
      rw [if_pos hia]
      simp only [hidx]
      rw [hcur2]
      simp [hnn, hw2]
  · intro h t fs c k hwf hget hia hkey hold
    have htlt : t < h.next := wf_get_lt hwf hget
    have htne : t ≠ h.next := Nat.ne_of_lt htlt
    have hcur : heapRead h (.ref t) k
        = .ok ((lookupKV fs k).getD HVal.undef) := by
      simp [heapRead, hget]
    have hfalsy : jsTruthy ((lookupKV fs k).getD HVal.undef) = false := by
      cases hlk : lookupKV fs k with
      | none => rfl
      | some w =>
        rw [Option.getD_some]
        exact hold w hlk
    have hga1 : (h.alloc (.map [])).1.get t = some (.map fs) := by
      rw [Heap.get_alloc_ne _ _ htne]
      exact hget
    have hw : heapWrite (h.alloc (.map [])).1 (.ref t) k
        (.ref h.next)
        = .ok ((h.alloc (.map [])).1.set t
            (.map (rset fs k (.ref h.next)))) := by
      simp only [heapWrite, hga1]
    unfold resolveTail
    rw [if_neg (by simp [hia])]
    simp only [hkey]
    rw [hcur]
    simp [hfalsy, hw, Heap.alloc_snd]
  · intro h H data a path hwf hafs hr
    have hres : resolveSegs h data (jsSplit path '/') path
        = (H, .ok (.ref a)) := by
      unfold insertValueByPath at hr
      cases hres0 : resolveSegs h data (jsSplit path '/') path with
      | mk h₁ r =>
        rw [hres0] at hr
        cases r with
        | error e =>
          obtain ⟨-, hq⟩ := Prod.mk.injEq .. ▸ hr
          exact absurd hq (by simp)
        | ok ptr =>
          obtain ⟨rfl, hq⟩ := Prod.mk.injEq .. ▸ hr
          obtain rfl : ptr = .ref a := Except.ok.inj hq
          rfl
    obtain ⟨hwfH, hmH, hrep⟩ := resolveSegs_ref_replay hafs hwf hres
    constructor
    · intro f
      simp only [insertValueByPath, hres]
    · intro k v fs hga hold
      have hm2 : HeapMono H (H.set a (.map (rset fs k v))) :=
        heapMono_set_map hga hold
      have hrep2 := hrep _ hm2
      constructor
      · simp only [insertValueByPath, hrep2]
      · have hga2 : (H.set a (.map (rset fs k v))).get a
            = some (.map (rset fs k v)) := Heap.get_set_self _ _ _
        simp only [heapRead, hga2, lookupKV_rset_self, Option.getD_some]

/-- C2 witness: creation and aliasing at concrete inputs.  The segment
`xs[]` creates a fresh empty sequence under `xs` in the empty root map; on
the root `{}` and path `name`, the callback variant applies the callback to
the node created by the callback-free run, and after the spec's mutation
`ptr.key = 1` the path still resolves to the same node, which reads back
`key` as `1`. -/
theorem C2_creates_and_aliases_witness :
    resolveName c2H0 (.ref 0) (parsePathComponent "xs[]") "xs[]" "xs[]"
        = .ok ((c2H0.alloc (.arr [] [])).1.set 0
            (.map (rset [] "xs" (.ref 1))), .ref 1)
    ∧ (∀ f, insertValueByPath c2H0 (.ref 0) "name" (some f)
        = (f c2H1 (.ref 1), .ok (.ref 1)))
    ∧ insertValueByPath c2H2 (.ref 0) "name" none = (c2H2, .ok (.ref 1))
    ∧ heapRead c2H2 (.ref 1) "key" = .ok (.num 1) :=
  have h1 := C2_creates_and_aliases.1 c2H0 0 [] (parsePathComponent "xs[]")
    "xs[]" "xs[]" rfl rfl (by decide) (fun v0 hv0 => nomatch hv0)
  have h4 := C2_creates_and_aliases.2.2.2 c2H0 c2H1 (.ref 0) 1 "name"
    rfl (by decide) rfl
  have h42 := h4.2 "key" (.num 1) [] rfl (fun v0 hv0 => nomatch hv0)
  ⟨h1, h4.1, h42.1, h42.2⟩

/-- C2 counterexample: on the root map `{a: 5}` and the well-formed path
`a/b`, the resolver does not create the missing node: segment `a` resolves to
the truthy primitive `5`, and the next segment's creation write `5["b"] = {}`
throws a strict-mode TypeError. -/
theorem C2_counterexample :
    (insertValueByPath { objs := [(0, .map [("a", .num 5)])], next := 1 }
      (.ref 0) "a/b" none).2 = .error .typeError := by rfl

/-- C3: for every heap and root value, resolving the paths `[]` and `[0]`
throws synchronously with the exact spec messages (failing segment and full
path quoted); and the unnamed-array segment is the only condition raising the
source's explicit invalid-path error.  The original claim's stronger clause —
that this is the only condition under which the resolver raises at all — is
refuted by the counterexample (strict-mode TypeErrors also escape), so the
second conjunct is the amended form restricted to the explicit error. -/
theorem C3_unnamed_array_error :
    (∀ (h : Heap) (data : HVal) (fn : Option (Heap → HVal → Heap)),
      (insertValueByPath h data "[]" fn).2
          = .error (.invalidPath
            "unnamed array not allowed. failed parsing '[]' in '[]'")
        ∧ (insertValueByPath h data "[0]" fn).2
          = .error (.invalidPath
            "unnamed array not allowed. failed parsing '[0]' in '[0]'"))
    ∧ ∀ (h : Heap) (data : HVal) (path : String)
        (fn : Option (Heap → HVal → Heap)) (h₂ : Heap) (msg : String),
        insertValueByPath h data path fn = (h₂, .error (.invalidPath msg)) →
        ∃ seg, seg ∈ jsSplit path '/'
          ∧ (parsePathComponent seg).name = ""
          ∧ (parsePathComponent seg).isArray = true
          ∧ msg = unnamedArrayMsg seg path := by
  constructor
  · intro h data fn
    exact ⟨rfl, rfl⟩
  · intro h data path fn h₂ msg hins
    simp only [insertValueByPath] at hins
    cases hrs : resolveSegs h data (jsSplit path '/') path with
    | mk h₁ res =>
      cases res with
      | ok ptr =>
        rw [hrs] at hins
        cases fn <;> simp at hins
      | error e =>
        rw [hrs] at hins
        simp only [Prod.mk.injEq, Except.error.injEq] at hins
        rcases resolveSegs_error hrs with h1 | ⟨seg, hm, hn0, hia, hmsg⟩
        · rw [hins.2] at h1
          exact absurd h1 (by simp)
        · rw [hins.2] at hmsg
          simp only [JSErr.invalidPath.injEq] at hmsg
          exact ⟨seg, hm, hn0, hia, hmsg⟩

/-- C3 witness: the resolver run on `[]` from an empty heap produces the
unnamed-array segment and the spec's exact message. -/
theorem C3_unnamed_array_error_witness :
    ∃ seg, seg ∈ jsSplit "[]" '/'
      ∧ (parsePathComponent seg).name = ""
      ∧ (parsePathComponent seg).isArray = true
      ∧ "unnamed array not allowed. failed parsing '[]' in '[]'"
        = unnamedArrayMsg seg "[]" :=
  C3_unnamed_array_error.2 { objs := [], next := 0 } (.undef) "[]" none
    { objs := [], next := 0 }
    "unnamed array not allowed. failed parsing '[]' in '[]'" rfl

/-- C3 counterexample: a raise that is not the unnamed-array condition — on
the root `{a: "x"}` the well-formed path `a[]` reaches `"x".push({})`, a
strict-mode TypeError, so the unnamed-array segment is not the only condition
under which the resolver raises. -/
theorem C3_counterexample :
    (insertValueByPath { objs := [(0, .map [("a", .str "x")])], next := 1 }
      (.ref 0) "a[]" none).2 = .error .typeError := by rfl

/-- C4: totality of the diff engine — corrected.  On snapshots free of `null`
the engine is total: `computeDiff` on two maps and `computeArrayDiff` on two
arrays always return a result, and mismatched types degrade to leaf value
comparisons.  The unqualified claim fails on snapshots containing `null`:
`typeof null === 'object'` passes the object guard and the recursion calls
`Object.keys(null)`, which throws (see the counterexample). -/
theorem C4_total_off_null (fs gs : List (String × JVal)) (xs ys : List JVal)
    (h1 : noNullFields fs = true) (h2 : noNullFields gs = true)
    (h3 : noNullList xs = true) (h4 : noNullList ys = true) :
    (∃ r, computeDiff (.obj fs) (.obj gs) = .ok r)
      ∧ (∃ r, computeArrayDiff xs ys = .ok r) :=
  ⟨computeDiff_total h1 h2, computeArrayDiff_total h3 h4⟩

/-- C4 witness: the totality theorem applied to the concrete snapshots
`{a: 1}` vs `{}` and `[1]` vs `[2, true]`. -/
theorem C4_total_off_null_witness :
    (∃ r, computeDiff (.obj [("a", .num 1)]) (.obj []) = .ok r)
      ∧ (∃ r, computeArrayDiff [.num 1] [.num 2, .bool true] = .ok r) :=
  C4_total_off_null [("a", .num 1)] [] [.num 1] [.num 2, .bool true]
    rfl rfl rfl rfl

/-- C4 counterexample: a snapshot containing `null` makes `computeDiff`
throw — both sides hold `null` at key `a`, `typeof null === 'object'` sends
the engine into a structural recursion, and `Object.keys(null)` raises a
TypeError instead of degrading to a leaf comparison. -/
theorem C4_counterexample :
    computeDiff (.obj [("a", .null)]) (.obj [("a", .null)])
      = .error .typeError := by rfl

/-- C9: a parsed path component never carries both an `index` and a `key` —
that half is confirmed for every segment string.  The other half of the
claim, that a set `index` is non-negative, is false: the bracket content
goes through JS `parseInt`, which accepts signed integers, so `a[-1]`
parses to the negative index `-1` (see the counterexample). -/
theorem C9_component_invariant (s : String) :
    ((parsePathComponent s).index.isSome
      && (parsePathComponent s).key.isSome) = false := by
  simp only [parsePathComponent]
  split
  · rfl
  · split
    · rfl
    · split
      · rfl
      · split <;> rfl

/-- C9 counterexample: the segment `a[-1]` parses to the negative explicit
index `-1`. -/
theorem C9_counterexample :
    (parsePathComponent "a[-1]").index = some (-1) ∧ ((-1 : Int) < 0) :=
  ⟨rfl, by decide⟩

/-- C1: key-union coverage — corrected.  `computeDiff` iterates the merged
key set of both maps, so a key present in only one side with a defined value
is visited and recorded as a pair against `undefined`, provided it cannot
collide with a generated sub-path of a sibling key (no `[` or `/` in the key,
no empty keys).  The unqualified claim fails: the entry of a key unique to
one side can be silently overwritten by a sibling array diff whose generated
path equals that key (see the counterexample). -/
theorem C1_union_key_entries {fs gs : List (String × JVal)} {r : DiffResults}
    (h : computeDiff (.obj fs) (.obj gs) = .ok r) {k : String}
    (hnm : "" ∉ fs.map Prod.fst) (hnn : "" ∉ gs.map Prod.fst)
    (hbr : '[' ∉ k.data) (hsl : '/' ∉ k.data) :
    (k ∈ fs.map Prod.fst → k ∉ gs.map Prod.fst →
      jsGet (.obj fs) k ≠ .undef →
      lookupKV r.diffs k = some (jsGet (.obj fs) k, .undef))
    ∧ (k ∈ gs.map Prod.fst → k ∉ fs.map Prod.fst →
      jsGet (.obj gs) k ≠ .undef →
      lookupKV r.diffs k = some (.undef, jsGet (.obj gs) k)) := by
  constructor
  · intro hmem habs hdef
    have hga : jsGet (.obj gs) k = .undef := by
      simp only [jsGet]
      rw [lookupKV_eq_none_iff.mpr habs]
      rfl
    have hta : ¬ (isJsArr (jsGet (.obj fs) k)
        && isJsArr (jsGet (.obj gs) k)) = true := by
      rw [hga]
      simp [isJsArr]
    have hto : ¬ (jsTypeofObject (jsGet (.obj fs) k)
        && jsTypeofObject (jsGet (.obj gs) k)) = true := by
      rw [hga]
      simp [jsTypeofObject]
    have hent := computeDiff_direct_entry h (Or.inl hmem) hnm hnn hbr hsl
      hta hto
    rw [hga] at hent
    rw [hent, if_neg (by simp [jsStrictEq_undef_right hdef])]
  · intro hmem habs hdef
    have hga : jsGet (.obj fs) k = .undef := by
      simp only [jsGet]
      rw [lookupKV_eq_none_iff.mpr habs]
      rfl
    have hta : ¬ (isJsArr (jsGet (.obj fs) k)
        && isJsArr (jsGet (.obj gs) k)) = true := by
      rw [hga]
      simp [isJsArr]
    have hto : ¬ (jsTypeofObject (jsGet (.obj fs) k)
        && jsTypeofObject (jsGet (.obj gs) k)) = true := by
      rw [hga]
      simp [jsTypeofObject]
    have hent := computeDiff_direct_entry h (Or.inr hmem) hnm hnn hbr hsl
      hta hto
    rw [hga] at hent
    rw [hent, if_neg (by simp [jsStrictEq_undef_left hdef])]

/-- C1 witness: on `{a: 1}` vs `{b: 2}` the key `a`, present only in the old
map, is recorded as `(1, undefined)`. -/
theorem C1_union_key_entries_witness :
    lookupKV ([("a", ((.num 1 : JVal), (.undef : JVal))),
      ("b", (.undef, .num 2))] : List (String × (JVal × JVal))) "a"
      = some (.num 1, .undef) :=
  (C1_union_key_entries
    (rfl : computeDiff (.obj [("a", .num 1)]) (.obj [("b", .num 2)])
      = .ok { hasDiff := true,
              diffs := [("a", (.num 1, .undef)), ("b", (.undef, .num 2))] })
    (by decide) (by decide) (by decide) (by decide)).1
    (by decide) (by decide) (by exact fun hc => nomatch hc)

/-- C1 counterexample: the key `b[0]`, present only in the old map with value
`5`, ends up paired as `(1, 2)` instead of `(5, undefined)`: the sibling key
`b` holds arrays on both sides and the array sub-diff merges its `[0]` entry
under the colliding path `b[0]`, silently overwriting the union-key entry. -/
theorem C1_counterexample :
    computeDiff (.obj [("b[0]", .num 5), ("b", .arr [.num 1])])
        (.obj [("b", .arr [.num 2])])
      = .ok { hasDiff := true, diffs := [("b[0]", (.num 1, .num 2))] } := by
  rfl

/-- C6: structural recursion only for matching container kinds — corrected.
When the two values at a key are not both object-typed, the difference is
indeed recorded as one direct value pair at that key.  But "the same kind of
container" is too strong: a sequence on one side and a map on the other are
both `typeof 'object'`, and the engine recurses structurally across the
mismatched shapes instead of recording a direct pair (see the
counterexample). -/
theorem C6_mismatch_direct {fs gs : List (String × JVal)} {r : DiffResults}
    (h : computeDiff (.obj fs) (.obj gs) = .ok r) {k : String}
    (hmem : k ∈ fs.map Prod.fst ∨ k ∈ gs.map Prod.fst)
    (hnm : "" ∉ fs.map Prod.fst) (hnn : "" ∉ gs.map Prod.fst)
    (hbr : '[' ∉ k.data) (hsl : '/' ∉ k.data)
    (hto : (jsTypeofObject (jsGet (.obj fs) k)
        && jsTypeofObject (jsGet (.obj gs) k)) = false) :
    lookupKV r.diffs k =
      if jsStrictEq (jsGet (.obj fs) k) (jsGet (.obj gs) k) then none
      else some (jsGet (.obj fs) k, jsGet (.obj gs) k) := by
  have hta : ¬ (isJsArr (jsGet (.obj fs) k)
      && isJsArr (jsGet (.obj gs) k)) = true := by
    intro hc
    rw [Bool.and_eq_true] at hc
    rw [isJsArr_typeof hc.1, isJsArr_typeof hc.2] at hto
    simp at hto
  exact computeDiff_direct_entry h hmem hnm hnn hbr hsl hta (by simp [hto])

/-- C6 witness: a scalar vs a map at key `k` (mismatched shapes) is recorded
as the direct pair `(1, {a: 2})`. -/
theorem C6_mismatch_direct_witness :
    lookupKV [("k", ((.num 1 : JVal), (.obj [("a", .num 2)] : JVal)))] "k"
      = some (.num 1, .obj [("a", .num 2)]) :=
  C6_mismatch_direct
    (rfl : computeDiff (.obj [("k", .num 1)])
        (.obj [("k", .obj [("a", .num 2)])])
      = .ok { hasDiff := true,
              diffs := [("k", (.num 1, .obj [("a", .num 2)]))] })
    (Or.inl (by decide)) (by decide) (by decide) (by decide) (by decide) rfl

/-- C6 counterexample: a sequence vs a map at key `k` — mismatched container
shapes — is not recorded as a direct value pair: both sides pass the
`typeof 'object'` guard, the engine recurses structurally, and the result
holds entries under `k/0` and `k/a` instead of one entry at `k`. -/
theorem C6_counterexample :
    computeDiff (.obj [("k", .arr [.num 1])])
        (.obj [("k", .obj [("a", .num 2)])])
      = .ok { hasDiff := true,
              diffs := [("k/0", (.num 1, .undef)), ("k/a", (.undef, .num 2))] } := by
  rfl

/-- C5: the array diff — corrected.  The loop covers indices `0..max-1`;
when both elements are object-typed a full structural sub-diff decides
whether an entry appears, otherwise an entry appears exactly on strict
inequality, out-of-range reads comparing as `undefined`; `hasDiff` is true
iff at least one entry was recorded, and every recorded key has the shape
`[i]`.  The original claim's merging clause fails: a non-empty sub-diff is
recorded as the whole element pair under the plain key `[i]`, and the
sub-diff's own path suffixes are not concatenated after `[i]` (that merging
happens in `computeDiff`'s array branch, not in `computeArrayDiff`; see the
counterexample). -/
theorem C5_array_diff {xs ys : List JVal} {r : DiffResults}
    (h : computeArrayDiff xs ys = .ok r) :
    (r.hasDiff = true ↔ r.diffs ≠ [])
    ∧ (∀ key ∈ r.diffs.map Prod.fst,
        ∃ i, i < (if xs.length > ys.length then xs.length else ys.length)
          ∧ key = "[" ++ Nat.repr i ++ "]")
    ∧ ∀ i, i < (if xs.length > ys.length then xs.length else ys.length) →
      ((jsTypeofObject (xs.getD i .undef)
          && jsTypeofObject (ys.getD i .undef)) = true →
        ∃ sub, computeDiff (xs.getD i .undef) (ys.getD i .undef) = .ok sub
          ∧ lookupKV r.diffs ("[" ++ Nat.repr i ++ "]")
            = (if sub.hasDiff
              then some (xs.getD i .undef, ys.getD i .undef) else none))
      ∧ (¬ (jsTypeofObject (xs.getD i .undef)
          && jsTypeofObject (ys.getD i .undef)) = true →
        lookupKV r.diffs ("[" ++ Nat.repr i ++ "]")
          = (if jsStrictEq (xs.getD i .undef) (ys.getD i .undef) then none
            else some (xs.getD i .undef, ys.getD i .undef))) := by
  obtain ⟨hs1, hs2⟩ := computeArrayDiff_shape h
  exact ⟨hs1, hs2, fun i hi => computeArrayDiff_entry h hi⟩

/-- C5 witness: on `[1]` vs `[2]` index 0 is compared by strict equality and
recorded as the pair `(1, 2)` under the key `[0]`. -/
theorem C5_array_diff_witness :
    lookupKV [("[0]", ((.num 1 : JVal), (.num 2 : JVal)))]
        ("[" ++ Nat.repr 0 ++ "]")
      = some (.num 1, .num 2) :=
  ((C5_array_diff (rfl : computeArrayDiff [.num 1] [.num 2]
      = .ok { hasDiff := true, diffs := [("[0]", (.num 1, .num 2))] })).2.2 0
    (by decide)).2 (by decide)

/-- C5 counterexample: both elements at index 0 are maps differing at field
`x`; the non-empty sub-diff (own path suffix `x`) is recorded as the whole
element pair under the plain key `[0]` — no key `[0]x` or `[0]/x` appears,
refuting the claimed suffix concatenation. -/
theorem C5_counterexample :
    computeArrayDiff [.obj [("x", .num 1)]] [.obj [("x", .num 2)]]
      = .ok { hasDiff := true,
              diffs := [("[0]",
            (.obj [("x", .num 1)], .obj [("x", .num 2)]))] } := by
  rfl

/-- C10: an empty segment stops the walk — confirmed.  When the slash-split
of the path is `l₁ ++ "" :: l₂`, the call behaves exactly as resolving only
the segments `l₁` before the first empty one: everything after it is ignored
and never created, and the pointer resolved so far is returned (for a path
beginning with `/`, `l₁ = []` and the root itself comes back with the heap
untouched). -/
theorem C10_empty_segment_stops (h : Heap) (data : HVal) (path : String)
    (fn : Option (Heap → HVal → Heap)) (l₁ l₂ : List String)
    (hsplit : jsSplit path '/' = l₁ ++ "" :: l₂) :
    insertValueByPath h data path fn
      = (match resolveSegs h data l₁ path with
        | (h₁, .ok ptr) =>
          (match fn with
           | some f => (f h₁ ptr, .ok ptr)
           | none => (h₁, .ok ptr))
        | (h₁, .error e) => (h₁, .error e)) := by
  simp only [insertValueByPath, hsplit, resolveSegs_stop_empty]

/-- C10 witness: resolving `a//b` on the root `{}` behaves exactly as
resolving the single segment `a`; the segment `b` after the empty one is
ignored. -/
theorem C10_empty_segment_stops_witness :
    insertValueByPath { objs := [(0, .map [])], next := 1 } (.ref 0) "a//b"
        none
      = (match resolveSegs { objs := [(0, .map [])], next := 1 } (.ref 0)
            ["a"] "a//b" with
        | (h₁, .ok ptr) =>
          (match (none : Option (Heap → HVal → Heap)) with
           | some f => (f h₁ ptr, .ok ptr)
           | none => (h₁, .ok ptr))
        | (h₁, .error e) => (h₁, .error e)) :=
  C10_empty_segment_stops _ _ _ _ ["a"] ["b"] rfl

/-- C8: the diff engine never mutates its inputs and returns a freshly
allocated result — confirmed over the heap embedding (which carries JS
reference semantics), at every fuel.  After any call of `computeDiffH` or
`computeArrayDiffH` on a well-formed heap, every address live before the
call holds the same object (so both input snapshots, whose reachable
addresses are all live, are deep-equal to their pre-call state), and a
successful result is a reference to an accumulator allocated at or above
the pre-call allocation frontier whose `diffs` record is likewise fresh —
neither aliases any pre-existing object. -/
theorem C8_no_mutation_fresh_result (fuel : Nat) (h : Heap) (ov nv : HVal)
    (hwf : heapWFb h = true) :
    (∀ h₂ res, computeDiffH fuel h ov nv = (h₂, res) →
      (∀ a, a < h.next → h₂.get a = h.get a)
      ∧ ∀ v, res = .ok v → ∃ c, v = .ref c ∧ h.next ≤ c
          ∧ ∀ d, diffsAddr h₂ c = some d → h.next ≤ d)
    ∧ (∀ h₂ res, computeArrayDiffH fuel h ov nv = (h₂, res) →
      (∀ a, a < h.next → h₂.get a = h.get a)
      ∧ ∀ v, res = .ok v → ∃ c, v = .ref c ∧ h.next ≤ c
          ∧ ∀ d, diffsAddr h₂ c = some d → h.next ≤ d) := by
  constructor
  · intro h₂ res he
    simp only [computeDiffH] at he
    set hB := ((h.alloc (.map [])).1.alloc
      (.map [("hasDiff", .bool false),
        ("diffs", .ref (h.alloc (.map [])).2)])) with hBdef
    have hfr1 : (h.alloc (.map [])).1.get (h.alloc (.map [])).1.next
        = none := wf_get_none (wf_alloc hwf _) (Nat.le_refl _)
    have hgB : hB.1.get hB.2
        = some (.map [("hasDiff", .bool false),
            ("diffs", .ref (h.alloc (.map [])).2)]) :=
      Heap.get_alloc_self _ _ hfr1
    have hdB : diffsAddr hB.1 hB.2 = some h.next := by
      simp only [diffsAddr, hGet, heapRead, hgB]
      rfl
    have wfB : heapWFb hB.1 = true := wf_alloc (wf_alloc hwf _) _
    have hB2 : hB.2 = h.next + 1 := rfl
    have hBnext : hB.1.next = h.next + 2 := rfl
    have accB : AccOK hB.1 hB.2 := by
      constructor
      · rw [hB2, hBnext]
        exact Nat.lt_succ_self _
      · intro d hd
        rw [hdB] at hd
        obtain rfl := Option.some.injEq .. ▸ hd
        rw [hB2, hBnext]
        exact ⟨Nat.lt_succ_of_lt (Nat.lt_succ_self _),
          Nat.ne_of_lt (Nat.lt_succ_self _)⟩
    have hgets : ∀ a, a < h.next → hB.1.get a = h.get a := by
      intro a ha
      rw [hBdef]
      rw [Heap.get_alloc_ne _ _
          (show a ≠ (h.alloc (.map [])).1.next from
            Nat.ne_of_lt (Nat.lt_succ_of_lt ha))]
      exact Heap.get_alloc_ne _ _ (Nat.ne_of_lt ha)
    cases hD : hDiff fuel hB.1 ov nv "" hB.2 with
    | mk h₁ r =>
      have fD : FrameOut hB.1 h₁ hB.2 :=
        (hFrameAll fuel).1 _ _ _ _ _ _ _ hD wfB accB
      have hgets₁ : ∀ a, a < h.next → h₁.get a = h.get a := by
        intro a ha
        have h1 : a < hB.1.next := by
          rw [hBnext]
          exact Nat.lt_succ_of_lt (Nat.lt_succ_of_lt ha)
        have h2 : a ≠ hB.2 := by
          rw [hB2]
          exact Nat.ne_of_lt (Nat.lt_succ_of_lt ha)
        have h3 : diffsAddr hB.1 hB.2 ≠ some a := by
          rw [hdB]
          intro hc
          exact Nat.ne_of_lt ha ((Option.some.injEq .. ▸ hc).symm)
        rw [fD.2.2.1 a h1 h2 h3]
        exact hgets a ha
      cases r with
      | ok u =>
        simp only [hD] at he
        obtain ⟨rfl, he2⟩ := Prod.mk.injEq .. ▸ he
        refine ⟨hgets₁, ?_⟩
        intro v hv
        rw [← he2] at hv
        obtain rfl : HVal.ref hB.2 = v := Except.ok.injEq .. ▸ hv
        refine ⟨hB.2, rfl, by rw [hB2]; exact Nat.le_succ _, ?_⟩
        intro d hd
        rw [fD.2.2.2, hdB] at hd
        exact Nat.le_of_eq (Option.some.injEq .. ▸ hd)
      | error e₁ =>
        simp only [hD] at he
        obtain ⟨rfl, he2⟩ := Prod.mk.injEq .. ▸ he
        refine ⟨hgets₁, ?_⟩
        intro v hv
        rw [← he2] at hv
        exact absurd hv (by simp)
  · intro h₂ res he
    have fA := (hFrameAll fuel).2.2.1 _ _ _ _ _ he hwf
    refine ⟨fA.2.2.1, ?_⟩
    intro v hv
    obtain ⟨m, d, rfl, hm1, hm2, hd1, hd2, hd3, hd4⟩ := fA.2.2.2 v hv
    refine ⟨m, rfl, hm1, ?_⟩
    intro d₂ hd₂
    rw [hd1] at hd₂
    obtain rfl := Option.some.injEq .. ▸ hd₂
    exact hd2

/-- The one-object heap holding the map `{a: 1}`. -/
def c8HeapIn : Heap :=
  { objs := [(0, .map [("a", .num 1)])], next := 1 }

/-- The heap after diffing `{a: 1}` against itself: the input object plus the
fresh diffs record (address 1) and the fresh accumulator (address 2). -/
def c8HeapOut : Heap :=
  { objs := [(0, .map [("a", .num 1)]), (1, .map []),
      (2, .map [("hasDiff", .bool false), ("diffs", .ref 1)])],
    next := 3 }

/-- C8 witness: a concrete run — diffing the map `{a: 1}` against itself over
the heap — returns the fresh accumulator at address 2 with its diffs record
at the fresh address 1, both at or above the pre-call frontier 1. -/
theorem C8_no_mutation_fresh_result_witness :
    ∃ c, (HVal.ref 2) = HVal.ref c ∧ (1 : Nat) ≤ c
      ∧ ∀ d, diffsAddr c8HeapOut c = some d → (1 : Nat) ≤ d :=
  ((C8_no_mutation_fresh_result 3 c8HeapIn (.ref 0) (.ref 0) rfl).1
    c8HeapOut (.ok (.ref 2)) rfl).2 (.ref 2) rfl

/-- C7: for a well-formed heap and a path all of whose slash-separated
segments are append-free (no segment of the shape `name[]` requesting an
array push), a successful callback-free `insertValueByPath` run is
idempotent on structure: re-running it on its own output heap leaves that
heap exactly unchanged and returns the same node reference. -/
theorem C7_idempotent {h H : Heap} {data q : HVal} {path : String}
    (hwf : heapWFb h = true)
    (haf : ∀ s ∈ jsSplit path '/', segAppendFree s = true)
    (hr : insertValueByPath h data path none = (H, .ok q)) :
    insertValueByPath H data path none = (H, .ok q) := by
  unfold insertValueByPath at hr ⊢
  cases hres : resolveSegs h data (jsSplit path '/') path with
  | mk h₁ r =>
    rw [hres] at hr
    cases r with
    | error e =>
      obtain ⟨-, hq⟩ := Prod.mk.injEq .. ▸ hr
      exact absurd hq (by simp)
    | ok ptr =>
      obtain ⟨rfl, hq⟩ := Prod.mk.injEq .. ▸ hr
      obtain rfl : ptr = q := Except.ok.inj hq
      obtain ⟨hwfH, hm, hreplay⟩ := resolveSegs_idem haf hwf hres
      rw [hreplay]

theorem C7_idempotent_witness :
    insertValueByPath c7H1 (HVal.ref 0) "a/b" none
      = (c7H1, .ok (.ref 2)) :=
  C7_idempotent (h := c7H0) (by decide) (by decide) rfl

/-- C7 counterexample: the totality half of the claim fails.  The path
`a/b` is well formed and append-free, yet on a root whose field `a` holds
the primitive string `x`, the resolver's creation write `a.b = {}` targets
a primitive and throws a `TypeError` already on the first call. -/
theorem C7_counterexample :
    (∀ s ∈ jsSplit "a/b" '/', segAppendFree s = true)
    ∧ insertValueByPath c7cexH (.ref 0) "a/b" none
        = (c7cexH, .error .typeError) :=
  ⟨by decide, rfl⟩

end DynForm
